import Mathlib

/-!
# ToyC lexer (`src/lexer.cpp`): shallow embedding and verified properties

Modelling conventions.

* A C++ `char` is a Lean `Char`; a `std::string` is a `List Char` (one list
  element per `char`).  The `<cctype>` predicates are those of the "C" locale.
* The `int` members `pos` and `line` are read in two ways.  `Lexer`, `advance`,
  ..., `tokenize` read them as unbounded integers (`pos` an `Int`, the code
  decrements it once; `line` a `Nat`, it is only ever incremented).  `Lexer32`,
  `advance32`, ..., `tokenize32` read them as the compiled program has them:
  32 bits wide in two's complement, every `++` and `--` reduced modulo `2^32`
  by `wrap32` (the language leaves signed overflow undefined; wrapping is what
  the usual targets do).  The two readings agree on every input of at most
  `2^31 - 2` characters (`tokenize32_eq_tokenize` and the lemmas before it); on
  an input of `2^31` characters or more `pos++` overflows
  (`tokenize32_overflow`).  Termination, the range of `pos`, the line-counter
  invariant and the reading of the whole input are stated for the 32-bit
  reading.
* The comparison `pos < input.length()` converts `pos` to an unsigned value, so
  a negative `pos` compares as not smaller: it is modelled as
  `0 ≤ pos ∧ pos < length`.
* The object state (`input`, `pos`, `line`, `current_char`) is passed
  explicitly.  Every `while` loop is a function recursive on a fuel argument
  that answers `none` when the fuel runs out, so `some _` always means that
  the loop really left through its exit condition.
* Standard input is the list of the lines `std::getline` reads; standard
  output is the list of the characters written, `std::endl` being a newline
  and an index being written in decimal (`Nat.toDigits 10`).  A
  `std::unordered_map` is an association list; `operator[]` on a missing key
  gives the empty string.
-/

namespace ToyC

/-! ## Data model -/

/-- The enumeration `TokenType` (lexer.cpp, lines 7-14). -/
inductive TokenType where
  | INT | VOID | IF | ELSE | WHILE | BREAK | CONTINUE | RETURN
  | IDENT | INTCONST
  | PLUS | MINUS | MULTIPLY | DIVIDE | MOD
  | ASSIGN | EQ | NE | LT | GT | LE | GE
  | AND | OR | NOT
  | LPAREN | RPAREN | LBRACE | RBRACE | COMMA | SEMICOLON
  deriving DecidableEq

/-- The record `Token` (lexer.cpp, lines 16-20). -/
structure Token where
  line : Nat
  type : TokenType
  value : List Char
  deriving DecidableEq

/-- The data members of `class Lexer` (lexer.cpp, lines 24-27). -/
structure Lexer where
  input : List Char
  pos : Int
  line : Nat
  current_char : Char
  deriving DecidableEq

/-- The end-of-input sentinel, the character written with backslash-zero in the source. -/
def NUL : Char := Char.ofNat 0

/-! ## Character classes of `<cctype>` in the "C" locale -/

/-- `std::isspace`: space, `\t`, `\n`, `\v`, `\f`, `\r`. -/
def isspace (c : Char) : Bool :=
  c = ' ' || c = '\t' || c = '\n' || c = Char.ofNat 11 || c = Char.ofNat 12 || c = '\r'

/-- `std::isdigit`: `0` to `9`. -/
def isdigit (c : Char) : Bool :=
  decide (48 ≤ c.toNat ∧ c.toNat ≤ 57)

/-- `std::isalpha`: `A` to `Z` and `a` to `z`. -/
def isalpha (c : Char) : Bool :=
  decide (65 ≤ c.toNat ∧ c.toNat ≤ 90) || decide (97 ≤ c.toNat ∧ c.toNat ≤ 122)

/-- `std::isalnum`. -/
def isalnum (c : Char) : Bool :=
  isalpha c || isdigit c

/-- The table `Lexer::keywords` (lexer.cpp, lines 29-33). -/
def keywords : List (List Char × TokenType) :=
  [ ("int".toList, TokenType.INT), ("void".toList, TokenType.VOID), ("if".toList, TokenType.IF),
    ("else".toList, TokenType.ELSE), ("while".toList, TokenType.WHILE),
    ("break".toList, TokenType.BREAK), ("continue".toList, TokenType.CONTINUE),
    ("return".toList, TokenType.RETURN) ]

/-! ## Cursor primitives -/

/-- `Lexer::advance` (lexer.cpp, lines 49-56). -/
def advance (s : Lexer) : Lexer :=
  let pos := s.pos + 1
  { s with
    pos := pos
    current_char :=
      if 0 ≤ pos ∧ pos < (s.input.length : Int) then s.input.getD pos.toNat NUL else NUL }

/-- The `while` loop of `Lexer::skip_whitespace` (lexer.cpp, lines 59-62). -/
def skip_whitespace_loop : Nat → Lexer → Option Lexer
  | 0, _ => none
  | fuel + 1, s =>
    if s.current_char ≠ NUL ∧ isspace s.current_char = true then
      let s1 := if s.current_char = '\n' then { s with line := s.line + 1 } else s
      skip_whitespace_loop fuel (advance s1)
    else some s

/-- `Lexer::skip_whitespace` (lexer.cpp, lines 58-63). -/
def skip_whitespace (s : Lexer) : Option Lexer :=
  skip_whitespace_loop (s.input.length + 1) s

/-- The `while` loop of the `//` branch of `Lexer::skip_comment` (lexer.cpp, line 69). -/
def line_comment_loop : Nat → Lexer → Option Lexer
  | 0, _ => none
  | fuel + 1, s =>
    if s.current_char ≠ NUL ∧ s.current_char ≠ '\n' then
      line_comment_loop fuel (advance s)
    else some s

/-- The `while` loop of the `/*` branch of `Lexer::skip_comment`
(lexer.cpp, lines 73-81); the `break` is the answer `some (advance s1)`. -/
def block_comment_loop : Nat → Lexer → Option Lexer
  | 0, _ => none
  | fuel + 1, s =>
    if s.current_char ≠ NUL then
      if s.current_char = '*' then
        let s1 := advance s
        if s1.current_char = '/' then some (advance s1)
        else block_comment_loop fuel s1
      else
        let s1 := if s.current_char = '\n' then { s with line := s.line + 1 } else s
        block_comment_loop fuel (advance s1)
    else some s

/-- `Lexer::skip_comment` (lexer.cpp, lines 65-87). -/
def skip_comment (s : Lexer) : Option Lexer :=
  if s.current_char = '/' then
    let s1 := advance s
    if s1.current_char = '/' then
      (line_comment_loop (s1.input.length + 1) s1).map fun s2 =>
        if s2.current_char = '\n' then advance { s2 with line := s2.line + 1 } else s2
    else if s1.current_char = '*' then
      block_comment_loop (s1.input.length + 1) (advance s1)
    else some { s1 with pos := s1.pos - 1, current_char := '/' }
  else some s

/-! ## Number and identifier scanning -/

/-- The `while` loop of `Lexer::number` (lexer.cpp, lines 101-105), threading
the locals `result` and `has_digit`. -/
def number_loop : Nat → Lexer → List Char → Bool → Option (Lexer × List Char × Bool)
  | 0, _, _, _ => none
  | fuel + 1, s, result, has_digit =>
    if s.current_char ≠ NUL ∧ isdigit s.current_char = true then
      number_loop fuel (advance s) (result ++ [s.current_char]) true
    else some (s, result, has_digit)

/-- `Lexer::number` (lexer.cpp, lines 89-114): the token and the state left behind. -/
def number (s : Lexer) : Option (Token × Lexer) :=
  if s.current_char = '-' then
    some ({ line := s.line, type := TokenType.MINUS, value := ['-'] }, s)
  else
    (number_loop (s.input.length + 1) s [] false).map fun r =>
      let result := if r.2.2 = false then ['0'] else r.2.1
      ({ line := r.1.line, type := TokenType.INTCONST, value := result }, r.1)

/-- The `while` loop of `Lexer::identifier` (lexer.cpp, lines 124-127). -/
def identifier_loop : Nat → Lexer → List Char → Option (Lexer × List Char)
  | 0, _, _ => none
  | fuel + 1, s, result =>
    if s.current_char ≠ NUL ∧ (s.current_char = '_' ∨ isalnum s.current_char = true) then
      identifier_loop fuel (advance s) (result ++ [s.current_char])
    else some (s, result)

/-- `Lexer::identifier` (lexer.cpp, lines 116-141). -/
def identifier (s : Lexer) : Option (Token × Lexer) :=
  let start : Lexer × List Char :=
    if s.current_char = '_' ∨ isalpha s.current_char = true then (advance s, [s.current_char])
    else (s, [])
  (identifier_loop (s.input.length + 1) start.1 start.2).map fun r =>
    match keywords.lookup r.2 with
    | some kw => ({ line := r.1.line, type := kw, value := r.2 }, r.1)
    | none => ({ line := r.1.line, type := TokenType.IDENT, value := r.2 }, r.1)

/-! ## The main loop -/

/-- A case of the `switch` with a one-character lookahead (lexer.cpp, lines 186-209):
`advance()`, then the two-character token `long` when the next character is
`second`, else the one-character token `short`. -/
def lookahead (s : Lexer) (second : Char) (long : TokenType × List Char)
    (short : TokenType × List Char) : Lexer × Option Token :=
  let s1 := advance s
  if s1.current_char = second then
    (advance s1, some { line := s.line, type := long.1, value := long.2 })
  else (s1, some { line := s.line, type := short.1, value := short.2 })

/-- A single-character case of the `switch`. -/
def single (s : Lexer) (ty : TokenType) (v : List Char) : Lexer × Option Token :=
  (advance s, some { line := s.line, type := ty, value := v })

/-- The `switch (current_char)` of `Lexer::tokenize` (lexer.cpp, lines 180-217),
with `token.line = line` taken before it (line 166).  The answer is the state
after the case and the token pushed, `none` for the `default` case. -/
def operator (s : Lexer) : Lexer × Option Token :=
  let c := s.current_char
  if c = '+' then single s TokenType.PLUS ['+']
  else if c = '-' then single s TokenType.MINUS ['-']
  else if c = '*' then single s TokenType.MULTIPLY ['*']
  else if c = '/' then single s TokenType.DIVIDE ['/']
  else if c = '%' then single s TokenType.MOD ['%']
  else if c = '=' then lookahead s '=' (TokenType.EQ, ['=', '=']) (TokenType.ASSIGN, ['='])
  else if c = '!' then lookahead s '=' (TokenType.NE, ['!', '=']) (TokenType.NOT, ['!'])
  else if c = '<' then lookahead s '=' (TokenType.LE, ['<', '=']) (TokenType.LT, ['<'])
  else if c = '>' then lookahead s '=' (TokenType.GE, ['>', '=']) (TokenType.GT, ['>'])
  else if c = '&' then lookahead s '&' (TokenType.AND, ['&', '&']) (TokenType.AND, ['&'])
  else if c = '|' then lookahead s '|' (TokenType.OR, ['|', '|']) (TokenType.OR, ['|'])
  else if c = '(' then single s TokenType.LPAREN ['(']
  else if c = ')' then single s TokenType.RPAREN [')']
  else if c = '{' then single s TokenType.LBRACE ['{']
  else if c = '}' then single s TokenType.RBRACE ['}']
  else if c = ',' then single s TokenType.COMMA [',']
  else if c = ';' then single s TokenType.SEMICOLON [';']
  else (advance s, none)

/-- Lines 165-219 of `Lexer::tokenize`: identifier, number or operator dispatch. -/
def scan_token (s : Lexer) : Option (Lexer × Option Token) :=
  if s.current_char = '_' ∨ isalpha s.current_char = true then
    (identifier s).map fun r => (r.2, some r.1)
  else if isdigit s.current_char = true then
    (number s).map fun r => (r.2, some r.1)
  else some (operator s)

/-- One iteration of the `while` loop of `Lexer::tokenize` (lexer.cpp, lines
153-219), entered with `current_char` different from the sentinel: the state at
the end of the iteration and the token pushed during it, if any. -/
def tokenize_body (s : Lexer) : Option (Lexer × Option Token) :=
  if isspace s.current_char = true then
    (skip_whitespace s).map fun s1 => (s1, none)
  else if s.current_char = '/' then
    (skip_comment s).bind fun s1 =>
      if s1.pos = s.pos ∧ s1.line = s.line then scan_token s1 else some (s1, none)
  else scan_token s

/-- The `while (current_char != 0)` loop of `Lexer::tokenize` (lexer.cpp, lines
152-220); `fuel` bounds the number of evaluations of the loop condition. -/
def tokenize_loop : Nat → Lexer → List Token → Option (List Token × Lexer)
  | 0, _, _ => none
  | fuel + 1, s, tokens =>
    if s.current_char ≠ NUL then
      match tokenize_body s with
      | none => none
      | some (s1, none) => tokenize_loop fuel s1 tokens
      | some (s1, some t) => tokenize_loop fuel s1 (tokens ++ [t])
    else some (tokens, s)

/-- The constructor `Lexer::Lexer` (lexer.cpp, lines 144-147). -/
def Lexer.new (text : List Char) : Lexer :=
  { input := text, pos := 0, line := 1, current_char := text.headD NUL }

/-- The method `Lexer::tokenize` (lexer.cpp, lines 149-223) on an explicit
state: the returned vector and the state of the object afterwards. -/
def Lexer.tokenize (s : Lexer) : Option (List Token × Lexer) :=
  tokenize_loop (s.input.length + 1) s []

/-- Construct a lexer on `text` and call `tokenize` once, as `main` does
(lexer.cpp, lines 231-232). -/
def tokenize (text : List Char) : Option (List Token) :=
  (Lexer.new text).tokenize.map Prod.fst

/-- The state at the head of the main loop of `tokenize` after `k` complete
iterations started from `s`; `none` when the loop has left earlier. -/
def loop_head : Nat → Lexer → Option Lexer
  | 0, s => some s
  | k + 1, s =>
    if s.current_char ≠ NUL then (tokenize_body s).bind fun x => loop_head k x.1
    else none

/-! ## The driver -/

/-- The table `Lexer::token_names` (lexer.cpp, lines 35-47). -/
def token_names : List (TokenType × List Char) :=
  [ (TokenType.INT, "'int'".toList), (TokenType.VOID, "'void'".toList),
    (TokenType.IF, "'if'".toList), (TokenType.ELSE, "'else'".toList),
    (TokenType.WHILE, "'while'".toList), (TokenType.BREAK, "'break'".toList),
    (TokenType.CONTINUE, "'continue'".toList), (TokenType.RETURN, "'return'".toList),
    (TokenType.IDENT, "Ident".toList), (TokenType.INTCONST, "IntConst".toList),
    (TokenType.PLUS, "'+'".toList), (TokenType.MINUS, "'-'".toList),
    (TokenType.MULTIPLY, "'*'".toList), (TokenType.DIVIDE, "'/'".toList),
    (TokenType.MOD, "'%'".toList), (TokenType.ASSIGN, "'='".toList),
    (TokenType.EQ, "'=='".toList), (TokenType.NE, "'!='".toList),
    (TokenType.LT, "'<'".toList), (TokenType.GT, "'>'".toList),
    (TokenType.LE, "'<='".toList), (TokenType.GE, "'>='".toList),
    (TokenType.AND, "'&&'".toList), (TokenType.OR, "'||'".toList),
    (TokenType.NOT, "'!'".toList), (TokenType.LPAREN, "'('".toList),
    (TokenType.RPAREN, "')'".toList), (TokenType.LBRACE, "'\x7b'".toList),
    (TokenType.RBRACE, "'\x7d'".toList), (TokenType.COMMA, "','".toList),
    (TokenType.SEMICOLON, "';'".toList) ]

/-- `Lexer::get_token_name` (lexer.cpp, line 225): `token_names[type]`, which
is the empty string for a key that is not in the map. -/
def get_token_name (type : TokenType) : List Char :=
  (token_names.lookup type).getD []

/-- The text written for `tokens[i]` by one iteration of the output loop of
`main` (lexer.cpp, lines 234-235), `std::endl` included. -/
def print_token (i : Nat) (t : Token) : List Char :=
  Nat.toDigits 10 i ++ ":".toList ++ get_token_name t.type ++ ":\"".toList ++ t.value ++
    "\"".toList ++ ['\n']

/-- The output loop of `main` (lexer.cpp, lines 233-236) from index `i` on,
`rest` being the tokens from index `i`: the characters written to `std::cout`. -/
def print_tokens : Nat → List Token → List Char
  | _, [] => []
  | i, t :: rest => print_token i t ++ print_tokens (i + 1) rest

/-- The input loop of `main` (lexer.cpp, line 230): every line read by
`std::getline` is appended with a newline. -/
def read_input (lines : List (List Char)) : List Char :=
  lines.foldl (fun input line => input ++ (line ++ ['\n'])) []

/-- The function `main` (lexer.cpp, lines 228-238) on the lines of standard
input: the characters written to standard output. -/
def main (lines : List (List Char)) : Option (List Char) :=
  (Lexer.new (read_input lines)).tokenize.map fun r => print_tokens 0 r.1

/-! ## The states the object passes through

For every function above that changes `pos`, the list of the states of the
object right after each assignment to `pos` during one call, in execution
order.  Every `advance()` is one such assignment; the rewind of `skip_comment`
contributes the state after `pos--` and the state after `current_char = '/'`. -/

/-- States passed through by the loop of `skip_whitespace`. -/
def skip_whitespace_trace : Nat → Lexer → List Lexer
  | 0, _ => []
  | fuel + 1, s =>
    if s.current_char ≠ NUL ∧ isspace s.current_char = true then
      let s1 := if s.current_char = '\n' then { s with line := s.line + 1 } else s
      advance s1 :: skip_whitespace_trace fuel (advance s1)
    else []

/-- States passed through by the loop of the `//` branch of `skip_comment`. -/
def line_comment_trace : Nat → Lexer → List Lexer
  | 0, _ => []
  | fuel + 1, s =>
    if s.current_char ≠ NUL ∧ s.current_char ≠ '\n' then
      advance s :: line_comment_trace fuel (advance s)
    else []

/-- States passed through by the loop of the `/*` branch of `skip_comment`. -/
def block_comment_trace : Nat → Lexer → List Lexer
  | 0, _ => []
  | fuel + 1, s =>
    if s.current_char ≠ NUL then
      if s.current_char = '*' then
        let s1 := advance s
        if s1.current_char = '/' then [s1, advance s1]
        else s1 :: block_comment_trace fuel s1
      else
        let s1 := if s.current_char = '\n' then { s with line := s.line + 1 } else s
        advance s1 :: block_comment_trace fuel (advance s1)
    else []

/-- States passed through by `skip_comment`. -/
def skip_comment_trace (s : Lexer) : List Lexer :=
  if s.current_char = '/' then
    let s1 := advance s
    s1 ::
      (if s1.current_char = '/' then
        line_comment_trace (s1.input.length + 1) s1 ++
          (match line_comment_loop (s1.input.length + 1) s1 with
           | some s2 =>
             if s2.current_char = '\n' then [advance { s2 with line := s2.line + 1 }] else []
           | none => [])
      else if s1.current_char = '*' then
        advance s1 :: block_comment_trace (s1.input.length + 1) (advance s1)
      else [{ s1 with pos := s1.pos - 1 }, { s1 with pos := s1.pos - 1, current_char := '/' }])
  else []

/-- States passed through by the loop of `number`. -/
def number_loop_trace : Nat → Lexer → List Lexer
  | 0, _ => []
  | fuel + 1, s =>
    if s.current_char ≠ NUL ∧ isdigit s.current_char = true then
      advance s :: number_loop_trace fuel (advance s)
    else []

/-- States passed through by `number`. -/
def number_trace (s : Lexer) : List Lexer :=
  if s.current_char = '-' then [] else number_loop_trace (s.input.length + 1) s

/-- States passed through by the loop of `identifier`. -/
def identifier_loop_trace : Nat → Lexer → List Lexer
  | 0, _ => []
  | fuel + 1, s =>
    if s.current_char ≠ NUL ∧ (s.current_char = '_' ∨ isalnum s.current_char = true) then
      advance s :: identifier_loop_trace fuel (advance s)
    else []

/-- States passed through by `identifier`. -/
def identifier_trace (s : Lexer) : List Lexer :=
  if s.current_char = '_' ∨ isalpha s.current_char = true then
    advance s :: identifier_loop_trace (s.input.length + 1) (advance s)
  else identifier_loop_trace (s.input.length + 1) s

/-- States passed through by a lookahead case of the `switch`. -/
def lookahead_trace (s : Lexer) (second : Char) : List Lexer :=
  let s1 := advance s
  if s1.current_char = second then [s1, advance s1] else [s1]

/-- States passed through by the `switch`: the cases for `=`, `!`, `<`, `>`
look ahead for `=`, those for `&` and `|` for a second such character, and
every other case, `default` included, is one `advance()`. -/
def operator_trace (s : Lexer) : List Lexer :=
  let c := s.current_char
  if c = '=' ∨ c = '!' ∨ c = '<' ∨ c = '>' then lookahead_trace s '='
  else if c = '&' then lookahead_trace s '&'
  else if c = '|' then lookahead_trace s '|'
  else [advance s]

/-- States passed through by `scan_token`. -/
def scan_token_trace (s : Lexer) : List Lexer :=
  if s.current_char = '_' ∨ isalpha s.current_char = true then identifier_trace s
  else if isdigit s.current_char = true then number_trace s
  else operator_trace s

/-- States passed through by one iteration of the main loop. -/
def tokenize_body_trace (s : Lexer) : List Lexer :=
  if isspace s.current_char = true then skip_whitespace_trace (s.input.length + 1) s
  else if s.current_char = '/' then
    skip_comment_trace s ++
      (match skip_comment s with
       | some s1 => if s1.pos = s.pos ∧ s1.line = s.line then scan_token_trace s1 else []
       | none => [])
  else scan_token_trace s

/-- States passed through by the main loop, the state at every loop head
included. -/
def tokenize_trace : Nat → Lexer → List Lexer
  | 0, s => [s]
  | fuel + 1, s =>
    s :: (if s.current_char ≠ NUL then
        tokenize_body_trace s ++
          (match tokenize_body s with
           | some x => tokenize_trace fuel x.1
           | none => [])
      else [])

/-! ## The program with 32-bit `int` arithmetic

The definitions above read the type `int` of `pos` and `line` as unbounded.
The definitions of this section are the same functions, statement for
statement, with `int` as the compiled program has it: 32 bits wide in two's
complement, every `++` and `--` reduced by `wrap32`.  A `Token32` and a
`Lexer32` are a `Token` and a `Lexer` with `int` members of that kind.  The two
readings agree on every input of at most `2^31 - 2` characters
(`tokenize32_eq_tokenize`); on longer inputs `pos++` overflows. -/

/-- The record `Token` (lexer.cpp, lines 16-20), `line` being a 32-bit `int`. -/
structure Token32 where
  line : Int
  type : TokenType
  value : List Char
  deriving DecidableEq

/-- The data members of `class Lexer` (lexer.cpp, lines 24-27), `pos` and `line`
being 32-bit `int`s. -/
structure Lexer32 where
  input : List Char
  pos : Int
  line : Int
  current_char : Char
  deriving DecidableEq

/-- The value of an `int` expression whose mathematical value is `x`: the
representative of `x` modulo `2^32` in the range from `-2^31` to `2^31 - 1`. -/
def wrap32 (x : Int) : Int :=
  (x + 2147483648) % 4294967296 - 2147483648

/-- `Lexer::advance` (lexer.cpp, lines 49-56). -/
def advance32 (s : Lexer32) : Lexer32 :=
  let pos := wrap32 (s.pos + 1)
  { s with
    pos := pos
    current_char :=
      if 0 ≤ pos ∧ pos < (s.input.length : Int) then s.input.getD pos.toNat NUL else NUL }

/-- The `while` loop of `Lexer::skip_whitespace` (lexer.cpp, lines 59-62). -/
def skip_whitespace_loop32 : Nat → Lexer32 → Option Lexer32
  | 0, _ => none
  | fuel + 1, s =>
    if s.current_char ≠ NUL ∧ isspace s.current_char = true then
      let s1 := if s.current_char = '\n' then { s with line := wrap32 (s.line + 1) } else s
      skip_whitespace_loop32 fuel (advance32 s1)
    else some s

/-- `Lexer::skip_whitespace` (lexer.cpp, lines 58-63). -/
def skip_whitespace32 (s : Lexer32) : Option Lexer32 :=
  skip_whitespace_loop32 (s.input.length + 1) s

/-- The `while` loop of the `//` branch of `Lexer::skip_comment` (lexer.cpp, line 69). -/
def line_comment_loop32 : Nat → Lexer32 → Option Lexer32
  | 0, _ => none
  | fuel + 1, s =>
    if s.current_char ≠ NUL ∧ s.current_char ≠ '\n' then
      line_comment_loop32 fuel (advance32 s)
    else some s

/-- The `while` loop of the `/*` branch of `Lexer::skip_comment`
(lexer.cpp, lines 73-81); the `break` is the answer `some (advance s1)`. -/
def block_comment_loop32 : Nat → Lexer32 → Option Lexer32
  | 0, _ => none
  | fuel + 1, s =>
    if s.current_char ≠ NUL then
      if s.current_char = '*' then
        let s1 := advance32 s
        if s1.current_char = '/' then some (advance32 s1)
        else block_comment_loop32 fuel s1
      else
        let s1 := if s.current_char = '\n' then { s with line := wrap32 (s.line + 1) } else s
        block_comment_loop32 fuel (advance32 s1)
    else some s

/-- `Lexer::skip_comment` (lexer.cpp, lines 65-87). -/
def skip_comment32 (s : Lexer32) : Option Lexer32 :=
  if s.current_char = '/' then
    let s1 := advance32 s
    if s1.current_char = '/' then
      (line_comment_loop32 (s1.input.length + 1) s1).map fun s2 =>
        if s2.current_char = '\n' then advance32 { s2 with line := wrap32 (s2.line + 1) } else s2
    else if s1.current_char = '*' then
      block_comment_loop32 (s1.input.length + 1) (advance32 s1)
    else some { s1 with pos := wrap32 (s1.pos - 1), current_char := '/' }
  else some s

/-- The `while` loop of `Lexer::number` (lexer.cpp, lines 101-105), threading
the locals `result` and `has_digit`. -/
def number_loop32 : Nat → Lexer32 → List Char → Bool → Option (Lexer32 × List Char × Bool)
  | 0, _, _, _ => none
  | fuel + 1, s, result, has_digit =>
    if s.current_char ≠ NUL ∧ isdigit s.current_char = true then
      number_loop32 fuel (advance32 s) (result ++ [s.current_char]) true
    else some (s, result, has_digit)

/-- `Lexer::number` (lexer.cpp, lines 89-114): the token and the state left behind. -/
def number32 (s : Lexer32) : Option (Token32 × Lexer32) :=
  if s.current_char = '-' then
    some ({ line := s.line, type := TokenType.MINUS, value := ['-'] }, s)
  else
    (number_loop32 (s.input.length + 1) s [] false).map fun r =>
      let result := if r.2.2 = false then ['0'] else r.2.1
      ({ line := r.1.line, type := TokenType.INTCONST, value := result }, r.1)

/-- The `while` loop of `Lexer::identifier` (lexer.cpp, lines 124-127). -/
def identifier_loop32 : Nat → Lexer32 → List Char → Option (Lexer32 × List Char)
  | 0, _, _ => none
  | fuel + 1, s, result =>
    if s.current_char ≠ NUL ∧ (s.current_char = '_' ∨ isalnum s.current_char = true) then
      identifier_loop32 fuel (advance32 s) (result ++ [s.current_char])
    else some (s, result)

/-- `Lexer::identifier` (lexer.cpp, lines 116-141). -/
def identifier32 (s : Lexer32) : Option (Token32 × Lexer32) :=
  let start : Lexer32 × List Char :=
    if s.current_char = '_' ∨ isalpha s.current_char = true then (advance32 s, [s.current_char])
    else (s, [])
  (identifier_loop32 (s.input.length + 1) start.1 start.2).map fun r =>
    match keywords.lookup r.2 with
    | some kw => ({ line := r.1.line, type := kw, value := r.2 }, r.1)
    | none => ({ line := r.1.line, type := TokenType.IDENT, value := r.2 }, r.1)

/-- A case of the `switch` with a one-character lookahead (lexer.cpp, lines 186-209):
`advance()`, then the two-character token `long` when the next character is
`second`, else the one-character token `short`. -/
def lookahead32 (s : Lexer32) (second : Char) (long : TokenType × List Char)
    (short : TokenType × List Char) : Lexer32 × Option Token32 :=
  let s1 := advance32 s
  if s1.current_char = second then
    (advance32 s1, some { line := s.line, type := long.1, value := long.2 })
  else (s1, some { line := s.line, type := short.1, value := short.2 })

/-- A single-character case of the `switch`. -/
def single32 (s : Lexer32) (ty : TokenType) (v : List Char) : Lexer32 × Option Token32 :=
  (advance32 s, some { line := s.line, type := ty, value := v })

/-- The `switch (current_char)` of `Lexer::tokenize` (lexer.cpp, lines 180-217),
with `token.line = line` taken before it (line 166).  The answer is the state
after the case and the token pushed, `none` for the `default` case. -/
def operator32 (s : Lexer32) : Lexer32 × Option Token32 :=
  let c := s.current_char
  if c = '+' then single32 s TokenType.PLUS ['+']
  else if c = '-' then single32 s TokenType.MINUS ['-']
  else if c = '*' then single32 s TokenType.MULTIPLY ['*']
  else if c = '/' then single32 s TokenType.DIVIDE ['/']
  else if c = '%' then single32 s TokenType.MOD ['%']
  else if c = '=' then lookahead32 s '=' (TokenType.EQ, ['=', '=']) (TokenType.ASSIGN, ['='])
  else if c = '!' then lookahead32 s '=' (TokenType.NE, ['!', '=']) (TokenType.NOT, ['!'])
  else if c = '<' then lookahead32 s '=' (TokenType.LE, ['<', '=']) (TokenType.LT, ['<'])
  else if c = '>' then lookahead32 s '=' (TokenType.GE, ['>', '=']) (TokenType.GT, ['>'])
  else if c = '&' then lookahead32 s '&' (TokenType.AND, ['&', '&']) (TokenType.AND, ['&'])
  else if c = '|' then lookahead32 s '|' (TokenType.OR, ['|', '|']) (TokenType.OR, ['|'])
  else if c = '(' then single32 s TokenType.LPAREN ['(']
  else if c = ')' then single32 s TokenType.RPAREN [')']
  else if c = '{' then single32 s TokenType.LBRACE ['{']
  else if c = '}' then single32 s TokenType.RBRACE ['}']
  else if c = ',' then single32 s TokenType.COMMA [',']
  else if c = ';' then single32 s TokenType.SEMICOLON [';']
  else (advance32 s, none)

/-- Lines 165-219 of `Lexer::tokenize`: identifier, number or operator dispatch. -/
def scan_token32 (s : Lexer32) : Option (Lexer32 × Option Token32) :=
  if s.current_char = '_' ∨ isalpha s.current_char = true then
    (identifier32 s).map fun r => (r.2, some r.1)
  else if isdigit s.current_char = true then
    (number32 s).map fun r => (r.2, some r.1)
  else some (operator32 s)

/-- One iteration of the `while` loop of `Lexer::tokenize` (lexer.cpp, lines
153-219), entered with `current_char` different from the sentinel: the state at
the end of the iteration and the token pushed during it, if any. -/
def tokenize_body32 (s : Lexer32) : Option (Lexer32 × Option Token32) :=
  if isspace s.current_char = true then
    (skip_whitespace32 s).map fun s1 => (s1, none)
  else if s.current_char = '/' then
    (skip_comment32 s).bind fun s1 =>
      if s1.pos = s.pos ∧ s1.line = s.line then scan_token32 s1 else some (s1, none)
  else scan_token32 s

/-- The `while (current_char != 0)` loop of `Lexer::tokenize` (lexer.cpp, lines
152-220); `fuel` bounds the number of evaluations of the loop condition. -/
def tokenize_loop32 : Nat → Lexer32 → List Token32 → Option (List Token32 × Lexer32)
  | 0, _, _ => none
  | fuel + 1, s, tokens =>
    if s.current_char ≠ NUL then
      match tokenize_body32 s with
      | none => none
      | some (s1, none) => tokenize_loop32 fuel s1 tokens
      | some (s1, some t) => tokenize_loop32 fuel s1 (tokens ++ [t])
    else some (tokens, s)

/-- The constructor `Lexer::Lexer` (lexer.cpp, lines 144-147). -/
def Lexer32.new (text : List Char) : Lexer32 :=
  { input := text, pos := 0, line := 1, current_char := text.headD NUL }

/-- The method `Lexer::tokenize` (lexer.cpp, lines 149-223) on an explicit
state: the returned vector and the state of the object afterwards. -/
def Lexer32.tokenize (s : Lexer32) : Option (List Token32 × Lexer32) :=
  tokenize_loop32 (s.input.length + 1) s []

/-- Construct a lexer on `text` and call `tokenize` once, as `main` does
(lexer.cpp, lines 231-232). -/
def tokenize32 (text : List Char) : Option (List Token32) :=
  (Lexer32.new text).tokenize.map Prod.fst

/-- The state at the head of the main loop of `tokenize` after `k` complete
iterations started from `s`; `none` when the loop has left earlier. -/
def loop_head32 : Nat → Lexer32 → Option Lexer32
  | 0, s => some s
  | k + 1, s =>
    if s.current_char ≠ NUL then (tokenize_body32 s).bind fun x => loop_head32 k x.1
    else none

/-! ### The states the object passes through, with 32-bit `int` arithmetic -/

/-- States passed through by the loop of `skip_whitespace`. -/
def skip_whitespace_trace32 : Nat → Lexer32 → List Lexer32
  | 0, _ => []
  | fuel + 1, s =>
    if s.current_char ≠ NUL ∧ isspace s.current_char = true then
      let s1 := if s.current_char = '\n' then { s with line := wrap32 (s.line + 1) } else s
      advance32 s1 :: skip_whitespace_trace32 fuel (advance32 s1)
    else []

/-- States passed through by the loop of the `//` branch of `skip_comment`. -/
def line_comment_trace32 : Nat → Lexer32 → List Lexer32
  | 0, _ => []
  | fuel + 1, s =>
    if s.current_char ≠ NUL ∧ s.current_char ≠ '\n' then
      advance32 s :: line_comment_trace32 fuel (advance32 s)
    else []

/-- States passed through by the loop of the `/*` branch of `skip_comment`. -/
def block_comment_trace32 : Nat → Lexer32 → List Lexer32
  | 0, _ => []
  | fuel + 1, s =>
    if s.current_char ≠ NUL then
      if s.current_char = '*' then
        let s1 := advance32 s
        if s1.current_char = '/' then [s1, advance32 s1]
        else s1 :: block_comment_trace32 fuel s1
      else
        let s1 := if s.current_char = '\n' then { s with line := wrap32 (s.line + 1) } else s
        advance32 s1 :: block_comment_trace32 fuel (advance32 s1)
    else []

/-- States passed through by `skip_comment`. -/
def skip_comment_trace32 (s : Lexer32) : List Lexer32 :=
  if s.current_char = '/' then
    let s1 := advance32 s
    s1 ::
      (if s1.current_char = '/' then
        line_comment_trace32 (s1.input.length + 1) s1 ++
          (match line_comment_loop32 (s1.input.length + 1) s1 with
           | some s2 =>
             if s2.current_char = '\n' then [advance32 { s2 with line := wrap32 (s2.line + 1) }] else []
           | none => [])
      else if s1.current_char = '*' then
        advance32 s1 :: block_comment_trace32 (s1.input.length + 1) (advance32 s1)
      else [{ s1 with pos := wrap32 (s1.pos - 1) }, { s1 with pos := wrap32 (s1.pos - 1), current_char := '/' }])
  else []

/-- States passed through by the loop of `number`. -/
def number_loop_trace32 : Nat → Lexer32 → List Lexer32
  | 0, _ => []
  | fuel + 1, s =>
    if s.current_char ≠ NUL ∧ isdigit s.current_char = true then
      advance32 s :: number_loop_trace32 fuel (advance32 s)
    else []

/-- States passed through by `number`. -/
def number_trace32 (s : Lexer32) : List Lexer32 :=
  if s.current_char = '-' then [] else number_loop_trace32 (s.input.length + 1) s

/-- States passed through by the loop of `identifier`. -/
def identifier_loop_trace32 : Nat → Lexer32 → List Lexer32
  | 0, _ => []
  | fuel + 1, s =>
    if s.current_char ≠ NUL ∧ (s.current_char = '_' ∨ isalnum s.current_char = true) then
      advance32 s :: identifier_loop_trace32 fuel (advance32 s)
    else []

/-- States passed through by `identifier`. -/
def identifier_trace32 (s : Lexer32) : List Lexer32 :=
  if s.current_char = '_' ∨ isalpha s.current_char = true then
    advance32 s :: identifier_loop_trace32 (s.input.length + 1) (advance32 s)
  else identifier_loop_trace32 (s.input.length + 1) s

/-- States passed through by a lookahead case of the `switch`. -/
def lookahead_trace32 (s : Lexer32) (second : Char) : List Lexer32 :=
  let s1 := advance32 s
  if s1.current_char = second then [s1, advance32 s1] else [s1]

/-- States passed through by the `switch`: the cases for `=`, `!`, `<`, `>`
look ahead for `=`, those for `&` and `|` for a second such character, and
every other case, `default` included, is one `advance()`. -/
def operator_trace32 (s : Lexer32) : List Lexer32 :=
  let c := s.current_char
  if c = '=' ∨ c = '!' ∨ c = '<' ∨ c = '>' then lookahead_trace32 s '='
  else if c = '&' then lookahead_trace32 s '&'
  else if c = '|' then lookahead_trace32 s '|'
  else [advance32 s]

/-- States passed through by `scan_token`. -/
def scan_token_trace32 (s : Lexer32) : List Lexer32 :=
  if s.current_char = '_' ∨ isalpha s.current_char = true then identifier_trace32 s
  else if isdigit s.current_char = true then number_trace32 s
  else operator_trace32 s

/-- States passed through by one iteration of the main loop. -/
def tokenize_body_trace32 (s : Lexer32) : List Lexer32 :=
  if isspace s.current_char = true then skip_whitespace_trace32 (s.input.length + 1) s
  else if s.current_char = '/' then
    skip_comment_trace32 s ++
      (match skip_comment32 s with
       | some s1 => if s1.pos = s.pos ∧ s1.line = s.line then scan_token_trace32 s1 else []
       | none => [])
  else scan_token_trace32 s

/-- States passed through by the main loop, the state at every loop head
included. -/
def tokenize_trace32 : Nat → Lexer32 → List Lexer32
  | 0, s => [s]
  | fuel + 1, s =>
    s :: (if s.current_char ≠ NUL then
        tokenize_body_trace32 s ++
          (match tokenize_body32 s with
           | some x => tokenize_trace32 fuel x.1
           | none => [])
      else [])

/-! ## Definitions used to state and prove the properties

Nothing below is part of the program.  `cursor`, `bodyL` and `lexL` give a
list reading of the reachable states and of the main loop, tied to the
embedding by `tokenize_body_cursor` and `tokenize_loop_cursor`; the remaining
definitions word the hypotheses and conclusions of the numbered properties. -/

/-- The lexer state whose cursor stands between `pre` and `rest`. -/
def cursor (pre rest : List Char) (line : Nat) : Lexer :=
  { input := pre ++ rest, pos := (pre.length : Int), line := line,
    current_char := rest.headD NUL }

/-- Number of newline characters of a string. -/
def newlines (u : List Char) : Nat := u.count '\n'

/-- Loop condition of `skip_whitespace` on the current character. -/
def spaceP (c : Char) : Bool := decide (c ≠ NUL) && isspace c

/-- Loop condition of the `//` loop on the current character. -/
def lineP (c : Char) : Bool := decide (c ≠ NUL) && decide (c ≠ '\n')

/-- Loop condition of `number` on the current character. -/
def digitP (c : Char) : Bool := decide (c ≠ NUL) && isdigit c

/-- Loop condition of `identifier` on the current character. -/
def identP (c : Char) : Bool := decide (c ≠ NUL) && (decide (c = '_') || isalnum c)

/-- List reading of the block-comment loop: the characters it consumes from the
text after the opening slash-star, and the text it leaves. -/
def blockSkip : List Char → List Char × List Char
  | [] => ([], [])
  | c :: r =>
    if c = NUL then ([], c :: r)
    else if c = '*' ∧ r.head? = some '/' then (['*', '/'], r.tail)
    else (c :: (blockSkip r).1, (blockSkip r).2)

/-- Token kind of an identifier spelling (lexer.cpp, lines 132-138). -/
def kind (text : List Char) : TokenType :=
  (keywords.lookup text).getD TokenType.IDENT

/-- List reading of `single`. -/
def singleL (r : List Char) (l : Nat) (ty : TokenType) (v : List Char) :
    List Char × Nat × Option Token :=
  (r, l, some { line := l, type := ty, value := v })

/-- List reading of `lookahead`. -/
def lookaheadL (r : List Char) (l : Nat) (second : Char) (long : TokenType × List Char)
    (short : TokenType × List Char) : List Char × Nat × Option Token :=
  if r.headD NUL = second then (r.tail, l, some { line := l, type := long.1, value := long.2 })
  else (r, l, some { line := l, type := short.1, value := short.2 })

/-- List reading of `operator`. -/
def operatorL (c : Char) (r : List Char) (l : Nat) : List Char × Nat × Option Token :=
  if c = '+' then singleL r l TokenType.PLUS ['+']
  else if c = '-' then singleL r l TokenType.MINUS ['-']
  else if c = '*' then singleL r l TokenType.MULTIPLY ['*']
  else if c = '/' then singleL r l TokenType.DIVIDE ['/']
  else if c = '%' then singleL r l TokenType.MOD ['%']
  else if c = '=' then lookaheadL r l '=' (TokenType.EQ, ['=', '=']) (TokenType.ASSIGN, ['='])
  else if c = '!' then lookaheadL r l '=' (TokenType.NE, ['!', '=']) (TokenType.NOT, ['!'])
  else if c = '<' then lookaheadL r l '=' (TokenType.LE, ['<', '=']) (TokenType.LT, ['<'])
  else if c = '>' then lookaheadL r l '=' (TokenType.GE, ['>', '=']) (TokenType.GT, ['>'])
  else if c = '&' then lookaheadL r l '&' (TokenType.AND, ['&', '&']) (TokenType.AND, ['&'])
  else if c = '|' then lookaheadL r l '|' (TokenType.OR, ['|', '|']) (TokenType.OR, ['|'])
  else if c = '(' then singleL r l TokenType.LPAREN ['(']
  else if c = ')' then singleL r l TokenType.RPAREN [')']
  else if c = '{' then singleL r l TokenType.LBRACE ['{']
  else if c = '}' then singleL r l TokenType.RBRACE ['}']
  else if c = ',' then singleL r l TokenType.COMMA [',']
  else if c = ';' then singleL r l TokenType.SEMICOLON [';']
  else (r, l, none)

/-- List reading of `scan_token`. -/
def scanL (c : Char) (r : List Char) (l : Nat) : List Char × Nat × Option Token :=
  if c = '_' ∨ isalpha c = true then
    (r.dropWhile identP, l,
      some { line := l, type := kind (c :: r.takeWhile identP), value := c :: r.takeWhile identP })
  else if isdigit c = true then
    (r.dropWhile digitP, l,
      some { line := l, type := TokenType.INTCONST, value := c :: r.takeWhile digitP })
  else operatorL c r l

/-- List reading of `skip_comment` entered on a slash followed by `r`, when a
comment is found: the input left and the new line counter. -/
def commentL (r : List Char) (l : Nat) : List Char × Nat × Option Token :=
  if r.headD NUL = '/' then
    if (r.dropWhile lineP).headD NUL = '\n' then ((r.dropWhile lineP).tail, l + 1, none)
    else (r.dropWhile lineP, l, none)
  else ((blockSkip r.tail).2, l + newlines (blockSkip r.tail).1, none)

/-- List reading of `tokenize_body`. -/
def bodyL (c : Char) (r : List Char) (l : Nat) : List Char × Nat × Option Token :=
  if isspace c = true then
    (r.dropWhile spaceP, l + newlines (c :: r.takeWhile spaceP), none)
  else if c = '/' then
    if r.headD NUL = '/' ∨ r.headD NUL = '*' then commentL r l
    else singleL r l TokenType.DIVIDE ['/']
  else scanL c r l

/-- The tokens pushed by at most `fuel` iterations of the main loop from
remaining input `rest` and line `l`. -/
def lexF : Nat → List Char → Nat → List Token
  | 0, _, _ => []
  | _ + 1, [], _ => []
  | fuel + 1, c :: r, l =>
    if c = NUL then []
    else (bodyL c r l).2.2.toList ++ lexF fuel (bodyL c r l).1 (bodyL c r l).2.1

/-- The tokens the main loop pushes from remaining input `rest` and line `l`. -/
def lexL (rest : List Char) (l : Nat) : List Token :=
  lexF rest.length rest l

/-- The state and token `x` computed by the embedding from `cursor pre (c :: r) l`
agree with the list reading `y`. -/
def Sim (pre : List Char) (c : Char) (r : List Char) (x : Lexer × Option Token)
    (y : List Char × Nat × Option Token) : Prop :=
  ∃ pre2, x = (cursor pre2 y.1 y.2.1, y.2.2) ∧ pre2 ++ y.1 = pre ++ c :: r

/-- Add `k` to the line number of a token. -/
def shiftLine (k : Nat) (t : Token) : Token := { t with line := t.line + k }

/-- Add `k` to every line number of a token list. -/
def shiftLines (k : Nat) (ts : List Token) : List Token := ts.map (shiftLine k)

/-- Effect of starting an iteration `k` lines further down. -/
def shiftStep (k : Nat) (y : List Char × Nat × Option Token) : List Char × Nat × Option Token :=
  (y.1, y.2.1 + k, y.2.2.map (shiftLine k))

/-- The text `w` cannot extend a token that ends just before it: its first
character, if any, continues neither an identifier or number nor a
two-character operator. -/
def Boundary (w : List Char) : Prop :=
  identP (w.headD NUL) = false ∧ w.headD NUL ≠ '=' ∧ w.headD NUL ≠ '&' ∧ w.headD NUL ≠ '|'

/-- The text contains neither a slash nor the sentinel character. -/
def Plain (u : List Char) : Prop := ∀ c ∈ u, c ≠ '/' ∧ c ≠ NUL

/-- Effect on one iteration of appending `w` behind a token boundary. -/
def appendStep (w : List Char) (y : List Char × Nat × Option Token) :
    List Char × Nat × Option Token :=
  (y.1 ++ w, y.2.1, y.2.2)

/-- The iteration result `y`, obtained from remaining input `r` at line `l`,
left the line counter alone, passed no newline and left a part of `r`. -/
def Keeps (r : List Char) (l : Nat) (y : List Char × Nat × Option Token) : Prop :=
  newlines y.1 = newlines r ∧ y.2.1 = l ∧ ∀ x ∈ y.1, x ∈ r

/-- The reserved kind of an identifier spelling, as the specification words it:
the eight keyword spellings have their own kind, every other spelling is `IDENT`. -/
def keywordKind (s : List Char) : TokenType :=
  if s = "int".toList then TokenType.INT
  else if s = "void".toList then TokenType.VOID
  else if s = "if".toList then TokenType.IF
  else if s = "else".toList then TokenType.ELSE
  else if s = "while".toList then TokenType.WHILE
  else if s = "break".toList then TokenType.BREAK
  else if s = "continue".toList then TokenType.CONTINUE
  else if s = "return".toList then TokenType.RETURN
  else TokenType.IDENT

/-- A valid identifier spelling: a letter or underscore followed by letters,
digits and underscores. -/
def isIdentifierSpelling : List Char → Bool
  | [] => false
  | c :: cs =>
    (decide (c = '_') || isalpha c) &&
      cs.all fun d => decide (d = '_') || isalpha d || isdigit d

/-- The two-character operators with their kinds. -/
def twoCharOperators : List (List Char × TokenType) :=
  [ ("==".toList, TokenType.EQ), ("!=".toList, TokenType.NE), ("<=".toList, TokenType.LE),
    (">=".toList, TokenType.GE), ("&&".toList, TokenType.AND), ("||".toList, TokenType.OR) ]

/-- The characters of the operator and punctuation table other than the slash. -/
def operatorChars : List Char :=
  ['+', '-', '*', '%', '=', '!', '<', '>', '&', '|', '(', ')', '{', '}', ',', ';']

/-- A character that is not whitespace, not a slash, not a letter, underscore or
digit, and not an operator or punctuation character. -/
def unrecognised (c : Char) : Bool :=
  !isspace c && decide (c ≠ '/') && !isalpha c && decide (c ≠ '_') && !isdigit c &&
    !operatorChars.contains c

/-- The characters of the operator and punctuation table, the slash included. -/
def lexemeChars : List Char :=
  ['+', '-', '*', '/', '%', '=', '!', '<', '>', '&', '|', '(', ')', '{', '}', ',', ';']

/-- A character that token texts are made of: a letter, a digit, an underscore
or an operator or punctuation character. -/
def lexemeChar (c : Char) : Bool :=
  isalpha c || isdigit c || decide (c = '_') || lexemeChars.contains c

/-- The operator and punctuation spellings with their kinds, as the dispatch
table of the specification lists them. -/
def operatorTable : List (List Char × TokenType) :=
  [ ("+".toList, TokenType.PLUS), ("-".toList, TokenType.MINUS),
    ("*".toList, TokenType.MULTIPLY), ("/".toList, TokenType.DIVIDE),
    ("%".toList, TokenType.MOD), ("=".toList, TokenType.ASSIGN),
    ("==".toList, TokenType.EQ), ("!".toList, TokenType.NOT), ("!=".toList, TokenType.NE),
    ("<".toList, TokenType.LT), ("<=".toList, TokenType.LE), (">".toList, TokenType.GT),
    (">=".toList, TokenType.GE), ("&&".toList, TokenType.AND), ("||".toList, TokenType.OR),
    ("(".toList, TokenType.LPAREN), (")".toList, TokenType.RPAREN),
    (['\x7b'], TokenType.LBRACE), (['\x7d'], TokenType.RBRACE),
    (",".toList, TokenType.COMMA), (";".toList, TokenType.SEMICOLON) ]

/-- The kind the dispatch table assigns to a token text: the keyword kind or
`IDENT` for an identifier spelling, `INTCONST` for a non-empty digit string, the
operator kind for an operator spelling, nothing for any other text. -/
def classify (s : List Char) : Option TokenType :=
  if isIdentifierSpelling s = true then some (keywordKind s)
  else if (!s.isEmpty && s.all isdigit) = true then some TokenType.INTCONST
  else operatorTable.lookup s

/-- The text `v` may carry the kind `ty`: the dispatch table assigns `ty` to `v`,
or `v` is a lone ampersand tagged `AND`, or a lone bar tagged `OR`. -/
def TextOK (v : List Char) (ty : TokenType) : Prop :=
  classify v = some ty ∨ (v = ['&'] ∧ ty = TokenType.AND) ∨ (v = ['|'] ∧ ty = TokenType.OR)

/-- What an iteration of the main loop that pushes no token has consumed from
the remaining input `c :: r`: a run of whitespace, a comment, or the single
character `c` that no token text is made of. -/
def Skipped (c : Char) (r consumed : List Char) : Prop :=
  (∀ x ∈ consumed, isspace x = true) ∨
  (c = '/' ∧ (r.headD NUL = '/' ∨ r.headD NUL = '*')) ∨
  (consumed = [c] ∧ lexemeChar c = false)

/-- The iteration result `y` from remaining input `c :: r` at line `l` consumed
a prefix of the input, counted its newlines, and pushed either a token whose
text is exactly that prefix or nothing. -/
def StepSpec (c : Char) (r : List Char) (l : Nat) (y : List Char × Nat × Option Token) : Prop :=
  ∃ consumed, consumed ++ y.1 = c :: r ∧ y.2.1 = l + newlines consumed ∧
    match y.2.2 with
    | some t => t.line = l ∧ t.value = consumed ∧ TextOK t.value t.type
    | none => Skipped c r consumed

/-- `Lexer::number` with the leading-minus branch and the `"0"` default
removed, as the specification proposes for a rewrite. -/
def number_live (s : Lexer) : Option (Token × Lexer) :=
  (number_loop (s.input.length + 1) s [] false).map fun r =>
    ({ line := r.1.line, type := TokenType.INTCONST, value := r.2.1 }, r.1)

/-- `scan_token` calling `number_live` in place of `number`. -/
def scan_token_live (s : Lexer) : Option (Lexer × Option Token) :=
  if s.current_char = '_' ∨ isalpha s.current_char = true then
    (identifier s).map fun r => (r.2, some r.1)
  else if isdigit s.current_char = true then
    (number_live s).map fun r => (r.2, some r.1)
  else some (operator s)

/-- `tokenize_body` calling `scan_token_live` in place of `scan_token`. -/
def tokenize_body_live (s : Lexer) : Option (Lexer × Option Token) :=
  if isspace s.current_char = true then
    (skip_whitespace s).map fun s1 => (s1, none)
  else if s.current_char = '/' then
    (skip_comment s).bind fun s1 =>
      if s1.pos = s.pos ∧ s1.line = s.line then scan_token_live s1 else some (s1, none)
  else scan_token_live s

/-- `tokenize_loop` calling `tokenize_body_live` in place of `tokenize_body`. -/
def tokenize_loop_live : Nat → Lexer → List Token → Option (List Token × Lexer)
  | 0, _, _ => none
  | fuel + 1, s, tokens =>
    if s.current_char ≠ NUL then
      match tokenize_body_live s with
      | none => none
      | some (s1, none) => tokenize_loop_live fuel s1 tokens
      | some (s1, some t) => tokenize_loop_live fuel s1 (tokens ++ [t])
    else some (tokens, s)

/-- `tokenize` for the lexer whose `number` has the two dead parts removed. -/
def tokenize_live (text : List Char) : Option (List Token) :=
  (tokenize_loop_live (text.length + 1) (Lexer.new text) []).map Prod.fst

/-- Line `i` of the driver output for the token list `ts`, without its newline:
the index, a colon, the display name of the kind, a colon and the text in
double quotes. -/
def outputLine (ts : List Token) (i : Nat) : List Char :=
  match ts[i]? with
  | some t =>
    Nat.toDigits 10 i ++ [':'] ++ get_token_name t.type ++ [':', '"'] ++ t.value ++ ['"']
  | none => []

/-- The cursor of the state `s` is within the buffer `input`. -/
def InBounds (input : List Char) (s : Lexer) : Prop :=
  s.input = input ∧ 0 ≤ s.pos ∧ s.pos ≤ (input.length : Int)

/-- In the state `s`, `current_char` is the character under the cursor, or the
sentinel when the cursor is at the end of the buffer. -/
def Consistent (s : Lexer) : Prop :=
  s.current_char =
    if 0 ≤ s.pos ∧ s.pos < (s.input.length : Int) then s.input.getD s.pos.toNat NUL else NUL

/-- The 32-bit token with the same members as `t`. -/
def Token.to32 (t : Token) : Token32 :=
  { line := (t.line : Int), type := t.type, value := t.value }

/-- The 32-bit state with the same members as `s`. -/
def Lexer.to32 (s : Lexer) : Lexer32 :=
  { input := s.input, pos := s.pos, line := (s.line : Int), current_char := s.current_char }

/-- The state `s` is reachable on a buffer short enough for 32-bit arithmetic:
its cursor stands inside a buffer of fewer than `2^31 - 1` characters and its
line counter is at most one more than the number of characters passed. -/
def Fits (s : Lexer) : Prop :=
  ∃ pre rest l, s = cursor pre rest l ∧ pre.length + rest.length + 1 < 2147483648 ∧
    l ≤ pre.length + 1

/-- In the 32-bit state `s`, `current_char` is the character under the cursor,
or the sentinel when the cursor is not on a character of the buffer. -/
def Consistent32 (s : Lexer32) : Prop :=
  s.current_char =
    if 0 ≤ s.pos ∧ s.pos < (s.input.length : Int) then s.input.getD s.pos.toNat NUL else NUL

/-- The 32-bit iteration result `y` is the result `x` on unbounded integers, and
the state of `x` fits 32-bit arithmetic. -/
def Agree (y : Lexer32 × Option Token32) (x : Lexer × Option Token) : Prop :=
  y = (x.1.to32, x.2.map Token.to32) ∧ Fits x.1

/-! ## States reachable from the constructor

Every state the lexer passes through has its cursor between a consumed part
`pre` and a remaining part `rest` of the buffer, with `current_char` the head
of `rest` (the sentinel when `rest` is empty). -/

@[simp] theorem cursor_cur_cons (pre : List Char) (c : Char) (r : List Char) (l : Nat) :
    (cursor pre (c :: r) l).current_char = c := rfl

@[simp] theorem cursor_cur_nil (pre : List Char) (l : Nat) :
    (cursor pre [] l).current_char = NUL := rfl

@[simp] theorem cursor_line (pre rest : List Char) (l : Nat) :
    (cursor pre rest l).line = l := rfl

@[simp] theorem cursor_pos (pre rest : List Char) (l : Nat) :
    (cursor pre rest l).pos = (pre.length : Int) := rfl

@[simp] theorem cursor_input (pre rest : List Char) (l : Nat) :
    (cursor pre rest l).input = pre ++ rest := rfl

@[simp] theorem cursor_with_line (pre rest : List Char) (l k : Nat) :
    { cursor pre rest l with line := k } = cursor pre rest k := rfl

theorem new_eq_cursor (text : List Char) : Lexer.new text = cursor [] text 1 := rfl

/-- On a reachable state `advance` moves the head of `rest` to `pre`. -/
theorem advance_cursor (pre : List Char) (c : Char) (r : List Char) (l : Nat) :
    advance (cursor pre (c :: r) l) = cursor (pre ++ [c]) r l := by
  cases r with
  | nil =>
    simp only [advance, cursor, List.headD_nil, List.length_append, List.length_cons,
      List.length_nil, List.append_assoc, List.cons_append, List.nil_append, List.append_nil]
    have h : ¬ ((0 : Int) ≤ (pre.length : Int) + 1 ∧
        (pre.length : Int) + 1 < ((pre.length + (0 + 1) : Nat) : Int)) := by
      push_cast; omega
    rw [if_neg h]
    push_cast
    rfl
  | cons d r2 =>
    simp only [advance, cursor, List.headD_cons, List.length_append, List.length_cons,
      List.append_assoc, List.cons_append, List.nil_append]
    have h : ((0 : Int) ≤ (pre.length : Int) + 1 ∧
        (pre.length : Int) + 1 < ((pre.length + (r2.length + 1 + 1) : Nat) : Int)) := by
      push_cast; omega
    rw [if_pos h]
    have hn : ((pre.length : Int) + 1).toNat = pre.length + 1 := by omega
    rw [hn]
    have hg : (pre ++ c :: d :: r2).getD (pre.length + 1) NUL = d := by
      rw [List.getD_eq_getElem?_getD, List.getElem?_append_right (by omega)]
      simp
    rw [hg]
    push_cast
    rfl

/-! ## The inner loops on reachable states -/

@[simp] theorem newlines_nil : newlines [] = 0 := rfl

theorem newlines_cons (c : Char) (u : List Char) :
    newlines (c :: u) = newlines u + (if c = '\n' then 1 else 0) := by
  unfold newlines
  by_cases h : c = '\n'
  · subst h; simp
  · rw [List.count_cons_of_ne (fun e => h e.symm)]; simp [h]

theorem newlines_append (u v : List Char) : newlines (u ++ v) = newlines u + newlines v := by
  unfold newlines; simp

theorem skip_whitespace_loop_step (k : Nat) (pre : List Char) (c : Char) (r : List Char)
    (l : Nat) (h : c ≠ NUL ∧ isspace c = true) :
    skip_whitespace_loop (k + 1) (cursor pre (c :: r) l) =
      skip_whitespace_loop k (cursor (pre ++ [c]) r (l + (if c = '\n' then 1 else 0))) := by
  rw [skip_whitespace_loop]
  simp only [cursor_cur_cons]
  rw [if_pos h, ← advance_cursor]
  by_cases hn : c = '\n'
  · simp only [hn, if_true]; rfl
  · simp only [hn, if_false]; rfl

theorem skip_whitespace_loop_cursor (rest : List Char) :
    ∀ (pre : List Char) (l fuel : Nat), rest.length < fuel →
      skip_whitespace_loop fuel (cursor pre rest l) =
        some (cursor (pre ++ rest.takeWhile spaceP) (rest.dropWhile spaceP)
          (l + newlines (rest.takeWhile spaceP))) := by
  induction rest with
  | nil =>
    intro pre l fuel hf
    obtain ⟨k, rfl⟩ : ∃ k, fuel = k + 1 := ⟨fuel - 1, by simp at hf; omega⟩
    simp [skip_whitespace_loop]
  | cons c r ih =>
    intro pre l fuel hf
    obtain ⟨k, rfl⟩ : ∃ k, fuel = k + 1 := ⟨fuel - 1, by omega⟩
    have hk : r.length < k := by simp at hf; omega
    by_cases hc : c ≠ NUL ∧ isspace c = true
    · have hp : spaceP c = true := by simp [spaceP, hc.1, hc.2]
      rw [skip_whitespace_loop_step k pre c r l hc, ih _ _ _ hk, List.takeWhile_cons,
        List.dropWhile_cons, hp]
      simp only [if_true, List.append_assoc, List.singleton_append, newlines_cons]
      congr 2
      omega
    · have hp : spaceP c = false := by
        simp only [spaceP, Bool.and_eq_false_imp, decide_eq_true_eq]
        intro h1
        by_contra h2
        exact hc ⟨h1, by simpa using h2⟩
      rw [skip_whitespace_loop]
      simp only [cursor_cur_cons]
      rw [if_neg hc]
      simp [List.takeWhile_cons, List.dropWhile_cons, hp]

theorem line_comment_loop_cursor (rest : List Char) :
    ∀ (pre : List Char) (l fuel : Nat), rest.length < fuel →
      line_comment_loop fuel (cursor pre rest l) =
        some (cursor (pre ++ rest.takeWhile lineP) (rest.dropWhile lineP) l) := by
  induction rest with
  | nil =>
    intro pre l fuel hf
    obtain ⟨k, rfl⟩ : ∃ k, fuel = k + 1 := ⟨fuel - 1, by simp at hf; omega⟩
    simp [line_comment_loop]
  | cons c r ih =>
    intro pre l fuel hf
    obtain ⟨k, rfl⟩ : ∃ k, fuel = k + 1 := ⟨fuel - 1, by omega⟩
    have hk : r.length < k := by simp at hf; omega
    rw [line_comment_loop]
    simp only [cursor_cur_cons]
    by_cases hc : c ≠ NUL ∧ c ≠ '\n'
    · have hp : lineP c = true := by simp [lineP, hc.1, hc.2]
      rw [if_pos hc, advance_cursor, ih _ _ _ hk, List.takeWhile_cons, List.dropWhile_cons, hp]
      simp
    · have hp : lineP c = false := by
        simp only [lineP, Bool.and_eq_false_imp, decide_eq_true_eq]
        intro h1
        by_contra h2
        exact hc ⟨h1, by simpa using h2⟩
      rw [if_neg hc]
      simp [List.takeWhile_cons, List.dropWhile_cons, hp]

theorem number_loop_cursor (rest : List Char) :
    ∀ (pre : List Char) (l fuel : Nat) (result : List Char) (has_digit : Bool),
      rest.length < fuel →
      number_loop fuel (cursor pre rest l) result has_digit =
        some (cursor (pre ++ rest.takeWhile digitP) (rest.dropWhile digitP) l,
          result ++ rest.takeWhile digitP,
          has_digit || !(rest.takeWhile digitP).isEmpty) := by
  induction rest with
  | nil =>
    intro pre l fuel result has_digit hf
    obtain ⟨k, rfl⟩ : ∃ k, fuel = k + 1 := ⟨fuel - 1, by simp at hf; omega⟩
    simp [number_loop]
  | cons c r ih =>
    intro pre l fuel result has_digit hf
    obtain ⟨k, rfl⟩ : ∃ k, fuel = k + 1 := ⟨fuel - 1, by omega⟩
    have hk : r.length < k := by simp at hf; omega
    rw [number_loop]
    simp only [cursor_cur_cons]
    by_cases hc : c ≠ NUL ∧ isdigit c = true
    · have hp : digitP c = true := by simp [digitP, hc.1, hc.2]
      rw [if_pos hc, advance_cursor, ih _ _ _ _ _ hk, List.takeWhile_cons, List.dropWhile_cons, hp]
      simp
    · have hp : digitP c = false := by
        simp only [digitP, Bool.and_eq_false_imp, decide_eq_true_eq]
        intro h1
        by_contra h2
        exact hc ⟨h1, by simpa using h2⟩
      rw [if_neg hc]
      simp [List.takeWhile_cons, List.dropWhile_cons, hp]

theorem identifier_loop_cursor (rest : List Char) :
    ∀ (pre : List Char) (l fuel : Nat) (result : List Char), rest.length < fuel →
      identifier_loop fuel (cursor pre rest l) result =
        some (cursor (pre ++ rest.takeWhile identP) (rest.dropWhile identP) l,
          result ++ rest.takeWhile identP) := by
  induction rest with
  | nil =>
    intro pre l fuel result hf
    obtain ⟨k, rfl⟩ : ∃ k, fuel = k + 1 := ⟨fuel - 1, by simp at hf; omega⟩
    simp [identifier_loop]
  | cons c r ih =>
    intro pre l fuel result hf
    obtain ⟨k, rfl⟩ : ∃ k, fuel = k + 1 := ⟨fuel - 1, by omega⟩
    have hk : r.length < k := by simp at hf; omega
    rw [identifier_loop]
    simp only [cursor_cur_cons]
    by_cases hc : c ≠ NUL ∧ (c = '_' ∨ isalnum c = true)
    · have hp : identP c = true := by
        simp only [identP, Bool.and_eq_true, decide_eq_true_eq, Bool.or_eq_true]
        exact hc
      rw [if_pos hc, advance_cursor, ih _ _ _ _ hk, List.takeWhile_cons, List.dropWhile_cons, hp]
      simp
    · have hp : identP c = false := by
        cases h : identP c with
        | false => rfl
        | true =>
          exfalso; apply hc
          simpa only [identP, Bool.and_eq_true, decide_eq_true_eq, Bool.or_eq_true] using h
      rw [if_neg hc]
      simp [List.takeWhile_cons, List.dropWhile_cons, hp]

theorem blockSkip_append (rest : List Char) :
    (blockSkip rest).1 ++ (blockSkip rest).2 = rest := by
  induction rest with
  | nil => rfl
  | cons c r ih =>
    rw [blockSkip]
    split_ifs with h1 h2
    · rfl
    · obtain ⟨rfl, h3⟩ := h2
      cases r with
      | nil => simp at h3
      | cons d r2 => simp at h3; subst h3; rfl
    · simp [ih]

theorem blockSkip_length (rest : List Char) : (blockSkip rest).2.length ≤ rest.length := by
  have h := congrArg List.length (blockSkip_append rest)
  rw [List.length_append] at h
  omega

theorem block_comment_loop_step (k : Nat) (pre : List Char) (c : Char) (r : List Char)
    (l : Nat) (h0 : c ≠ NUL) (hs : c ≠ '*') :
    block_comment_loop (k + 1) (cursor pre (c :: r) l) =
      block_comment_loop k (cursor (pre ++ [c]) r (l + (if c = '\n' then 1 else 0))) := by
  rw [block_comment_loop]
  simp only [cursor_cur_cons]
  rw [if_pos h0, if_neg hs, ← advance_cursor]
  by_cases hn : c = '\n'
  · simp only [hn, if_true]; rfl
  · simp only [hn, if_false]; rfl

theorem block_comment_loop_cursor (rest : List Char) :
    ∀ (pre : List Char) (l fuel : Nat), rest.length < fuel →
      block_comment_loop fuel (cursor pre rest l) =
        some (cursor (pre ++ (blockSkip rest).1) (blockSkip rest).2
          (l + newlines (blockSkip rest).1)) := by
  induction rest with
  | nil =>
    intro pre l fuel hf
    obtain ⟨k, rfl⟩ : ∃ k, fuel = k + 1 := ⟨fuel - 1, by simp at hf; omega⟩
    simp [block_comment_loop, blockSkip]
  | cons c r ih =>
    intro pre l fuel hf
    obtain ⟨k, rfl⟩ : ∃ k, fuel = k + 1 := ⟨fuel - 1, by omega⟩
    have hk : r.length < k := by simp at hf; omega
    by_cases h0 : c = NUL
    · rw [block_comment_loop, blockSkip]
      simp [h0]
    · by_cases hs : c = '*'
      · subst hs
        rw [block_comment_loop, blockSkip]
        simp only [cursor_cur_cons]
        rw [if_pos h0, if_neg h0]
        simp only [advance_cursor, true_and, if_true]
        cases r with
        | nil =>
          have hk1 : ([] : List Char).length < k := hk
          simp only [cursor_cur_nil]
          rw [if_neg (by decide), ih _ _ _ hk1]
          simp [blockSkip, newlines_cons]
        | cons d r2 =>
          simp only [cursor_cur_cons, List.head?_cons, Option.some.injEq, List.tail_cons]
          by_cases hd : d = '/'
          · subst hd
            simp only [if_true, advance_cursor]
            simp [newlines_cons]
          · rw [if_neg hd, if_neg hd, ih _ _ _ hk]
            simp [newlines_cons]
      · rw [block_comment_loop_step k pre c r l h0 hs, ih _ _ _ hk, blockSkip, if_neg h0,
          if_neg (show ¬ (c = '*' ∧ r.head? = some '/') from fun h => hs h.1)]
        simp only [List.append_assoc, List.singleton_append, newlines_cons]
        congr 2
        omega

/-! ## A list reading of the main loop

`bodyL c r l` describes one iteration of the main loop entered with remaining
input `c :: r` and line counter `l`: the input left, the new line counter and
the token pushed.  `lexL` iterates it.  Both are proof devices; the theorems
`tokenize_body_cursor` and `tokenize_loop_cursor` tie them to the embedding. -/

theorem dropWhile_length_le (p : Char → Bool) (r : List Char) :
    (r.dropWhile p).length ≤ r.length := by
  have h := congrArg List.length (List.takeWhile_append_dropWhile p r)
  rw [List.length_append] at h
  omega

theorem lookaheadL_length (r : List Char) (l : Nat) (second : Char)
    (long short : TokenType × List Char) :
    (lookaheadL r l second long short).1.length ≤ r.length := by
  unfold lookaheadL
  split_ifs <;> simp

theorem ite_length_le (P : Prop) [Decidable P] (a b : List Char × Nat × Option Token) (n : Nat)
    (ha : a.1.length ≤ n) (hb : b.1.length ≤ n) : (if P then a else b).1.length ≤ n := by
  by_cases h : P
  · rw [if_pos h]; exact ha
  · rw [if_neg h]; exact hb

theorem operatorL_length (c : Char) (r : List Char) (l : Nat) :
    (operatorL c r l).1.length ≤ r.length := by
  unfold operatorL
  repeat' first
    | exact lookaheadL_length _ _ _ _ _
    | exact Nat.le_refl _
    | apply ite_length_le

theorem scanL_length (c : Char) (r : List Char) (l : Nat) :
    (scanL c r l).1.length ≤ r.length := by
  unfold scanL
  split_ifs
  · exact dropWhile_length_le _ _
  · exact dropWhile_length_le _ _
  · exact operatorL_length _ _ _

theorem commentL_length (r : List Char) (l : Nat) :
    (commentL r l).1.length ≤ r.length := by
  unfold commentL
  split_ifs
  · have := dropWhile_length_le lineP r
    simp only [List.length_tail]
    omega
  · exact dropWhile_length_le _ _
  · have h1 := blockSkip_length r.tail
    have h2 : r.tail.length ≤ r.length := by simp
    exact Nat.le_trans h1 h2

theorem bodyL_length (c : Char) (r : List Char) (l : Nat) :
    (bodyL c r l).1.length ≤ r.length := by
  unfold bodyL
  split_ifs
  · exact dropWhile_length_le _ _
  · exact commentL_length _ _
  · exact Nat.le_refl _
  · exact scanL_length _ _ _

theorem lexF_fuel (n : Nat) :
    ∀ (rest : List Char) (l f1 f2 : Nat), rest.length ≤ n → rest.length ≤ f1 →
      rest.length ≤ f2 → lexF f1 rest l = lexF f2 rest l := by
  induction n with
  | zero =>
    intro rest l f1 f2 hr _ _
    have hnil : rest = [] := List.length_eq_zero.mp (by omega)
    subst hnil
    cases f1 <;> cases f2 <;> rfl
  | succ n ih =>
    intro rest l f1 f2 hr h1 h2
    cases rest with
    | nil => cases f1 <;> cases f2 <;> rfl
    | cons c r =>
      obtain ⟨k1, rfl⟩ : ∃ k, f1 = k + 1 := ⟨f1 - 1, by simp at h1; omega⟩
      obtain ⟨k2, rfl⟩ : ∃ k, f2 = k + 1 := ⟨f2 - 1, by simp at h2; omega⟩
      have hlen := bodyL_length c r l
      simp only [List.length_cons] at hr h1 h2
      simp only [lexF]
      rw [ih (bodyL c r l).1 (bodyL c r l).2.1 k1 k2 (by omega) (by omega) (by omega)]

@[simp] theorem lexL_nil (l : Nat) : lexL [] l = [] := rfl

theorem lexL_cons (c : Char) (r : List Char) (l : Nat) (h : c ≠ NUL) :
    lexL (c :: r) l = (bodyL c r l).2.2.toList ++ lexL (bodyL c r l).1 (bodyL c r l).2.1 := by
  have hlen := bodyL_length c r l
  unfold lexL
  simp only [List.length_cons, lexF]
  rw [if_neg h, lexF_fuel r.length (bodyL c r l).1 _ r.length (bodyL c r l).1.length hlen hlen
    (Nat.le_refl _)]

@[simp] theorem lexL_NUL (r : List Char) (l : Nat) : lexL (NUL :: r) l = [] := by
  unfold lexL
  simp [lexF]

/-! ## One iteration of the main loop on a reachable state -/

theorem identifier_cursor (pre : List Char) (c : Char) (r : List Char) (l : Nat)
    (h : c = '_' ∨ isalpha c = true) :
    identifier (cursor pre (c :: r) l) =
      some ({ line := l, type := kind (c :: r.takeWhile identP),
              value := c :: r.takeWhile identP },
            cursor (pre ++ c :: r.takeWhile identP) (r.dropWhile identP) l) := by
  unfold identifier
  simp only [cursor_cur_cons, cursor_input]
  rw [if_pos h]
  simp only [advance_cursor]
  rw [identifier_loop_cursor r _ _ _ _ (by simp; omega)]
  simp only [Option.map_some', List.singleton_append, cursor_line, List.append_assoc]
  unfold kind
  cases keywords.lookup (c :: r.takeWhile identP) <;> rfl

theorem isdigit_ne_NUL (c : Char) (h : isdigit c = true) : c ≠ NUL := by
  rintro rfl; revert h; decide

theorem isdigit_ne_minus (c : Char) (h : isdigit c = true) : c ≠ '-' := by
  rintro rfl; revert h; decide

theorem number_cursor (pre : List Char) (c : Char) (r : List Char) (l : Nat)
    (h : isdigit c = true) :
    number (cursor pre (c :: r) l) =
      some ({ line := l, type := TokenType.INTCONST, value := c :: r.takeWhile digitP },
            cursor (pre ++ c :: r.takeWhile digitP) (r.dropWhile digitP) l) := by
  have hp : digitP c = true := by simp [digitP, h, isdigit_ne_NUL c h]
  unfold number
  simp only [cursor_cur_cons, cursor_input]
  rw [if_neg (isdigit_ne_minus c h), number_loop_cursor (c :: r) _ _ _ _ _ (by simp; omega)]
  simp [List.takeWhile_cons, List.dropWhile_cons, hp]

theorem Sim_ite (pre : List Char) (c : Char) (r : List Char) (P : Prop) [Decidable P]
    (a b : Lexer × Option Token) (a2 b2 : List Char × Nat × Option Token)
    (ha : Sim pre c r a a2) (hb : Sim pre c r b b2) :
    Sim pre c r (if P then a else b) (if P then a2 else b2) := by
  by_cases h : P
  · rw [if_pos h, if_pos h]; exact ha
  · rw [if_neg h, if_neg h]; exact hb

theorem single_cursor (pre : List Char) (c : Char) (r : List Char) (l : Nat)
    (ty : TokenType) (v : List Char) :
    Sim pre c r (single (cursor pre (c :: r) l) ty v) (singleL r l ty v) := by
  refine ⟨pre ++ [c], ?_, by simp [singleL]⟩
  simp [single, singleL, advance_cursor]

theorem lookahead_cursor (pre : List Char) (c : Char) (r : List Char) (l : Nat)
    (second : Char) (long short : TokenType × List Char) (hs : NUL ≠ second) :
    Sim pre c r (lookahead (cursor pre (c :: r) l) second long short)
      (lookaheadL r l second long short) := by
  unfold lookahead lookaheadL
  simp only [advance_cursor, cursor_line]
  cases r with
  | nil =>
    simp only [cursor_cur_nil, List.headD_nil]
    rw [if_neg hs, if_neg hs]
    exact ⟨pre ++ [c], rfl, by simp⟩
  | cons d r2 =>
    simp only [cursor_cur_cons, List.headD_cons, List.tail_cons]
    by_cases h : d = second
    · rw [if_pos h, if_pos h, advance_cursor]
      exact ⟨pre ++ [c] ++ [d], rfl, by simp⟩
    · rw [if_neg h, if_neg h]
      exact ⟨pre ++ [c], rfl, by simp⟩

theorem operator_cursor (pre : List Char) (c : Char) (r : List Char) (l : Nat) :
    Sim pre c r (operator (cursor pre (c :: r) l)) (operatorL c r l) := by
  unfold operator operatorL
  simp only [cursor_cur_cons]
  repeat' first
    | exact single_cursor _ _ _ _ _ _
    | exact lookahead_cursor _ _ _ _ _ _ _ (by decide)
    | apply Sim_ite
    | exact ⟨pre ++ [c], by rw [advance_cursor], by simp⟩

theorem scan_token_cursor (pre : List Char) (c : Char) (r : List Char) (l : Nat) :
    ∃ x, scan_token (cursor pre (c :: r) l) = some x ∧ Sim pre c r x (scanL c r l) := by
  unfold scan_token scanL
  simp only [cursor_cur_cons]
  by_cases h1 : c = '_' ∨ isalpha c = true
  · rw [if_pos h1, if_pos h1, identifier_cursor pre c r l h1]
    refine ⟨_, rfl, pre ++ c :: r.takeWhile identP, rfl, ?_⟩
    simp
  · rw [if_neg h1, if_neg h1]
    by_cases h2 : isdigit c = true
    · rw [if_pos h2, if_pos h2, number_cursor pre c r l h2]
      refine ⟨_, rfl, pre ++ c :: r.takeWhile digitP, rfl, ?_⟩
      simp
    · rw [if_neg h2, if_neg h2]
      exact ⟨_, rfl, operator_cursor pre c r l⟩

theorem skip_comment_cursor_rewind (pre r : List Char) (l : Nat)
    (h : ¬ (r.headD NUL = '/' ∨ r.headD NUL = '*')) :
    skip_comment (cursor pre ('/' :: r) l) = some (cursor pre ('/' :: r) l) := by
  unfold skip_comment
  simp only [cursor_cur_cons, if_true, advance_cursor]
  have h1 : ¬ (cursor (pre ++ ['/']) r l).current_char = '/' := fun e => h (Or.inl e)
  have h2 : ¬ (cursor (pre ++ ['/']) r l).current_char = '*' := fun e => h (Or.inr e)
  rw [if_neg h1, if_neg h2]
  simp [cursor]

theorem skip_comment_cursor_comment (pre r : List Char) (l : Nat)
    (h : r.headD NUL = '/' ∨ r.headD NUL = '*') :
    ∃ pre2, skip_comment (cursor pre ('/' :: r) l) =
        some (cursor pre2 (commentL r l).1 (commentL r l).2.1) ∧
      pre2 ++ (commentL r l).1 = pre ++ '/' :: r ∧ pre.length < pre2.length := by
  unfold skip_comment commentL
  simp only [cursor_cur_cons, if_true, advance_cursor]
  by_cases h1 : r.headD NUL = '/'
  · have h1c : (cursor (pre ++ ['/']) r l).current_char = '/' := h1
    rw [if_pos h1c, if_pos h1, line_comment_loop_cursor r _ _ _ (by simp; omega)]
    simp only [Option.map_some']
    cases hd : r.dropWhile lineP with
    | nil =>
      have e := List.takeWhile_append_dropWhile lineP r
      rw [hd, List.append_nil] at e
      simp only [cursor_cur_nil, List.headD_nil]
      rw [if_neg (by decide), if_neg (by decide)]
      exact ⟨_, rfl, by simp [e], by simp⟩
    | cons d t =>
      have e := List.takeWhile_append_dropWhile lineP r
      rw [hd] at e
      simp only [cursor_cur_cons, List.headD_cons, List.tail_cons, cursor_line, cursor_with_line]
      by_cases hn : d = '\n'
      · rw [if_pos hn, if_pos hn]
        refine ⟨pre ++ ['/'] ++ r.takeWhile lineP ++ [d], ?_, ?_, by simp⟩
        · rw [← advance_cursor]; rfl
        · simp [e]
      · rw [if_neg hn, if_neg hn]
        exact ⟨_, rfl, by simp [e], by simp⟩
  · have h2 : r.headD NUL = '*' := h.resolve_left h1
    have h1c : ¬ (cursor (pre ++ ['/']) r l).current_char = '/' := h1
    have h2c : (cursor (pre ++ ['/']) r l).current_char = '*' := h2
    rw [if_neg h1c, if_pos h2c, if_neg h1]
    cases r with
    | nil => exact absurd h2 (by decide)
    | cons d t =>
      have hd : d = '*' := h2
      subst hd
      rw [advance_cursor, block_comment_loop_cursor t _ _ _ (by simp; omega)]
      refine ⟨_, rfl, ?_, by simp⟩
      simp only [List.tail_cons, List.append_assoc]
      rw [blockSkip_append]
      simp

theorem isspace_ne_NUL (c : Char) (h : isspace c = true) : c ≠ NUL := by
  rintro rfl; revert h; decide

theorem tokenize_body_cursor (pre : List Char) (c : Char) (r : List Char) (l : Nat) :
    ∃ x, tokenize_body (cursor pre (c :: r) l) = some x ∧ Sim pre c r x (bodyL c r l) := by
  unfold tokenize_body bodyL
  simp only [cursor_cur_cons]
  by_cases hw : isspace c = true
  · have hp : spaceP c = true := by simp [spaceP, hw, isspace_ne_NUL c hw]
    rw [if_pos hw, if_pos hw]
    unfold skip_whitespace
    rw [skip_whitespace_loop_cursor (c :: r) _ _ _ (by simp; omega)]
    simp only [Option.map_some', List.takeWhile_cons, List.dropWhile_cons, hp, if_true]
    exact ⟨_, rfl, pre ++ c :: r.takeWhile spaceP, rfl, by simp⟩
  · rw [if_neg hw, if_neg hw]
    by_cases hs : c = '/'
    · subst hs
      simp only [if_true]
      by_cases hc : r.headD NUL = '/' ∨ r.headD NUL = '*'
      · obtain ⟨pre2, e1, e2, e3⟩ := skip_comment_cursor_comment pre r l hc
        rw [e1, if_pos hc]
        simp only [Option.some_bind, cursor_pos, cursor_line]
        have hne : ¬ ((pre2.length : Int) = (pre.length : Int) ∧ (commentL r l).2.1 = l) := by
          intro hh; have := hh.1; omega
        rw [if_neg hne]
        refine ⟨_, rfl, pre2, ?_, e2⟩
        have e4 : (commentL r l).2.2 = none := by
          unfold commentL; split_ifs <;> rfl
        rw [e4]
      · rw [skip_comment_cursor_rewind pre r l hc, if_neg hc]
        simp only [Option.some_bind, and_self, if_true]
        unfold scan_token
        simp only [cursor_cur_cons]
        rw [if_neg (by decide), if_neg (by decide)]
        refine ⟨_, rfl, ?_⟩
        have := operator_cursor pre '/' r l
        unfold operator operatorL at this
        simpa using this
    · rw [if_neg hs, if_neg hs]
      exact scan_token_cursor pre c r l

/-! ## The main loop on a reachable state -/

/-- With fuel above the length of the remaining input the main loop leaves
through its exit condition, having pushed exactly the tokens `lexL rest l`. -/
theorem tokenize_loop_cursor (n : Nat) :
    ∀ (rest pre : List Char) (l fuel : Nat) (acc : List Token),
      rest.length ≤ n → n < fuel →
      ∃ fin, tokenize_loop fuel (cursor pre rest l) acc = some (acc ++ lexL rest l, fin) := by
  induction n with
  | zero =>
    intro rest pre l fuel acc hr hf
    obtain ⟨k, rfl⟩ : ∃ k, fuel = k + 1 := ⟨fuel - 1, by omega⟩
    have hnil : rest = [] := List.length_eq_zero.mp (by omega)
    subst hnil
    exact ⟨cursor pre [] l, by simp [tokenize_loop]⟩
  | succ n ih =>
    intro rest pre l fuel acc hr hf
    obtain ⟨k, rfl⟩ : ∃ k, fuel = k + 1 := ⟨fuel - 1, by omega⟩
    cases rest with
    | nil => exact ⟨cursor pre [] l, by simp [tokenize_loop]⟩
    | cons c r =>
      by_cases h0 : c = NUL
      · subst h0
        exact ⟨cursor pre (NUL :: r) l, by simp [tokenize_loop]⟩
      · obtain ⟨x, hx, pre2, hx2, -⟩ := tokenize_body_cursor pre c r l
        have hlen := bodyL_length c r l
        have hr2 : (bodyL c r l).1.length ≤ n := by simp at hr; omega
        rw [tokenize_loop]
        simp only [cursor_cur_cons]
        rw [if_pos h0, hx, hx2, lexL_cons c r l h0]
        cases ht : (bodyL c r l).2.2 with
        | none =>
          obtain ⟨fin, hfin⟩ := ih (bodyL c r l).1 pre2 (bodyL c r l).2.1 k acc hr2 (by omega)
          exact ⟨fin, by simpa using hfin⟩
        | some t =>
          obtain ⟨fin, hfin⟩ :=
            ih (bodyL c r l).1 pre2 (bodyL c r l).2.1 k (acc ++ [t]) hr2 (by omega)
          exact ⟨fin, by simpa using hfin⟩

/-- `tokenize` always returns, and returns the tokens `lexL text 1`. -/
theorem tokenize_eq_lexL (text : List Char) : tokenize text = some (lexL text 1) := by
  obtain ⟨fin, h⟩ := tokenize_loop_cursor text.length text [] 1 (text.length + 1) []
    (Nat.le_refl _) (Nat.lt_succ_self _)
  unfold tokenize Lexer.tokenize
  rw [new_eq_cursor]
  simp only [cursor_input, List.nil_append]
  rw [h]
  rfl

/-! ## Laws of the list reading -/

theorem singleL_shift (r : List Char) (l k : Nat) (ty : TokenType) (v : List Char) :
    singleL r (l + k) ty v = shiftStep k (singleL r l ty v) := rfl

theorem lookaheadL_shift (r : List Char) (l k : Nat) (second : Char)
    (long short : TokenType × List Char) :
    lookaheadL r (l + k) second long short = shiftStep k (lookaheadL r l second long short) := by
  unfold lookaheadL
  by_cases h : r.headD NUL = second
  · rw [if_pos h, if_pos h]; rfl
  · rw [if_neg h, if_neg h]; rfl

theorem operatorL_shift (c : Char) (r : List Char) (l k : Nat) :
    operatorL c r (l + k) = shiftStep k (operatorL c r l) := by
  unfold operatorL
  simp only [apply_ite (shiftStep k), singleL_shift, lookaheadL_shift]
  rfl

theorem scanL_shift (c : Char) (r : List Char) (l k : Nat) :
    scanL c r (l + k) = shiftStep k (scanL c r l) := by
  unfold scanL
  simp only [apply_ite (shiftStep k), operatorL_shift]
  rfl

theorem commentL_shift (r : List Char) (l k : Nat) :
    commentL r (l + k) = shiftStep k (commentL r l) := by
  unfold commentL
  simp only [apply_ite (shiftStep k)]
  simp only [shiftStep, Option.map_none', Nat.add_right_comm]

theorem bodyL_shift (c : Char) (r : List Char) (l k : Nat) :
    bodyL c r (l + k) = shiftStep k (bodyL c r l) := by
  unfold bodyL
  simp only [apply_ite (shiftStep k), scanL_shift, commentL_shift, singleL_shift]
  simp only [shiftStep, Option.map_none', Nat.add_right_comm]

/-- Starting `k` lines further down adds `k` to every line number. -/
theorem lexL_shift (n : Nat) :
    ∀ (rest : List Char) (l k : Nat), rest.length ≤ n →
      lexL rest (l + k) = shiftLines k (lexL rest l) := by
  induction n with
  | zero =>
    intro rest l k hr
    have hnil : rest = [] := List.length_eq_zero.mp (by omega)
    subst hnil
    simp [shiftLines]
  | succ n ih =>
    intro rest l k hr
    cases rest with
    | nil => simp [shiftLines]
    | cons c r =>
      by_cases h0 : c = NUL
      · subst h0; simp [shiftLines]
      · have hlen := bodyL_length c r l
        have hr2 : (bodyL c r l).1.length ≤ n := by simp at hr; omega
        rw [lexL_cons c r _ h0, lexL_cons c r _ h0, bodyL_shift]
        simp only [shiftStep]
        rw [ih _ _ _ hr2]
        cases (bodyL c r l).2.2 <;> simp [shiftLines]

theorem lexL_add (rest : List Char) (l k : Nat) :
    lexL rest (l + k) = shiftLines k (lexL rest l) :=
  lexL_shift rest.length rest l k (Nat.le_refl _)

theorem shiftLines_zero (ts : List Token) : shiftLines 0 ts = ts := by
  unfold shiftLines shiftLine
  simp

/-- Whitespace is skipped one character at a time as far as the tokens go. -/
theorem lexL_space (c : Char) (r : List Char) (l : Nat) (h : isspace c = true) :
    lexL (c :: r) l = lexL r (l + (if c = '\n' then 1 else 0)) := by
  rw [lexL_cons c r l (isspace_ne_NUL c h)]
  unfold bodyL
  rw [if_pos h]
  simp only [Option.toList_none, List.nil_append]
  cases r with
  | nil => simp
  | cons d t =>
    by_cases hd : spaceP d = true
    · have hd0 : d ≠ NUL := by
        intro e; rw [e] at hd; revert hd; decide
      have hds : isspace d = true := by
        simp only [spaceP, Bool.and_eq_true] at hd; exact hd.2
      rw [lexL_cons d t _ hd0]
      unfold bodyL
      rw [if_pos hds]
      simp only [List.takeWhile_cons, List.dropWhile_cons, hd, if_true, Option.toList_none,
        List.nil_append, newlines_cons]
      congr 1
      omega
    · simp only [List.takeWhile_cons, List.dropWhile_cons, hd, if_false, newlines_cons,
        newlines_nil, Bool.false_eq_true, Nat.zero_add]

/-! ### Appending input behind a token boundary -/

theorem takeWhile_append_stop (p : Char → Bool) (w : List Char) (hw : p (w.headD NUL) = false)
    (r : List Char) : (r ++ w).takeWhile p = r.takeWhile p := by
  induction r with
  | nil =>
    cases w with
    | nil => rfl
    | cons x t => simp only [List.nil_append, List.takeWhile_cons, List.takeWhile_nil]
                  rw [show p x = false from hw]; rfl
  | cons d t ih =>
    simp only [List.cons_append, List.takeWhile_cons, ih]

theorem dropWhile_append_stop (p : Char → Bool) (w : List Char) (hw : p (w.headD NUL) = false)
    (r : List Char) : (r ++ w).dropWhile p = r.dropWhile p ++ w := by
  induction r with
  | nil =>
    cases w with
    | nil => rfl
    | cons x t => simp only [List.nil_append, List.dropWhile_cons, List.dropWhile_nil]
                  rw [show p x = false from hw]; rfl
  | cons d t ih =>
    simp only [List.cons_append, List.dropWhile_cons, ih]
    by_cases hd : p d = true
    · simp [hd]
    · simp [hd]

theorem digitP_le_identP (c : Char) (h : identP c = false) : digitP c = false := by
  cases hd : digitP c with
  | false => rfl
  | true =>
    exfalso
    simp only [digitP, Bool.and_eq_true, decide_eq_true_eq] at hd
    have : identP c = true := by
      simp only [identP, isalnum, Bool.and_eq_true, decide_eq_true_eq, Bool.or_eq_true]
      exact ⟨hd.1, Or.inr (Or.inr hd.2)⟩
    rw [h] at this
    exact Bool.false_ne_true this

theorem singleL_append (r w : List Char) (l : Nat) (ty : TokenType) (v : List Char) :
    singleL (r ++ w) l ty v = appendStep w (singleL r l ty v) := rfl

theorem lookaheadL_append (r w : List Char) (l : Nat) (second : Char)
    (long short : TokenType × List Char) (hs : NUL ≠ second) (hw : w.headD NUL ≠ second) :
    lookaheadL (r ++ w) l second long short =
      appendStep w (lookaheadL r l second long short) := by
  unfold lookaheadL
  cases r with
  | nil =>
    simp only [List.nil_append, List.headD_nil]
    rw [if_neg hw, if_neg hs]
    rfl
  | cons d t =>
    simp only [List.cons_append, List.headD_cons, List.tail_cons]
    by_cases h : d = second
    · rw [if_pos h, if_pos h]; rfl
    · rw [if_neg h, if_neg h]; rfl

theorem operatorL_append (c : Char) (r w : List Char) (l : Nat) (hw : Boundary w) :
    operatorL c (r ++ w) l = appendStep w (operatorL c r l) := by
  have hEq : ∀ long short, lookaheadL (r ++ w) l '=' long short =
      appendStep w (lookaheadL r l '=' long short) :=
    fun long short => lookaheadL_append r w l '=' long short (by decide) hw.2.1
  have hAnd : ∀ long short, lookaheadL (r ++ w) l '&' long short =
      appendStep w (lookaheadL r l '&' long short) :=
    fun long short => lookaheadL_append r w l '&' long short (by decide) hw.2.2.1
  have hOr : ∀ long short, lookaheadL (r ++ w) l '|' long short =
      appendStep w (lookaheadL r l '|' long short) :=
    fun long short => lookaheadL_append r w l '|' long short (by decide) hw.2.2.2
  unfold operatorL
  simp only [apply_ite (appendStep w), singleL_append, hEq, hAnd, hOr]
  rfl

theorem scanL_append (c : Char) (r w : List Char) (l : Nat) (hw : Boundary w) :
    scanL c (r ++ w) l = appendStep w (scanL c r l) := by
  have hi : identP (w.headD NUL) = false := hw.1
  have hd : digitP (w.headD NUL) = false := digitP_le_identP _ hw.1
  unfold scanL
  simp only [apply_ite (appendStep w), operatorL_append c r w l hw,
    takeWhile_append_stop identP w hi, dropWhile_append_stop identP w hi,
    takeWhile_append_stop digitP w hd, dropWhile_append_stop digitP w hd]
  rfl

theorem Keeps_ite (r : List Char) (l : Nat) (P : Prop) [Decidable P]
    (a b : List Char × Nat × Option Token) (ha : Keeps r l a) (hb : Keeps r l b) :
    Keeps r l (if P then a else b) := by
  by_cases h : P
  · rw [if_pos h]; exact ha
  · rw [if_neg h]; exact hb

theorem newlines_dropWhile (p : Char → Bool) (hp : p '\n' = false) (r : List Char) :
    newlines (r.dropWhile p) = newlines r := by
  induction r with
  | nil => rfl
  | cons d t ih =>
    rw [List.dropWhile_cons]
    by_cases hd : p d = true
    · have hne : d ≠ '\n' := by
        intro e; rw [e, hp] at hd; exact Bool.false_ne_true hd
      rw [if_pos hd, ih, newlines_cons, if_neg hne]
      rfl
    · rw [if_neg hd]

theorem Keeps_dropWhile (p : Char → Bool) (hp : p '\n' = false) (r : List Char) (l : Nat)
    (t : Option Token) : Keeps r l (r.dropWhile p, l, t) :=
  ⟨newlines_dropWhile p hp r, rfl, fun _ hx => (List.dropWhile_sublist p).subset hx⟩

theorem singleL_keeps (r : List Char) (l : Nat) (ty : TokenType) (v : List Char) :
    Keeps r l (singleL r l ty v) :=
  ⟨rfl, rfl, fun _ hx => hx⟩

theorem lookaheadL_keeps (r : List Char) (l : Nat) (second : Char)
    (long short : TokenType × List Char) (hs : second ≠ '\n') :
    Keeps r l (lookaheadL r l second long short) := by
  unfold lookaheadL
  cases r with
  | nil =>
    apply Keeps_ite <;> exact ⟨rfl, rfl, fun _ hx => hx⟩
  | cons d t =>
    simp only [List.headD_cons, List.tail_cons]
    by_cases h : d = second
    · rw [if_pos h]
      refine ⟨?_, rfl, fun x hx => List.mem_cons_of_mem _ hx⟩
      rw [newlines_cons, if_neg (by rw [h]; exact hs)]
      rfl
    · rw [if_neg h]
      exact ⟨rfl, rfl, fun _ hx => hx⟩

theorem operatorL_keeps (c : Char) (r : List Char) (l : Nat) : Keeps r l (operatorL c r l) := by
  unfold operatorL
  repeat' first
    | exact singleL_keeps _ _ _ _
    | exact lookaheadL_keeps _ _ _ _ _ (by decide)
    | apply Keeps_ite
    | exact ⟨rfl, rfl, fun _ hx => hx⟩

theorem scanL_keeps (c : Char) (r : List Char) (l : Nat) : Keeps r l (scanL c r l) := by
  unfold scanL
  repeat' first
    | exact Keeps_dropWhile _ (by decide) _ _ _
    | exact operatorL_keeps _ _ _
    | apply Keeps_ite

theorem isspace_newline (c : Char) (h : ¬ isspace c = true) : c ≠ '\n' := by
  rintro rfl; exact h (by decide)

/-- A text free of slashes and sentinels tokenizes independently of what
follows it behind a token boundary. -/
theorem lexL_append_plain (w : List Char) (hw : Boundary w) (n : Nat) :
    ∀ (u : List Char) (l : Nat), u.length ≤ n → Plain u →
      lexL (u ++ w) l = lexL u l ++ lexL w (l + newlines u) := by
  induction n with
  | zero =>
    intro u l hu _
    have hnil : u = [] := List.length_eq_zero.mp (by omega)
    subst hnil
    simp
  | succ n ih =>
    intro u l hu hp
    cases u with
    | nil => simp
    | cons c r =>
      have hc := hp c (List.mem_cons_self _ _)
      have hpr : Plain r := fun x hx => hp x (List.mem_cons_of_mem _ hx)
      have hrn : r.length ≤ n := by simp at hu; omega
      by_cases hs : isspace c = true
      · rw [List.cons_append, lexL_space c _ l hs, lexL_space c r l hs, ih r _ hrn hpr,
          newlines_cons]
        congr 2
        omega
      · have hk := scanL_keeps c r l
        have hlen := scanL_length c r l
        have e1 : bodyL c (r ++ w) l = appendStep w (scanL c r l) := by
          unfold bodyL
          rw [if_neg hs, if_neg hc.1, scanL_append c r w l hw]
        have e2 : bodyL c r l = scanL c r l := by
          unfold bodyL
          rw [if_neg hs, if_neg hc.1]
        rw [List.cons_append, lexL_cons c _ l hc.2, lexL_cons c r l hc.2, e1, e2]
        simp only [appendStep]
        rw [hk.2.1, ih (scanL c r l).1 l (by omega) (fun x hx => hpr x (hk.2.2 x hx)), hk.1,
          newlines_cons, if_neg (isspace_newline c hs), List.append_assoc]
        rfl

theorem lexL_append (u w : List Char) (l : Nat) (hu : Plain u) (hw : Boundary w) :
    lexL (u ++ w) l = lexL u l ++ lexL w (l + newlines u) :=
  lexL_append_plain w hw u.length u l (Nat.le_refl _) hu

/-! ## Termination and resource bounds -/

theorem loop_head_cursor (k : Nat) :
    ∀ (pre rest : List Char) (l : Nat) (s : Lexer),
      loop_head k (cursor pre rest l) = some s →
      ∃ pre2 rest2 l2, s = cursor pre2 rest2 l2 ∧ pre2 ++ rest2 = pre ++ rest ∧
        pre.length + k ≤ pre2.length := by
  induction k with
  | zero =>
    intro pre rest l s h
    simp only [loop_head, Option.some.injEq] at h
    exact ⟨pre, rest, l, h.symm, rfl, Nat.le_refl _⟩
  | succ k ih =>
    intro pre rest l s h
    rw [loop_head] at h
    cases rest with
    | nil => simp at h
    | cons c r =>
      simp only [cursor_cur_cons] at h
      by_cases h0 : c = NUL
      · simp [h0] at h
      · rw [if_pos h0] at h
        obtain ⟨x, hx, pre2, hx2, hx3⟩ := tokenize_body_cursor pre c r l
        rw [hx, hx2] at h
        simp only [Option.some_bind] at h
        obtain ⟨pre3, rest3, l3, e1, e2, e3⟩ := ih _ _ _ _ h
        have hlen := bodyL_length c r l
        have h4 := congrArg List.length hx3
        simp only [List.length_append, List.length_cons] at h4
        exact ⟨pre3, rest3, l3, e1, by rw [e2, hx3], by omega⟩

theorem lexL_length_le (n : Nat) :
    ∀ (rest : List Char) (l : Nat), rest.length ≤ n → (lexL rest l).length ≤ rest.length := by
  induction n with
  | zero =>
    intro rest l hr
    have hnil : rest = [] := List.length_eq_zero.mp (by omega)
    subst hnil
    simp
  | succ n ih =>
    intro rest l hr
    cases rest with
    | nil => simp
    | cons c r =>
      by_cases h0 : c = NUL
      · subst h0; simp
      · have hlen := bodyL_length c r l
        have hr2 : (bodyL c r l).1.length ≤ n := by simp at hr; omega
        have h2 := ih _ (bodyL c r l).2.1 hr2
        rw [lexL_cons c r l h0, List.length_append, List.length_cons]
        have h3 : (bodyL c r l).2.2.toList.length ≤ 1 := by
          cases (bodyL c r l).2.2 <;> simp
        omega

/-- With `int` unbounded, `Lexer::tokenize` returns on every input: the main
loop leaves through its exit condition within `length(input) + 1` evaluations of that condition, the
token list has at most `length(input)` elements, the loop completes at most
`length(input)` iterations, and every iteration entered from a state reachable
from the constructor returns with a strictly larger cursor position that is
still within the buffer. -/
theorem tokenize_terminates_unbounded (input : List Char) :
    (∃ ts fin, tokenize_loop (input.length + 1) (Lexer.new input) [] = some (ts, fin) ∧
      tokenize input = some ts ∧ ts.length ≤ input.length) ∧
    (∀ k s, loop_head k (Lexer.new input) = some s → k ≤ input.length) ∧
    (∀ k s, loop_head k (Lexer.new input) = some s → s.current_char ≠ NUL →
      ∃ x, tokenize_body s = some x ∧ s.pos < x.1.pos ∧ x.1.pos ≤ (input.length : Int)) := by
  refine ⟨?_, ?_, ?_⟩
  · obtain ⟨fin, h⟩ := tokenize_loop_cursor input.length input [] 1 (input.length + 1) []
      (Nat.le_refl _) (Nat.lt_succ_self _)
    rw [List.nil_append] at h
    exact ⟨lexL input 1, fin, h, tokenize_eq_lexL input,
      lexL_length_le input.length input 1 (Nat.le_refl _)⟩
  · intro k s h
    obtain ⟨pre2, rest2, l2, -, e2, e3⟩ := loop_head_cursor k [] input 1 s h
    have h4 := congrArg List.length e2
    simp only [List.length_append, List.length_nil, List.nil_append] at h4 e3
    omega
  · intro k s h hc
    obtain ⟨pre2, rest2, l2, e1, e2, -⟩ := loop_head_cursor k [] input 1 s h
    subst e1
    cases rest2 with
    | nil => exact absurd rfl hc
    | cons c r =>
      obtain ⟨x, hx, pre3, hx2, hx3⟩ := tokenize_body_cursor pre2 c r l2
      have hlen := bodyL_length c r l2
      have h4 := congrArg List.length hx3
      have h5 := congrArg List.length e2
      simp only [List.length_append, List.length_cons, List.nil_append] at h4 h5
      refine ⟨x, hx, ?_, ?_⟩
      · rw [hx2]; simp only [cursor_pos]; omega
      · rw [hx2]; simp only [cursor_pos]; omega

/-! ## Identifiers and keywords -/

theorem lookup_cons_eq (s k : List Char) (v : TokenType) (es : List (List Char × TokenType)) :
    List.lookup s ((k, v) :: es) = if s = k then some v else List.lookup s es := by
  rw [List.lookup_cons]
  by_cases h : s = k
  · rw [if_pos h, beq_iff_eq.mpr h]
  · rw [if_neg h, beq_eq_false_iff_ne.mpr h]

theorem kind_eq_keywordKind (s : List Char) : kind s = keywordKind s := by
  unfold kind keywordKind keywords
  simp only [lookup_cons_eq, List.lookup_nil, apply_ite (fun o => Option.getD o TokenType.IDENT),
    Option.getD_some, Option.getD_none]

theorem isalpha_ne_NUL (c : Char) (h : c = '_' ∨ isalpha c = true) : c ≠ NUL := by
  rintro rfl; revert h; decide

theorem isalpha_ne_slash (c : Char) (h : c = '_' ∨ isalpha c = true) : c ≠ '/' := by
  rintro rfl; revert h; decide

theorem isspace_cases (c : Char) (h : isspace c = true) :
    c = ' ' ∨ c = '\t' ∨ c = '\n' ∨ c = Char.ofNat 11 ∨ c = Char.ofNat 12 ∨ c = '\r' := by
  simpa [isspace, or_assoc] using h

theorem isalpha_not_space (c : Char) (h : c = '_' ∨ isalpha c = true) : ¬ isspace c = true := by
  intro hs
  rcases isspace_cases c hs with e | e | e | e | e | e <;> (subst e; revert h; decide)

theorem takeWhile_all (p : Char → Bool) (cs : List Char) (h : ∀ d ∈ cs, p d = true) :
    cs.takeWhile p = cs := by
  induction cs with
  | nil => rfl
  | cons d t ih =>
    rw [List.takeWhile_cons, if_pos (h d (List.mem_cons_self _ _)),
      ih (fun x hx => h x (List.mem_cons_of_mem _ hx))]

theorem dropWhile_all (p : Char → Bool) (cs : List Char) (h : ∀ d ∈ cs, p d = true) :
    cs.dropWhile p = [] := by
  induction cs with
  | nil => rfl
  | cons d t ih =>
    rw [List.dropWhile_cons, if_pos (h d (List.mem_cons_self _ _)),
      ih (fun x hx => h x (List.mem_cons_of_mem _ hx))]

theorem lexL_two_char (op : List Char) (K : TokenType) (h : (op, K) ∈ twoCharOperators)
    (v : List Char) (l : Nat) :
    lexL (op ++ v) l = { line := l, type := K, value := op } :: lexL v l := by
  simp only [twoCharOperators, List.mem_cons, Prod.mk.injEq, List.mem_singleton,
    List.not_mem_nil, or_false] at h
  rcases h with ⟨rfl, rfl⟩ | ⟨rfl, rfl⟩ | ⟨rfl, rfl⟩ | ⟨rfl, rfl⟩ | ⟨rfl, rfl⟩ | ⟨rfl, rfl⟩
  · exact lexL_cons '=' ('=' :: v) l (by decide)
  · exact lexL_cons '!' ('=' :: v) l (by decide)
  · exact lexL_cons '<' ('=' :: v) l (by decide)
  · exact lexL_cons '>' ('=' :: v) l (by decide)
  · exact lexL_cons '&' ('&' :: v) l (by decide)
  · exact lexL_cons '|' ('|' :: v) l (by decide)

theorem Boundary_cons (c : Char) (v : List Char) (h1 : identP c = false) (h2 : c ≠ '=')
    (h3 : c ≠ '&') (h4 : c ≠ '|') : Boundary (c :: v) :=
  ⟨h1, h2, h3, h4⟩

theorem lexL_newline (v : List Char) (l : Nat) : lexL ('\n' :: v) l = lexL v (l + 1) :=
  lexL_space '\n' v l (by decide)

theorem commentL_token (r : List Char) (l : Nat) : (commentL r l).2.2 = none := by
  unfold commentL
  split_ifs <;> rfl

theorem lexL_slash_comment (r : List Char) (l : Nat)
    (h : r.headD NUL = '/' ∨ r.headD NUL = '*') :
    lexL ('/' :: r) l = lexL (commentL r l).1 (commentL r l).2.1 := by
  rw [lexL_cons '/' r l (by decide)]
  unfold bodyL
  rw [if_neg (by decide), if_pos rfl, if_pos h, commentL_token]
  rfl

theorem lexL_slash_divide (r : List Char) (l : Nat)
    (h : ¬ (r.headD NUL = '/' ∨ r.headD NUL = '*')) :
    lexL ('/' :: r) l = { line := l, type := TokenType.DIVIDE, value := ['/'] } :: lexL r l := by
  rw [lexL_cons '/' r l (by decide)]
  unfold bodyL
  rw [if_neg (by decide), if_pos rfl, if_neg h]
  rfl

theorem lineP_of_body (c : List Char) (hc : ∀ x ∈ c, x ≠ '\n' ∧ x ≠ NUL) :
    ∀ x ∈ c, lineP x = true := by
  intro x hx
  simp only [lineP, Bool.and_eq_true, decide_eq_true_eq]
  exact ⟨(hc x hx).2, (hc x hx).1⟩

theorem closer_of_head (t : List Char) (h : t.head? = some '/') :
    List.IsInfix ['*', '/'] ('*' :: t) := by
  cases t with
  | nil => simp at h
  | cons d t2 =>
    simp only [List.head?_cons, Option.some.injEq] at h
    subst h
    exact (List.prefix_append ['*', '/'] t2).isInfix

theorem blockSkip_closed (v : List Char) :
    ∀ c : List Char, ¬ List.IsInfix ['*', '/'] c → (∀ x ∈ c, x ≠ NUL) →
      blockSkip (c ++ '*' :: '/' :: v) = (c ++ ['*', '/'], v) := by
  intro c
  induction c with
  | nil => intro _ _; rfl
  | cons x t ih =>
    intro h1 h2
    have hx : x ≠ NUL := h2 x (List.mem_cons_self _ _)
    have hcond : ¬ (x = '*' ∧ (t ++ '*' :: '/' :: v).head? = some '/') := by
      rintro ⟨rfl, hh⟩
      cases t with
      | nil => simp at hh
      | cons d t2 =>
        exact h1 (closer_of_head (d :: t2) (by simpa using hh))
    rw [List.cons_append, blockSkip, if_neg hx, if_neg hcond,
      ih (fun hi => h1 (List.infix_cons hi)) (fun y hy => h2 y (List.mem_cons_of_mem _ hy))]
    rfl

theorem headD_ne_of_head (v : List Char) (d : Char) (hd : d ≠ NUL) (h : v.head? ≠ some d) :
    v.headD NUL ≠ d := by
  cases v with
  | nil => exact fun e => hd e.symm
  | cons x t =>
    intro e
    apply h
    simp only [List.headD_cons] at e
    rw [List.head?_cons, e]

theorem unrecognised_spec (c : Char) (h : unrecognised c = true) :
    isspace c = false ∧ c ≠ '/' ∧ isalpha c = false ∧ c ≠ '_' ∧ isdigit c = false ∧
      ∀ d ∈ operatorChars, c ≠ d := by
  simp only [unrecognised, Bool.and_eq_true, Bool.not_eq_true', decide_eq_true_eq,
    List.contains_eq_any_beq, List.any_eq_false, beq_iff_eq] at h
  obtain ⟨⟨⟨⟨⟨h1, h2⟩, h3⟩, h4⟩, h5⟩, h6⟩ := h
  exact ⟨h1, h2, h3, h4, h5, fun d hd e => h6 d hd e⟩

theorem operatorL_unrecognised (c : Char) (r : List Char) (l : Nat)
    (h : ∀ d ∈ operatorChars, c ≠ d) (hs : c ≠ '/') : operatorL c r l = (r, l, none) := by
  unfold operatorL
  rw [if_neg (h '+' (by decide)), if_neg (h '-' (by decide)), if_neg (h '*' (by decide)),
    if_neg hs, if_neg (h '%' (by decide)), if_neg (h '=' (by decide)),
    if_neg (h '!' (by decide)), if_neg (h '<' (by decide)), if_neg (h '>' (by decide)),
    if_neg (h '&' (by decide)), if_neg (h '|' (by decide)), if_neg (h '(' (by decide)),
    if_neg (h ')' (by decide)), if_neg (h '{' (by decide)), if_neg (h '}' (by decide)),
    if_neg (h ',' (by decide)), if_neg (h ';' (by decide))]

theorem lexL_unrecognised (c : Char) (v : List Char) (l : Nat) (h : unrecognised c = true)
    (h0 : c ≠ NUL) : lexL (c :: v) l = lexL v l := by
  obtain ⟨h1, h2, h3, h4, h5, h6⟩ := unrecognised_spec c h
  rw [lexL_cons c v l h0]
  unfold bodyL scanL
  rw [if_neg (by rw [h1]; exact Bool.false_ne_true), if_neg h2,
    if_neg (by rw [h3]; rintro (e | e); exact h4 e; exact Bool.false_ne_true e),
    if_neg (by rw [h5]; exact Bool.false_ne_true), operatorL_unrecognised c v l h6 h2]
  rfl

theorem Boundary_unrecognised (c : Char) (v : List Char) (h : unrecognised c = true) :
    Boundary (c :: v) := by
  obtain ⟨-, -, h3, h4, h5, h6⟩ := unrecognised_spec c h
  refine Boundary_cons c v ?_ (h6 '=' (by decide)) (h6 '&' (by decide)) (h6 '|' (by decide))
  simp only [identP, isalnum, h3, h5, h4, decide_False, Bool.or_self, Bool.and_false]

theorem blockSkip_open (l : Nat) :
    ∀ c : List Char, ¬ List.IsInfix ['*', '/'] c → lexL (blockSkip c).2 l = [] := by
  intro c
  induction c with
  | nil => intro _; rfl
  | cons x t ih =>
    intro h1
    rw [blockSkip]
    by_cases hx : x = NUL
    · rw [if_pos hx, hx]
      exact lexL_NUL t l
    · have hcond : ¬ (x = '*' ∧ t.head? = some '/') := by
        rintro ⟨rfl, hh⟩
        exact h1 (closer_of_head t hh)
      rw [if_neg hx, if_neg hcond]
      exact ih (fun hi => h1 (List.infix_cons hi))

theorem digitP_of_isdigit (x : Char) (h : isdigit x = true) : digitP x = true := by
  simp only [digitP, Bool.and_eq_true, decide_eq_true_eq]
  exact ⟨isdigit_ne_NUL x h, h⟩

theorem isdigit_not_space (c : Char) (h : isdigit c = true) : ¬ isspace c = true := by
  intro hs
  rcases isspace_cases c hs with e | e | e | e | e | e <;> (subst e; revert h; decide)

theorem isdigit_not_alpha (c : Char) (h : isdigit c = true) :
    ¬ (c = '_' ∨ isalpha c = true) := by
  simp only [isdigit, decide_eq_true_eq] at h
  rintro (e | e)
  · rw [e] at h; revert h; decide
  · simp only [isalpha, Bool.or_eq_true, decide_eq_true_eq] at e
    omega

theorem newlines_eq_zero (u : List Char) (h : ∀ x ∈ u, x ≠ '\n') : newlines u = 0 := by
  unfold newlines
  exact List.count_eq_zero.mpr (fun hm => h _ hm rfl)

theorem StepSpec_ite (c : Char) (r : List Char) (l : Nat) (P : Prop) [Decidable P]
    (a b : List Char × Nat × Option Token) (ha : P → StepSpec c r l a)
    (hb : ¬ P → StepSpec c r l b) : StepSpec c r l (if P then a else b) := by
  by_cases h : P
  · rw [if_pos h]; exact ha h
  · rw [if_neg h]; exact hb h

theorem singleL_spec (c : Char) (r : List Char) (l : Nat) (ty : TokenType)
    (hn : c ≠ '\n') (hk : TextOK [c] ty) : StepSpec c r l (singleL r l ty [c]) := by
  refine ⟨[c], rfl, ?_, rfl, rfl, hk⟩
  rw [newlines_eq_zero [c] (by intro x hx; simp only [List.mem_singleton] at hx; rw [hx]; exact hn)]
  rfl

theorem lookaheadL_spec (c second : Char) (r : List Char) (l : Nat) (tyL tyS : TokenType)
    (hn : c ≠ '\n') (hs : second ≠ '\n') (hs0 : NUL ≠ second)
    (hL : TextOK [c, second] tyL) (hS : TextOK [c] tyS) :
    StepSpec c r l (lookaheadL r l second (tyL, [c, second]) (tyS, [c])) := by
  unfold lookaheadL
  cases r with
  | nil =>
    simp only [List.headD_nil]
    rw [if_neg hs0]
    refine ⟨[c], rfl, ?_, rfl, rfl, hS⟩
    rw [newlines_eq_zero [c]
      (by intro x hx; simp only [List.mem_singleton] at hx; rw [hx]; exact hn)]
    rfl
  | cons d t =>
    simp only [List.headD_cons, List.tail_cons]
    by_cases h : d = second
    · rw [if_pos h]
      subst h
      refine ⟨[c, d], rfl, ?_, rfl, rfl, hL⟩
      rw [newlines_eq_zero [c, d] (by
        intro x hx
        simp only [List.mem_cons, List.mem_singleton, List.not_mem_nil, or_false] at hx
        rcases hx with e | e
        · rw [e]; exact hn
        · rw [e]; exact hs)]
      rfl
    · rw [if_neg h]
      refine ⟨[c], rfl, ?_, rfl, rfl, hS⟩
      rw [newlines_eq_zero [c]
        (by intro x hx; simp only [List.mem_singleton] at hx; rw [hx]; exact hn)]
      rfl

theorem operatorL_spec (c : Char) (r : List Char) (l : Nat)
    (ha : ¬ (c = '_' ∨ isalpha c = true)) (hd : ¬ isdigit c = true) (hn : c ≠ '\n') :
    StepSpec c r l (operatorL c r l) := by
  unfold operatorL
  refine StepSpec_ite _ _ _ _ _ _ (fun h => by
    subst h; exact singleL_spec _ _ _ _ (by decide) (Or.inl (by decide))) (fun h1 => ?_)
  refine StepSpec_ite _ _ _ _ _ _ (fun h => by
    subst h; exact singleL_spec _ _ _ _ (by decide) (Or.inl (by decide))) (fun h2 => ?_)
  refine StepSpec_ite _ _ _ _ _ _ (fun h => by
    subst h; exact singleL_spec _ _ _ _ (by decide) (Or.inl (by decide))) (fun h3 => ?_)
  refine StepSpec_ite _ _ _ _ _ _ (fun h => by
    subst h; exact singleL_spec _ _ _ _ (by decide) (Or.inl (by decide))) (fun h4 => ?_)
  refine StepSpec_ite _ _ _ _ _ _ (fun h => by
    subst h; exact singleL_spec _ _ _ _ (by decide) (Or.inl (by decide))) (fun h5 => ?_)
  refine StepSpec_ite _ _ _ _ _ _ (fun h => by
    subst h
    exact lookaheadL_spec _ _ _ _ _ _ (by decide) (by decide) (by decide)
      (Or.inl (by decide)) (Or.inl (by decide))) (fun h6 => ?_)
  refine StepSpec_ite _ _ _ _ _ _ (fun h => by
    subst h
    exact lookaheadL_spec _ _ _ _ _ _ (by decide) (by decide) (by decide)
      (Or.inl (by decide)) (Or.inl (by decide))) (fun h7 => ?_)
  refine StepSpec_ite _ _ _ _ _ _ (fun h => by
    subst h
    exact lookaheadL_spec _ _ _ _ _ _ (by decide) (by decide) (by decide)
      (Or.inl (by decide)) (Or.inl (by decide))) (fun h8 => ?_)
  refine StepSpec_ite _ _ _ _ _ _ (fun h => by
    subst h
    exact lookaheadL_spec _ _ _ _ _ _ (by decide) (by decide) (by decide)
      (Or.inl (by decide)) (Or.inl (by decide))) (fun h9 => ?_)
  refine StepSpec_ite _ _ _ _ _ _ (fun h => by
    subst h
    exact lookaheadL_spec _ _ _ _ _ _ (by decide) (by decide) (by decide)
      (Or.inl (by decide)) (Or.inr (Or.inl ⟨rfl, rfl⟩))) (fun h10 => ?_)
  refine StepSpec_ite _ _ _ _ _ _ (fun h => by
    subst h
    exact lookaheadL_spec _ _ _ _ _ _ (by decide) (by decide) (by decide)
      (Or.inl (by decide)) (Or.inr (Or.inr ⟨rfl, rfl⟩))) (fun h11 => ?_)
  refine StepSpec_ite _ _ _ _ _ _ (fun h => by
    subst h; exact singleL_spec _ _ _ _ (by decide) (Or.inl (by decide))) (fun h12 => ?_)
  refine StepSpec_ite _ _ _ _ _ _ (fun h => by
    subst h; exact singleL_spec _ _ _ _ (by decide) (Or.inl (by decide))) (fun h13 => ?_)
  refine StepSpec_ite _ _ _ _ _ _ (fun h => by
    subst h; exact singleL_spec _ _ _ _ (by decide) (Or.inl (by decide))) (fun h14 => ?_)
  refine StepSpec_ite _ _ _ _ _ _ (fun h => by
    subst h; exact singleL_spec _ _ _ _ (by decide) (Or.inl (by decide))) (fun h15 => ?_)
  refine StepSpec_ite _ _ _ _ _ _ (fun h => by
    subst h; exact singleL_spec _ _ _ _ (by decide) (Or.inl (by decide))) (fun h16 => ?_)
  refine StepSpec_ite _ _ _ _ _ _ (fun h => by
    subst h; exact singleL_spec _ _ _ _ (by decide) (Or.inl (by decide))) (fun h17 => ?_)
  refine ⟨[c], rfl, ?_, Or.inr (Or.inr ⟨rfl, ?_⟩)⟩
  · rw [newlines_eq_zero [c]
      (by intro x hx; simp only [List.mem_singleton] at hx; rw [hx]; exact hn)]
    rfl
  · have h18 : ¬ isalpha c = true := fun e => ha (Or.inr e)
    have h19 : ¬ c = '_' := fun e => ha (Or.inl e)
    have hb : ∀ d : Char, ¬ c = d → (c == d) = false := fun d h => beq_eq_false_iff_ne.mpr h
    simp only [lexemeChar, lexemeChars, List.contains_eq_any_beq, List.any_cons, List.any_nil,
      hb _ h1, hb _ h2, hb _ h3, hb _ h4, hb _ h5, hb _ h6, hb _ h7, hb _ h8, hb _ h9, hb _ h10,
      hb _ h11, hb _ h12, hb _ h13, hb _ h14, hb _ h15, hb _ h16, hb _ h17, h18, h19, hd,
      Bool.or_false, decide_False, Bool.or_self]

theorem newlines_takeWhile (p : Char → Bool) (hp : p '\n' = false) (r : List Char) :
    newlines (r.takeWhile p) = 0 := by
  apply newlines_eq_zero
  intro x hx e
  have h := List.mem_takeWhile_imp hx
  rw [e, hp] at h
  exact Bool.false_ne_true h

theorem identP_spelling (x : Char) (h : identP x = true) :
    (decide (x = '_') || isalpha x || isdigit x) = true := by
  simp only [identP, isalnum, Bool.and_eq_true, Bool.or_eq_true, decide_eq_true_eq] at h
  simp only [Bool.or_eq_true, decide_eq_true_eq]
  rcases h.2 with e | e | e
  · exact Or.inl (Or.inl e)
  · exact Or.inl (Or.inr e)
  · exact Or.inr e

theorem scanL_spec (c : Char) (r : List Char) (l : Nat) (hs : ¬ isspace c = true) :
    StepSpec c r l (scanL c r l) := by
  have hn : c ≠ '\n' := isspace_newline c hs
  unfold scanL
  refine StepSpec_ite _ _ _ _ _ _ (fun h => ?_) (fun h => ?_)
  · refine ⟨c :: r.takeWhile identP, ?_, ?_, rfl, rfl, Or.inl ?_⟩
    · simp only [List.cons_append, List.takeWhile_append_dropWhile]
    · rw [newlines_cons, newlines_takeWhile identP (by decide), if_neg hn]
      rfl
    · have hsp : isIdentifierSpelling (c :: r.takeWhile identP) = true := by
        simp only [isIdentifierSpelling, Bool.and_eq_true, List.all_eq_true]
        refine ⟨?_, fun x hx => identP_spelling x (List.mem_takeWhile_imp hx)⟩
        simp only [Bool.or_eq_true, decide_eq_true_eq]
        exact h
      show classify (c :: r.takeWhile identP) = some (kind (c :: r.takeWhile identP))
      unfold classify
      rw [if_pos hsp, kind_eq_keywordKind]
  · refine StepSpec_ite _ _ _ _ _ _ (fun hd => ?_) (fun hd => operatorL_spec c r l h hd hn)
    refine ⟨c :: r.takeWhile digitP, ?_, ?_, rfl, rfl, Or.inl ?_⟩
    · simp only [List.cons_append, List.takeWhile_append_dropWhile]
    · rw [newlines_cons, newlines_takeWhile digitP (by decide), if_neg hn]
      rfl
    · have hsp : ¬ isIdentifierSpelling (c :: r.takeWhile digitP) = true := by
        simp only [isIdentifierSpelling, Bool.and_eq_true, Bool.or_eq_true, decide_eq_true_eq]
        exact fun e => h e.1
      have hdg : (!(c :: r.takeWhile digitP).isEmpty &&
          (c :: r.takeWhile digitP).all isdigit) = true := by
        simp only [List.isEmpty_cons, Bool.not_false, Bool.true_and, List.all_cons,
          Bool.and_eq_true, List.all_eq_true]
        refine ⟨hd, fun x hx => ?_⟩
        have := List.mem_takeWhile_imp hx
        simp only [digitP, Bool.and_eq_true] at this
        exact this.2
      show classify (c :: r.takeWhile digitP) = some TokenType.INTCONST
      unfold classify
      rw [if_neg hsp, if_pos hdg]

theorem commentL_consumed (r : List Char) (l : Nat)
    (h : r.headD NUL = '/' ∨ r.headD NUL = '*') :
    ∃ consumed, consumed ++ (commentL r l).1 = '/' :: r ∧
      (commentL r l).2.1 = l + newlines consumed := by
  unfold commentL
  by_cases h1 : r.headD NUL = '/'
  · rw [if_pos h1]
    have e := List.takeWhile_append_dropWhile lineP r
    cases hd : r.dropWhile lineP with
    | nil =>
      rw [hd, List.append_nil] at e
      simp only [List.headD_nil]
      rw [if_neg (by decide)]
      refine ⟨'/' :: r, by simp, ?_⟩
      rw [newlines_cons, ← e, newlines_takeWhile lineP (by decide), if_neg (by decide)]
      rfl
    | cons d t =>
      rw [hd] at e
      simp only [List.headD_cons, List.tail_cons]
      by_cases hn : d = '\n'
      · rw [if_pos hn]
        refine ⟨'/' :: (r.takeWhile lineP ++ [d]), ?_, ?_⟩
        · simp only [List.cons_append, List.append_assoc, List.singleton_append,
            List.nil_append, e]
        · rw [newlines_cons, newlines_append, newlines_takeWhile lineP (by decide),
            newlines_cons, if_pos hn, if_neg (by decide)]
          rfl
      · rw [if_neg hn]
        refine ⟨'/' :: r.takeWhile lineP, ?_, ?_⟩
        · simp only [List.cons_append, e]
        · rw [newlines_cons, newlines_takeWhile lineP (by decide), if_neg (by decide)]
          rfl
  · have h2 : r.headD NUL = '*' := h.resolve_left h1
    rw [if_neg h1]
    cases r with
    | nil => exact absurd h2 (by decide)
    | cons d t =>
      have hd : d = '*' := h2
      subst hd
      simp only [List.tail_cons]
      refine ⟨'/' :: '*' :: (blockSkip t).1, ?_, ?_⟩
      · simp only [List.cons_append, blockSkip_append]
      · rw [newlines_cons, newlines_cons, if_neg (by decide), if_neg (by decide)]
        rfl

/-- One iteration of the main loop, in the list reading: it consumes a non-empty
prefix of the remaining input, adds the newlines of that prefix to the line
counter, and pushes a token only when the prefix is the text of that token. -/
theorem bodyL_spec (c : Char) (r : List Char) (l : Nat) : StepSpec c r l (bodyL c r l) := by
  unfold bodyL
  refine StepSpec_ite _ _ _ _ _ _ (fun hs => ?_) (fun hs => ?_)
  · refine ⟨c :: r.takeWhile spaceP, ?_, rfl, Or.inl ?_⟩
    · simp only [List.cons_append, List.takeWhile_append_dropWhile]
    · intro x hx
      rcases List.mem_cons.mp hx with e | e
      · rw [e]; exact hs
      · have := List.mem_takeWhile_imp e
        simp only [spaceP, Bool.and_eq_true] at this
        exact this.2
  · refine StepSpec_ite _ _ _ _ _ _ (fun h => ?_) (fun h => scanL_spec c r l hs)
    subst h
    refine StepSpec_ite _ _ _ _ _ _ (fun hc => ?_)
      (fun _ => singleL_spec _ _ _ _ (by decide) (Or.inl (by decide)))
    obtain ⟨consumed, e1, e2⟩ := commentL_consumed r l hc
    refine ⟨consumed, e1, e2, ?_⟩
    rw [commentL_token]
    exact Or.inr (Or.inl ⟨rfl, hc⟩)

/-- One iteration of the main loop on a reachable state: the cursor moves over
a non-empty prefix `consumed` of the remaining input, the line counter grows by
the newlines of `consumed`, and the token pushed is the one of the list reading. -/
theorem tokenize_body_step (pre : List Char) (c : Char) (r : List Char) (l : Nat) :
    ∃ consumed, consumed ++ (bodyL c r l).1 = c :: r ∧
      (bodyL c r l).2.1 = l + newlines consumed ∧
      tokenize_body (cursor pre (c :: r) l) =
        some (cursor (pre ++ consumed) (bodyL c r l).1 (l + newlines consumed),
          (bodyL c r l).2.2) := by
  obtain ⟨x, hx, pre2, hx2, hx3⟩ := tokenize_body_cursor pre c r l
  obtain ⟨consumed, e1, e2, -⟩ := bodyL_spec c r l
  refine ⟨consumed, e1, e2, ?_⟩
  have e3 : pre2 = pre ++ consumed :=
    List.append_cancel_right
      (show pre2 ++ (bodyL c r l).1 = (pre ++ consumed) ++ (bodyL c r l).1 from by
        rw [hx3, List.append_assoc, e1])
  rw [hx, hx2, e3, e2]

theorem consumed_ne_nil (c : Char) (r : List Char) (l : Nat) (consumed : List Char)
    (h : consumed ++ (bodyL c r l).1 = c :: r) : consumed ≠ [] := by
  intro e
  have h1 := bodyL_length c r l
  rw [e, List.nil_append] at h
  rw [h] at h1
  simp at h1

theorem loop_head_succ (k : Nat) (s : Lexer) (x : Lexer × Option Token)
    (h0 : s.current_char ≠ NUL) (hx : tokenize_body s = some x) :
    loop_head (k + 1) s = loop_head k x.1 := by
  rw [loop_head, if_pos h0, hx]
  rfl

/-- Every state at the head of the main loop has its cursor behind a prefix
`consumed` of the text the loop started on, and its line counter has grown by
the newlines of `consumed`. -/
theorem loop_head_line (k : Nat) :
    ∀ (pre rest : List Char) (l : Nat) (s : Lexer),
      loop_head k (cursor pre rest l) = some s →
      ∃ consumed rest2, consumed ++ rest2 = rest ∧
        s = cursor (pre ++ consumed) rest2 (l + newlines consumed) := by
  induction k with
  | zero =>
    intro pre rest l s h
    simp only [loop_head, Option.some.injEq] at h
    exact ⟨[], rest, rfl, by rw [← h]; simp⟩
  | succ k ih =>
    intro pre rest l s h
    cases rest with
    | nil => simp [loop_head] at h
    | cons c r =>
      by_cases h0 : c = NUL
      · simp [loop_head, h0] at h
      · obtain ⟨consumed, e1, e0, e2⟩ := tokenize_body_step pre c r l
        rw [loop_head_succ k _ _ h0 e2] at h
        obtain ⟨consumed2, rest2, e3, e4⟩ := ih _ _ _ _ h
        refine ⟨consumed ++ consumed2, rest2, ?_, ?_⟩
        · rw [List.append_assoc, e3, e1]
        · rw [e4, newlines_append, List.append_assoc, Nat.add_assoc]

/-- With fuel above the length of the remaining input the main loop returns
the tokens `lexL rest l` in a state whose cursor stands at the end of the input
or on a sentinel character. -/
theorem tokenize_loop_final (n : Nat) :
    ∀ (rest pre : List Char) (l fuel : Nat) (acc : List Token),
      rest.length ≤ n → n < fuel →
      ∃ consumed rest2, consumed ++ rest2 = rest ∧ rest2.headD NUL = NUL ∧
        tokenize_loop fuel (cursor pre rest l) acc =
          some (acc ++ lexL rest l, cursor (pre ++ consumed) rest2 (l + newlines consumed)) := by
  induction n with
  | zero =>
    intro rest pre l fuel acc hr hf
    obtain ⟨k, rfl⟩ : ∃ k, fuel = k + 1 := ⟨fuel - 1, by omega⟩
    have hnil : rest = [] := List.length_eq_zero.mp (by omega)
    subst hnil
    exact ⟨[], [], rfl, rfl, by simp [tokenize_loop]⟩
  | succ n ih =>
    intro rest pre l fuel acc hr hf
    obtain ⟨k, rfl⟩ : ∃ k, fuel = k + 1 := ⟨fuel - 1, by omega⟩
    cases rest with
    | nil => exact ⟨[], [], rfl, rfl, by simp [tokenize_loop]⟩
    | cons c r =>
      by_cases h0 : c = NUL
      · subst h0
        exact ⟨[], NUL :: r, rfl, rfl, by simp [tokenize_loop]⟩
      · obtain ⟨consumed, e1, e0, e2⟩ := tokenize_body_step pre c r l
        have hlen := bodyL_length c r l
        have hr2 : (bodyL c r l).1.length ≤ n := by simp at hr; omega
        rw [tokenize_loop]
        simp only [cursor_cur_cons]
        rw [if_pos h0, e2, lexL_cons c r l h0, e0]
        cases ht : (bodyL c r l).2.2 with
        | none =>
          obtain ⟨consumed2, rest2, e3, e4, e5⟩ :=
            ih (bodyL c r l).1 (pre ++ consumed) (l + newlines consumed) k acc hr2 (by omega)
          refine ⟨consumed ++ consumed2, rest2, ?_, e4, ?_⟩
          · rw [List.append_assoc, e3, e1]
          · simp only [Option.toList_none, List.nil_append]
            rw [e5, newlines_append, List.append_assoc, Nat.add_assoc]
        | some t =>
          obtain ⟨consumed2, rest2, e3, e4, e5⟩ :=
            ih (bodyL c r l).1 (pre ++ consumed) (l + newlines consumed) k (acc ++ [t]) hr2
              (by omega)
          refine ⟨consumed ++ consumed2, rest2, ?_, e4, ?_⟩
          · rw [List.append_assoc, e3, e1]
          · simp only [Option.toList_some]
            rw [e5, newlines_append, List.append_assoc, Nat.add_assoc, List.append_assoc]

/-- The call `tokenize` on a fresh lexer, with the state it leaves behind. -/
theorem tokenize_final (input : List Char) :
    ∃ consumed rest2, consumed ++ rest2 = input ∧ rest2.headD NUL = NUL ∧
      (Lexer.new input).tokenize =
        some (lexL input 1, cursor consumed rest2 (1 + newlines consumed)) := by
  obtain ⟨consumed, rest2, e1, e2, e3⟩ :=
    tokenize_loop_final input.length input [] 1 (input.length + 1) [] (Nat.le_refl _)
      (Nat.lt_succ_self _)
  refine ⟨consumed, rest2, e1, e2, ?_⟩
  unfold Lexer.tokenize
  rw [new_eq_cursor]
  simp only [cursor_input, List.nil_append] at e3 ⊢
  exact e3

/-- What a returning run of the main loop is made of: the final state is a
loop head with the sentinel as current character, and every token returned was
either there before or pushed by an iteration entered at a loop head. -/
theorem tokenize_loop_pushed (fuel : Nat) :
    ∀ (s : Lexer) (acc ts : List Token) (fin : Lexer),
      tokenize_loop fuel s acc = some (ts, fin) →
      (∃ k, loop_head k s = some fin) ∧ fin.current_char = NUL ∧
      ∀ t ∈ ts, t ∈ acc ∨ ∃ k s1 s2, loop_head k s = some s1 ∧ s1.current_char ≠ NUL ∧
        tokenize_body s1 = some (s2, some t) := by
  induction fuel with
  | zero =>
    intro s acc ts fin h
    simp [tokenize_loop] at h
  | succ fuel ih =>
    intro s acc ts fin h
    rw [tokenize_loop] at h
    by_cases h0 : s.current_char ≠ NUL
    · rw [if_pos h0] at h
      cases hb : tokenize_body s with
      | none => rw [hb] at h; simp at h
      | some x =>
        obtain ⟨s1, o⟩ := x
        rw [hb] at h
        cases o with
        | none =>
          simp only at h
          obtain ⟨⟨k, hk⟩, hf, ht⟩ := ih s1 acc ts fin h
          refine ⟨⟨k + 1, by rw [loop_head_succ k s _ h0 hb]; exact hk⟩, hf, ?_⟩
          intro t hmem
          rcases ht t hmem with hin | ⟨k2, a, b, e1, e2, e3⟩
          · exact Or.inl hin
          · exact Or.inr ⟨k2 + 1, a, b, by rw [loop_head_succ k2 s _ h0 hb]; exact e1, e2, e3⟩
        | some t0 =>
          simp only at h
          obtain ⟨⟨k, hk⟩, hf, ht⟩ := ih s1 (acc ++ [t0]) ts fin h
          refine ⟨⟨k + 1, by rw [loop_head_succ k s _ h0 hb]; exact hk⟩, hf, ?_⟩
          intro t hmem
          rcases ht t hmem with hin | ⟨k2, a, b, e1, e2, e3⟩
          · rcases List.mem_append.mp hin with hin2 | hin2
            · exact Or.inl hin2
            · simp only [List.mem_singleton] at hin2
              subst hin2
              exact Or.inr ⟨0, s, s1, rfl, h0, hb⟩
          · exact Or.inr ⟨k2 + 1, a, b, by rw [loop_head_succ k2 s _ h0 hb]; exact e1, e2, e3⟩
    · rw [if_neg h0] at h
      simp only [Option.some.injEq, Prod.mk.injEq] at h
      obtain ⟨rfl, rfl⟩ := h
      exact ⟨⟨0, rfl⟩, by simpa using h0, fun t ht => Or.inl ht⟩

theorem cursor_take (consumed rest : List Char) (l : Nat) :
    (consumed ++ rest).take (cursor consumed rest l).pos.toNat = consumed := by
  simp [cursor]

theorem cursor_drop (consumed rest : List Char) (l : Nat) :
    (consumed ++ rest).drop (cursor consumed rest l).pos.toNat = rest := by
  simp [cursor]

/-- With `int` unbounded, the line-counter invariant: at the head of every iteration of the main
loop and when `tokenize` returns, the line counter is one plus the number of
newlines among the characters before the cursor; and every token returned was
pushed by an iteration entered with the cursor on the first character of the
token text, so its line is one plus the number of newlines before that
character. -/
theorem line_counter_invariant_unbounded (input : List Char) :
    (∀ k s, loop_head k (Lexer.new input) = some s →
      s.line = 1 + (input.take s.pos.toNat).count '\n') ∧
    (∃ ts fin, (Lexer.new input).tokenize = some (ts, fin) ∧
      fin.line = 1 + (input.take fin.pos.toNat).count '\n' ∧
      ∀ t ∈ ts, ∃ k s s2, loop_head k (Lexer.new input) = some s ∧
        tokenize_body s = some (s2, some t) ∧
        List.IsPrefix t.value (input.drop s.pos.toNat) ∧ t.value ≠ [] ∧
        t.line = 1 + (input.take s.pos.toNat).count '\n') := by
  have hhead : ∀ k s, loop_head k (Lexer.new input) = some s →
      ∃ consumed rest2, consumed ++ rest2 = input ∧
        s = cursor consumed rest2 (1 + newlines consumed) := by
    intro k s h
    rw [new_eq_cursor] at h
    obtain ⟨consumed, rest2, e1, e2⟩ := loop_head_line k [] input 1 s h
    exact ⟨consumed, rest2, e1, by rw [e2, List.nil_append]⟩
  refine ⟨?_, ?_⟩
  · intro k s h
    obtain ⟨consumed, rest2, e1, e2⟩ := hhead k s h
    rw [e2, ← e1, cursor_take]
    rfl
  · obtain ⟨consumed, rest2, e1, -, e3⟩ := tokenize_final input
    refine ⟨_, _, e3, ?_, ?_⟩
    · rw [← e1, cursor_take]
      rfl
    · intro t ht
      unfold Lexer.tokenize at e3
      obtain ⟨-, -, hp⟩ := tokenize_loop_pushed _ _ _ _ _ e3
      rcases hp t ht with hin | ⟨k, s, s2, h1, h2, h3⟩
      · simp at hin
      · refine ⟨k, s, s2, h1, h3, ?_⟩
        obtain ⟨cons2, rest3, e4, e5⟩ := hhead k s h1
        subst e5
        cases rest3 with
        | nil => exact absurd rfl h2
        | cons c r =>
          obtain ⟨cons3, e6, -, e7⟩ := tokenize_body_step cons2 c r (1 + newlines cons2)
          obtain ⟨cons4, e8, -, e9⟩ := bodyL_spec c r (1 + newlines cons2)
          rw [e7] at h3
          simp only [Option.some.injEq, Prod.mk.injEq] at h3
          rw [h3.2] at e9
          obtain ⟨e10, e11, -⟩ := e9
          have hne := consumed_ne_nil c r _ cons4 e8
          rw [← e4, cursor_take, cursor_drop]
          refine ⟨⟨_, by rw [e11]; exact e8⟩, by rw [e11]; exact hne, ?_⟩
          rw [e10]
          rfl

theorem headD_NUL_of_no_NUL (rest : List Char) (h : ∀ c ∈ rest, c ≠ NUL)
    (h2 : rest.headD NUL = NUL) : rest = [] := by
  cases rest with
  | nil => rfl
  | cons d t => exact absurd h2 (h d (List.mem_cons_self _ _))

/-- With `int` unbounded, on an input that contains no sentinel character the main
loop stops only at the end of the input: `tokenize` returns with the cursor
position equal to the length of the input. -/
theorem stops_at_end_unbounded (input : List Char) (h : ∀ c ∈ input, c ≠ NUL) :
    ∃ ts fin, (Lexer.new input).tokenize = some (ts, fin) ∧
      fin.pos = (input.length : Int) ∧ fin.current_char = NUL := by
  obtain ⟨consumed, rest2, e1, e2, e3⟩ := tokenize_final input
  refine ⟨_, _, e3, ?_, ?_⟩
  · have hr : rest2 = [] :=
      headD_NUL_of_no_NUL rest2 (fun c hc => h c (by rw [← e1]; exact List.mem_append_right _ hc)) e2
    rw [← e1, hr]
    simp [cursor]
  · exact e2

/-- C18. A lexer is single-use: after one call of `tokenize` has returned, a
second call on the same object returns the empty token list and leaves the
state of the object unchanged. -/
theorem C18_single_use (input : List Char) :
    ∃ ts fin, (Lexer.new input).tokenize = some (ts, fin) ∧
      fin.tokenize = some ([], fin) := by
  obtain ⟨consumed, rest2, e1, e2, e3⟩ := tokenize_final input
  refine ⟨_, _, e3, ?_⟩
  unfold Lexer.tokenize
  rw [tokenize_loop]
  have hc : (cursor consumed rest2 (1 + newlines consumed)).current_char = NUL := e2
  rw [if_neg (by rw [hc]; exact fun h => h rfl)]

theorem headD_append_NUL (r v : List Char) : (r ++ NUL :: v).headD NUL = r.headD NUL := by
  cases r <;> rfl

theorem blockSkip_append_NUL (v : List Char) :
    ∀ t : List Char, (∀ x ∈ t, x ≠ NUL) →
      blockSkip (t ++ NUL :: v) = ((blockSkip t).1, (blockSkip t).2 ++ NUL :: v) := by
  intro t
  induction t with
  | nil => intro _; rfl
  | cons x t2 ih =>
    intro h
    have hx : x ≠ NUL := h x (List.mem_cons_self _ _)
    have ih2 := ih (fun y hy => h y (List.mem_cons_of_mem _ hy))
    rw [List.cons_append, blockSkip, blockSkip, if_neg hx, if_neg hx]
    cases t2 with
    | nil =>
      have hc : ¬ (x = '*' ∧ ([] ++ NUL :: v).head? = some '/') := by
        rintro ⟨-, e⟩
        simp only [List.nil_append, List.head?_cons, Option.some.injEq] at e
        exact absurd e (by decide)
      have hc2 : ¬ (x = '*' ∧ ([] : List Char).head? = some '/') := by
        rintro ⟨-, e⟩
        simp at e
      rw [if_neg hc, if_neg hc2, ih2]
    | cons d t3 =>
      by_cases hc : x = '*' ∧ (d :: t3).head? = some '/'
      · rw [if_pos hc, if_pos (by simpa using hc)]
        rfl
      · rw [if_neg hc, if_neg (by simpa using hc), ih2]

theorem commentL_append_NUL (r v : List Char) (l : Nat) (hr : ∀ x ∈ r, x ≠ NUL)
    (h : r.headD NUL = '/' ∨ r.headD NUL = '*') :
    commentL (r ++ NUL :: v) l = appendStep (NUL :: v) (commentL r l) := by
  unfold commentL
  rw [headD_append_NUL, dropWhile_append_stop lineP (NUL :: v) rfl]
  by_cases h1 : r.headD NUL = '/'
  · rw [if_pos h1, if_pos h1]
    cases hd : r.dropWhile lineP with
    | nil =>
      simp only [List.nil_append, List.headD_cons, List.headD_nil]
      rw [if_neg (by decide)]
      rfl
    | cons d t =>
      simp only [List.cons_append, List.headD_cons, List.tail_cons]
      by_cases hn : d = '\n'
      · rw [if_pos hn, if_pos hn]; rfl
      · rw [if_neg hn, if_neg hn]; rfl
  · rw [if_neg h1, if_neg h1]
    cases r with
    | nil => exact absurd (h.resolve_left h1) (by decide)
    | cons d t =>
      simp only [List.cons_append, List.tail_cons]
      rw [blockSkip_append_NUL v t (fun y hy => hr y (List.mem_cons_of_mem _ hy))]
      rfl

theorem bodyL_append_NUL (c : Char) (r v : List Char) (l : Nat) (hr : ∀ x ∈ r, x ≠ NUL) :
    bodyL c (r ++ NUL :: v) l = appendStep (NUL :: v) (bodyL c r l) := by
  have hb : Boundary (NUL :: v) :=
    Boundary_cons NUL v (by decide) (by decide) (by decide) (by decide)
  unfold bodyL
  by_cases hs : isspace c = true
  · rw [if_pos hs, if_pos hs, takeWhile_append_stop spaceP (NUL :: v) rfl,
      dropWhile_append_stop spaceP (NUL :: v) rfl]
    rfl
  · rw [if_neg hs, if_neg hs]
    by_cases h : c = '/'
    · rw [if_pos h, if_pos h, headD_append_NUL]
      by_cases hc : r.headD NUL = '/' ∨ r.headD NUL = '*'
      · rw [if_pos hc, if_pos hc, commentL_append_NUL r v l hr hc]
      · rw [if_neg hc, if_neg hc]
        rfl
    · rw [if_neg h, if_neg h, scanL_append c r (NUL :: v) l hb]

theorem bodyL_rest_mem (c : Char) (r : List Char) (l : Nat) :
    ∀ x ∈ (bodyL c r l).1, x ∈ c :: r := by
  obtain ⟨consumed, e1, -, -⟩ := bodyL_spec c r l
  intro x hx
  rw [← e1]
  exact List.mem_append_right _ hx

/-- A sentinel character behind a text free of sentinels ends the scan: what
stands after it does not matter. -/
theorem lexL_append_NUL (v : List Char) (n : Nat) :
    ∀ (u : List Char) (l : Nat), u.length ≤ n → (∀ x ∈ u, x ≠ NUL) →
      lexL (u ++ NUL :: v) l = lexL u l := by
  induction n with
  | zero =>
    intro u l hu _
    have hnil : u = [] := List.length_eq_zero.mp (by omega)
    subst hnil
    simp
  | succ n ih =>
    intro u l hu hp
    cases u with
    | nil => simp
    | cons c r =>
      have hc : c ≠ NUL := hp c (List.mem_cons_self _ _)
      have hpr : ∀ x ∈ r, x ≠ NUL := fun x hx => hp x (List.mem_cons_of_mem _ hx)
      have hlen := bodyL_length c r l
      rw [List.cons_append, lexL_cons c _ l hc, lexL_cons c r l hc, bodyL_append_NUL c r v l hpr]
      simp only [appendStep]
      rw [ih (bodyL c r l).1 _ (by simp at hu; omega)
        (fun x hx => hp x (bodyL_rest_mem c r l x hx))]

theorem dropWhile_NUL_head (s : List Char) :
    (s.dropWhile fun c => decide (c ≠ NUL)).headD NUL = NUL := by
  induction s with
  | nil => rfl
  | cons c t ih =>
    rw [List.dropWhile_cons]
    by_cases h : c = NUL
    · rw [if_neg (by simpa using h)]
      exact h
    · rw [if_pos (by simpa using h)]
      exact ih

theorem takeWhile_append_dropWhile_NUL (s : List Char) :
    s = s.takeWhile (fun c => decide (c ≠ NUL)) ∨
    ∃ v, s = s.takeWhile (fun c => decide (c ≠ NUL)) ++ NUL :: v := by
  have e := List.takeWhile_append_dropWhile (fun c => decide (c ≠ NUL)) s
  have hh := dropWhile_NUL_head s
  cases hd : s.dropWhile (fun c => decide (c ≠ NUL)) with
  | nil =>
    left
    rw [hd, List.append_nil] at e
    exact e.symm
  | cons d t =>
    right
    rw [hd] at hh e
    have hdn : d = NUL := hh
    refine ⟨t, ?_⟩
    rw [hdn] at e
    exact e.symm

/-- C19. An embedded sentinel character acts as end of input: the tokens of
`s` are the tokens of the longest prefix of `s` that contains no sentinel
character, and both calls return. -/
theorem C19_NUL_ends_input (s : List Char) :
    ∃ ts, tokenize s = some ts ∧
      tokenize (s.takeWhile fun c => decide (c ≠ NUL)) = some ts := by
  refine ⟨lexL s 1, tokenize_eq_lexL s, ?_⟩
  rw [tokenize_eq_lexL]
  have hfree : ∀ x ∈ s.takeWhile (fun c => decide (c ≠ NUL)), x ≠ NUL := by
    intro x hx
    simpa using List.mem_takeWhile_imp hx
  rcases takeWhile_append_dropWhile_NUL s with e | ⟨v, e⟩
  · rw [← e]
  · have h := lexL_append_NUL v _ (s.takeWhile fun c => decide (c ≠ NUL)) 1 (Nat.le_refl _) hfree
    rw [← e] at h
    rw [h]

/-! ## Token texts and kinds -/

theorem isspace_not_lexeme (x : Char) (h : isspace x = true) : lexemeChar x = false := by
  rcases isspace_cases x h with e | e | e | e | e | e <;> (subst e; decide)

theorem operator_text_chars (v : List Char) (ty : TokenType)
    (h : operatorTable.lookup v = some ty) : ∀ x ∈ v, lexemeChar x = true := by
  obtain ⟨l1, l2, e, -⟩ := List.lookup_eq_some_iff.mp h
  have hm : (v, ty) ∈ operatorTable := by rw [e]; simp
  have key : ∀ w ∈ operatorTable.map Prod.fst, ∀ x ∈ w, lexemeChar x = true := by decide
  exact key v (List.mem_map_of_mem Prod.fst hm)

theorem TextOK_chars (v : List Char) (ty : TokenType) (h : TextOK v ty) :
    ∀ x ∈ v, lexemeChar x = true := by
  rcases h with h | ⟨rfl, -⟩ | ⟨rfl, -⟩
  · unfold classify at h
    by_cases h1 : isIdentifierSpelling v = true
    · cases v with
      | nil => exact absurd h1 (by decide)
      | cons c cs =>
        simp only [isIdentifierSpelling, Bool.and_eq_true, Bool.or_eq_true, decide_eq_true_eq,
          List.all_eq_true] at h1
        intro x hx
        simp only [lexemeChar, Bool.or_eq_true, decide_eq_true_eq]
        rcases List.mem_cons.mp hx with e | e
        · subst e
          rcases h1.1 with e2 | e2
          · exact Or.inl (Or.inr e2)
          · exact Or.inl (Or.inl (Or.inl e2))
        · rcases h1.2 x e with (e2 | e2) | e2
          · exact Or.inl (Or.inr e2)
          · exact Or.inl (Or.inl (Or.inl e2))
          · exact Or.inl (Or.inl (Or.inr e2))
    · rw [if_neg h1] at h
      by_cases h2 : (!v.isEmpty && v.all isdigit) = true
      · simp only [Bool.and_eq_true, List.all_eq_true] at h2
        intro x hx
        simp only [lexemeChar, Bool.or_eq_true, decide_eq_true_eq]
        exact Or.inl (Or.inl (Or.inr (h2.2 x hx)))
      · rw [if_neg h2] at h
        exact operator_text_chars v ty h
  · decide
  · decide

theorem lexL_tokens_ok (n : Nat) :
    ∀ (rest : List Char) (l : Nat), rest.length ≤ n →
      ∀ t ∈ lexL rest l, TextOK t.value t.type ∧ t.value ≠ [] := by
  induction n with
  | zero =>
    intro rest l hr
    have hnil : rest = [] := List.length_eq_zero.mp (by omega)
    subst hnil
    simp
  | succ n ih =>
    intro rest l hr
    cases rest with
    | nil => simp
    | cons c r =>
      by_cases h0 : c = NUL
      · subst h0; simp
      · have hlen := bodyL_length c r l
        have hr2 : (bodyL c r l).1.length ≤ n := by simp at hr; omega
        obtain ⟨consumed, e1, -, e3⟩ := bodyL_spec c r l
        have hne := consumed_ne_nil c r l consumed e1
        rw [lexL_cons c r l h0]
        intro t ht
        rcases List.mem_append.mp ht with h1 | h1
        · cases ho : (bodyL c r l).2.2 with
          | none => rw [ho] at h1; simp at h1
          | some t0 =>
            rw [ho] at h1 e3
            simp only [Option.toList_some, List.mem_singleton] at h1
            subst h1
            exact ⟨e3.2.2, by rw [e3.2.1]; exact hne⟩
        · exact ih _ _ hr2 t h1

theorem lexL_texts (n : Nat) :
    ∀ (rest : List Char) (l : Nat), rest.length ≤ n → (∀ c ∈ rest, c ≠ NUL) →
      ¬ List.IsInfix ['/', '/'] rest → ¬ List.IsInfix ['/', '*'] rest →
      ((lexL rest l).map Token.value).flatten = rest.filter lexemeChar := by
  induction n with
  | zero =>
    intro rest l hr _ _ _
    have hnil : rest = [] := List.length_eq_zero.mp (by omega)
    subst hnil
    simp
  | succ n ih =>
    intro rest l hr h0 h1 h2
    cases rest with
    | nil => simp
    | cons c r =>
      have hc : c ≠ NUL := h0 c (List.mem_cons_self _ _)
      have hlen := bodyL_length c r l
      have hr2 : (bodyL c r l).1.length ≤ n := by simp at hr; omega
      obtain ⟨consumed, e1, -, e3⟩ := bodyL_spec c r l
      have hsuf : List.IsSuffix (bodyL c r l).1 (c :: r) := ⟨consumed, e1⟩
      have ih2 := ih (bodyL c r l).1 (bodyL c r l).2.1 hr2
        (fun x hx => h0 x (hsuf.subset hx))
        (fun hi => h1 (hi.trans hsuf.isInfix)) (fun hi => h2 (hi.trans hsuf.isInfix))
      rw [lexL_cons c r l hc, List.map_append, List.flatten_append, ih2]
      conv_rhs => rw [← e1, List.filter_append]
      congr 1
      cases ho : (bodyL c r l).2.2 with
      | some t0 =>
        rw [ho] at e3
        simp only [Option.toList_some, List.map_cons, List.map_nil, List.flatten_cons,
          List.flatten_nil, List.append_nil]
        rw [e3.2.1]
        exact (List.filter_eq_self.mpr
          (fun x hx => TextOK_chars _ _ e3.2.2 x (by rw [e3.2.1]; exact hx))).symm
      | none =>
        rw [ho] at e3
        simp only [Option.toList_none, List.map_nil, List.flatten_nil]
        symm
        rw [List.filter_eq_nil_iff]
        rcases e3 with hw | ⟨hs, hcm⟩ | ⟨hs, hk⟩
        · intro x hx
          rw [isspace_not_lexeme x (hw x hx)]
          exact Bool.false_ne_true
        · exfalso
          subst hs
          cases r with
          | nil => rcases hcm with e | e <;> exact absurd e (by decide)
          | cons d t =>
            rcases hcm with e | e
            · have e2 : d = '/' := e
              subst e2
              exact h1 (List.prefix_append ['/', '/'] t).isInfix
            · have e2 : d = '*' := e
              subst e2
              exact h2 (List.prefix_append ['/', '*'] t).isInfix
        · intro x hx
          rw [hs, List.mem_singleton] at hx
          rw [hx, hk]
          exact Bool.false_ne_true

/-- With `int` unbounded, token texts are the exact lexemes in source order: on an input with
no sentinel character and no `//` or `/*`, the texts of the tokens returned,
concatenated in order, are the input with every character removed that is not
a letter, digit, underscore or operator or punctuation character; and no token
text is empty. -/
theorem texts_are_lexemes_unbounded (input : List Char) (h0 : ∀ c ∈ input, c ≠ NUL)
    (h1 : ¬ List.IsInfix ['/', '/'] input) (h2 : ¬ List.IsInfix ['/', '*'] input) :
    ∃ ts, tokenize input = some ts ∧
      (ts.map Token.value).flatten = input.filter lexemeChar ∧
      ∀ t ∈ ts, t.value ≠ [] :=
  ⟨lexL input 1, tokenize_eq_lexL input,
    lexL_texts input.length input 1 (Nat.le_refl _) h0 h1 h2,
    fun t ht => (lexL_tokens_ok input.length input 1 (Nat.le_refl _) t ht).2⟩

theorem number_loop_has_digit (fuel : Nat) :
    ∀ (s : Lexer) (result : List Char) (r : Lexer × List Char × Bool),
      number_loop fuel s result true = some r → r.2.2 = true := by
  induction fuel with
  | zero => intro s result r h; simp [number_loop] at h
  | succ fuel ih =>
    intro s result r h
    rw [number_loop] at h
    by_cases hg : s.current_char ≠ NUL ∧ isdigit s.current_char = true
    · rw [if_pos hg] at h
      exact ih _ _ _ h
    · rw [if_neg hg] at h
      simp only [Option.some.injEq] at h
      rw [← h]

/-- Entered on a digit, `number` never takes its leading-minus branch nor its
`"0"` default. -/
theorem number_live_eq (s : Lexer) (h : isdigit s.current_char = true) :
    number_live s = number s := by
  unfold number number_live
  rw [if_neg (isdigit_ne_minus _ h), number_loop,
    if_pos ⟨isdigit_ne_NUL _ h, h⟩]
  cases hr : number_loop s.input.length (advance s) ([] ++ [s.current_char]) true with
  | none => rfl
  | some r =>
    have hd := number_loop_has_digit _ _ _ _ hr
    simp only [Option.map_some', hd, Bool.true_eq_false, if_false]

theorem scan_token_live_eq (s : Lexer) : scan_token_live s = scan_token s := by
  unfold scan_token_live scan_token
  by_cases h1 : s.current_char = '_' ∨ isalpha s.current_char = true
  · rw [if_pos h1, if_pos h1]
  · rw [if_neg h1, if_neg h1]
    by_cases h2 : isdigit s.current_char = true
    · rw [if_pos h2, if_pos h2, number_live_eq s h2]
    · rw [if_neg h2, if_neg h2]

theorem tokenize_body_live_eq (s : Lexer) : tokenize_body_live s = tokenize_body s := by
  have e : scan_token_live = scan_token := funext scan_token_live_eq
  unfold tokenize_body_live tokenize_body
  rw [e]

theorem tokenize_loop_live_eq (fuel : Nat) :
    ∀ (s : Lexer) (acc : List Token),
      tokenize_loop_live fuel s acc = tokenize_loop fuel s acc := by
  induction fuel with
  | zero => intro s acc; rfl
  | succ fuel ih =>
    intro s acc
    rw [tokenize_loop_live, tokenize_loop, tokenize_body_live_eq]
    by_cases h0 : s.current_char ≠ NUL
    · rw [if_pos h0, if_pos h0]
      cases hb : tokenize_body s with
      | none => rfl
      | some x =>
        obtain ⟨s1, o⟩ := x
        cases o with
        | none => exact ih s1 acc
        | some t => exact ih s1 (acc ++ [t])
    · rw [if_neg h0, if_neg h0]

theorem ite_mem_kinds (P : Prop) [Decidable P] (a b : TokenType) (L : List TokenType)
    (ha : a ∈ L) (hb : b ∈ L) : (if P then a else b) ∈ L := by
  by_cases h : P
  · rw [if_pos h]; exact ha
  · rw [if_neg h]; exact hb

theorem keywordKind_mem (v : List Char) :
    keywordKind v ∈ [TokenType.INT, TokenType.VOID, TokenType.IF, TokenType.ELSE,
      TokenType.WHILE, TokenType.BREAK, TokenType.CONTINUE, TokenType.RETURN,
      TokenType.IDENT] := by
  unfold keywordKind
  repeat' first
    | apply ite_mem_kinds
    | decide

theorem classify_INTCONST (v : List Char) (h : classify v = some TokenType.INTCONST) :
    v ≠ [] ∧ ∀ c ∈ v, isdigit c = true := by
  unfold classify at h
  by_cases h1 : isIdentifierSpelling v = true
  · rw [if_pos h1] at h
    have hm := keywordKind_mem v
    rw [Option.some.inj h] at hm
    exact absurd hm (by decide)
  · rw [if_neg h1] at h
    by_cases h2 : (!v.isEmpty && v.all isdigit) = true
    · simp only [Bool.and_eq_true, List.all_eq_true, Bool.not_eq_true',
        List.isEmpty_eq_false] at h2
      exact ⟨h2.1, h2.2⟩
    · rw [if_neg h2] at h
      obtain ⟨l1, l2, e, -⟩ := List.lookup_eq_some_iff.mp h
      have hm : (v, TokenType.INTCONST) ∈ operatorTable := by rw [e]; simp
      have key : ∀ p ∈ operatorTable, p.2 ≠ TokenType.INTCONST := by decide
      exact absurd rfl (key _ hm)

theorem classify_MINUS (v : List Char) (h : classify v = some TokenType.MINUS) :
    v = ['-'] := by
  unfold classify at h
  by_cases h1 : isIdentifierSpelling v = true
  · rw [if_pos h1] at h
    have hm := keywordKind_mem v
    rw [Option.some.inj h] at hm
    exact absurd hm (by decide)
  · rw [if_neg h1] at h
    by_cases h2 : (!v.isEmpty && v.all isdigit) = true
    · rw [if_pos h2] at h
      exact absurd (Option.some.inj h) (by decide)
    · rw [if_neg h2] at h
      obtain ⟨l1, l2, e, -⟩ := List.lookup_eq_some_iff.mp h
      have hm : (v, TokenType.MINUS) ∈ operatorTable := by rw [e]; simp
      have key : ∀ p ∈ operatorTable, p.2 = TokenType.MINUS → p.1 = ['-'] := by decide
      exact key _ hm rfl

/-- C17. The leading-minus branch and the `"0"` default of `number` are dead:
whenever the current character is a decimal digit, which is the only case in
which the main loop calls `number`, the function with both parts removed gives
the same result; hence the lexer built on it returns the same as `tokenize` on
every input.  Accordingly every `INTCONST` token has a non-empty text of
decimal digits and every `MINUS` token has the text `-` of the operator
switch. -/
theorem C17_number_dead_code (input : List Char) :
    (∀ s : Lexer, isdigit s.current_char = true → number_live s = number s) ∧
    (∀ s : Lexer, scan_token_live s = scan_token s) ∧
    tokenize_live input = tokenize input ∧
    ∃ ts, tokenize input = some ts ∧ ∀ t ∈ ts,
      (t.type = TokenType.INTCONST → t.value ≠ [] ∧ ∀ c ∈ t.value, isdigit c = true) ∧
      (t.type = TokenType.MINUS → t.value = ['-']) := by
  refine ⟨number_live_eq, scan_token_live_eq, ?_, lexL input 1, tokenize_eq_lexL input, ?_⟩
  · unfold tokenize_live tokenize Lexer.tokenize
    rw [tokenize_loop_live_eq]
    rfl
  · intro t ht
    have hok := (lexL_tokens_ok input.length input 1 (Nat.le_refl _) t ht).1
    constructor
    · intro hty
      rw [hty] at hok
      rcases hok with h | ⟨-, h⟩ | ⟨-, h⟩
      · exact classify_INTCONST _ h
      · exact absurd h (by decide)
      · exact absurd h (by decide)
    · intro hty
      rw [hty] at hok
      rcases hok with h | ⟨-, h⟩ | ⟨-, h⟩
      · exact classify_MINUS _ h
      · exact absurd h (by decide)
      · exact absurd h (by decide)

/-- C17 on the input `a-1`: the lexer with the dead parts removed returns the
same three tokens, the `MINUS` one coming from the operator switch. -/
theorem C17_number_dead_code_witness :
    tokenize_live "a-1".toList = tokenize "a-1".toList ∧
    tokenize "a-1".toList =
      some [{ line := 1, type := TokenType.IDENT, value := "a".toList },
            { line := 1, type := TokenType.MINUS, value := "-".toList },
            { line := 1, type := TokenType.INTCONST, value := "1".toList }] :=
  ⟨(C17_number_dead_code "a-1".toList).2.2.1, by decide⟩

/-! ## Line comments and the driver -/

theorem ite_ne_newline (P : Prop) [Decidable P] (a b : Char) (ha : a ≠ '\n') (hb : b ≠ '\n') :
    (if P then a else b) ≠ '\n' := by
  by_cases h : P
  · rw [if_pos h]; exact ha
  · rw [if_neg h]; exact hb

theorem digitChar_ne_newline (n : Nat) : Nat.digitChar n ≠ '\n' := by
  unfold Nat.digitChar
  repeat' first
    | apply ite_ne_newline
    | decide

theorem no_newline_append (a b : List Char) (ha : ∀ c ∈ a, c ≠ '\n') (hb : ∀ c ∈ b, c ≠ '\n') :
    ∀ c ∈ a ++ b, c ≠ '\n' := by
  intro c hc
  rcases List.mem_append.mp hc with h | h
  · exact ha c h
  · exact hb c h

theorem toDigitsCore_no_newline (fuel : Nat) :
    ∀ (n : Nat) (ds : List Char), (∀ c ∈ ds, c ≠ '\n') →
      ∀ c ∈ Nat.toDigitsCore 10 fuel n ds, c ≠ '\n' := by
  induction fuel with
  | zero => intro n ds h; exact h
  | succ fuel ih =>
    intro n ds h
    have h2 : ∀ c ∈ Nat.digitChar (n % 10) :: ds, c ≠ '\n' := by
      intro c hc
      rcases List.mem_cons.mp hc with e | e
      · rw [e]; exact digitChar_ne_newline _
      · exact h c e
    rw [Nat.toDigitsCore]
    by_cases hz : n / 10 = 0
    · simp only [hz, if_true]
      exact h2
    · simp only [hz, if_false]
      exact ih _ _ h2

theorem toDigits_no_newline (i : Nat) : ∀ c ∈ Nat.toDigits 10 i, c ≠ '\n' :=
  toDigitsCore_no_newline _ _ _ (fun _ h => absurd h (List.not_mem_nil _))

theorem get_token_name_no_newline (ty : TokenType) : ∀ c ∈ get_token_name ty, c ≠ '\n' := by
  cases ty <;> decide

theorem print_tokens_lines (rest : List Token) :
    ∀ pre : List Token, print_tokens pre.length rest =
      ((List.range rest.length).map fun k =>
        outputLine (pre ++ rest) (pre.length + k) ++ ['\n']).flatten := by
  induction rest with
  | nil => intro pre; rfl
  | cons t r ih =>
    intro pre
    have h0 : outputLine (pre ++ t :: r) (pre.length + 0) ++ ['\n'] = print_token pre.length t := by
      unfold outputLine print_token
      rw [Nat.add_zero, List.getElem?_append_right (Nat.le_refl _), Nat.sub_self]
      simp
    have h1 := ih (pre ++ [t])
    simp only [List.length_append, List.length_singleton, List.append_assoc,
      List.singleton_append] at h1
    rw [print_tokens, h1, List.length_cons, List.range_succ_eq_map, List.map_cons,
      List.flatten_cons, h0, List.map_map]
    congr 2
    apply List.map_congr_left
    intro k _
    simp only [Function.comp_apply]
    rw [Nat.add_assoc, Nat.add_comm 1 k]

/-- C13. Driver output format: on the token list `ts` returned by `tokenize`
the output loop of the driver writes exactly `length ts` lines; line `i` is the
decimal index `i`, a colon, the display name of the kind of `ts[i]`, a colon
and the text of `ts[i]` in double quotes, and contains no newline; `main`
writes just that for the token list of its input.  The display name is
non-empty for every kind: the spelling in single quotes for the keyword and
operator kinds, `Ident` and `IntConst` for the other two. -/
theorem C13_driver_output (input : List Char) :
    (∃ ts, tokenize input = some ts ∧
      print_tokens 0 ts =
        ((List.range ts.length).map fun i => outputLine ts i ++ ['\n']).flatten ∧
      ∀ i, i < ts.length → ∃ t, ts[i]? = some t ∧
        outputLine ts i =
          Nat.toDigits 10 i ++ [':'] ++ get_token_name t.type ++ [':', '"'] ++ t.value ++ ['"'] ∧
        '\n' ∉ outputLine ts i) ∧
    (∀ lines, main lines = (tokenize (read_input lines)).map (print_tokens 0)) ∧
    (∀ ty, get_token_name ty ≠ []) ∧
    (∀ p ∈ keywords, get_token_name p.2 = ['\''] ++ p.1 ++ ['\'']) ∧
    (∀ p ∈ operatorTable, get_token_name p.2 = ['\''] ++ p.1 ++ ['\'']) ∧
    get_token_name TokenType.IDENT = "Ident".toList ∧
    get_token_name TokenType.INTCONST = "IntConst".toList := by
  refine ⟨⟨lexL input 1, tokenize_eq_lexL _, ?_, ?_⟩, ?_, ?_, by decide, by decide,
    by decide, by decide⟩
  · have e := print_tokens_lines (lexL input 1) []
    simp only [List.length_nil, List.nil_append, Nat.zero_add] at e
    exact e
  · intro i hi
    have hget : (lexL input 1)[i]? = some ((lexL input 1)[i]) :=
      List.getElem?_eq_getElem hi
    have hmem : (lexL input 1)[i] ∈ lexL input 1 := List.getElem_mem hi
    have hok := (lexL_tokens_ok _ _ 1 (Nat.le_refl _) _ hmem).1
    have hch := TextOK_chars _ _ hok
    refine ⟨_, hget, ?_, ?_⟩
    · unfold outputLine
      rw [hget]
    · unfold outputLine
      rw [hget]
      have htext : ∀ c ∈ (lexL input 1)[i].value, c ≠ '\n' := by
        intro c h e
        have := hch c h
        rw [e] at this
        revert this
        decide
      intro hmem2
      exact no_newline_append _ _
        (no_newline_append _ _
          (no_newline_append _ _
            (no_newline_append _ _
              (no_newline_append _ _ (toDigits_no_newline i) (by decide))
              (get_token_name_no_newline _))
            (by decide))
          htext)
        (by decide) _ hmem2 rfl
  · intro lines
    unfold main tokenize
    cases (Lexer.new (read_input lines)).tokenize <;> rfl
  · intro ty
    cases ty <;> decide

/-- C13 on the input line `int main(){return 0;}`: the nine output lines. -/
theorem C13_driver_output_witness :
    main ["int main()\x7breturn 0;\x7d".toList] =
      some ("0:'int':\"int\"\n1:Ident:\"main\"\n2:'(':\"(\"\n3:')':\")\"\n".toList ++
        "4:'\x7b':\"\x7b\"\n5:'return':\"return\"\n6:IntConst:\"0\"\n".toList ++
        "7:';':\";\"\n8:'\x7d':\"\x7d\"\n".toList) := by
  have hC := C13_driver_output (read_input ["int main()\x7breturn 0;\x7d".toList])
  obtain ⟨ts, h1, h2, -⟩ := hC.1
  rw [hC.2.1, h1, Option.map_some', h2]
  rw [show tokenize (read_input ["int main()\x7breturn 0;\x7d".toList]) =
    some [{ line := 1, type := TokenType.INT, value := "int".toList },
          { line := 1, type := TokenType.IDENT, value := "main".toList },
          { line := 1, type := TokenType.LPAREN, value := "(".toList },
          { line := 1, type := TokenType.RPAREN, value := ")".toList },
          { line := 1, type := TokenType.LBRACE, value := ['\x7b'] },
          { line := 1, type := TokenType.RETURN, value := "return".toList },
          { line := 1, type := TokenType.INTCONST, value := "0".toList },
          { line := 1, type := TokenType.SEMICOLON, value := ";".toList },
          { line := 1, type := TokenType.RBRACE, value := ['\x7d'] }] from by decide] at h1
  cases h1
  decide

/-! ## Cursor safety -/

theorem cursor_inBounds (pre rest : List Char) (l : Nat) (input : List Char)
    (h : pre ++ rest = input) : InBounds input (cursor pre rest l) := by
  subst h
  refine ⟨rfl, ?_, ?_⟩
  · simp only [cursor_pos]; omega
  · simp only [cursor_pos, List.length_append]; push_cast; omega

theorem cursor_consistent (pre rest : List Char) (l : Nat) :
    Consistent (cursor pre rest l) := by
  unfold Consistent
  simp only [cursor_cur_nil, cursor_pos, cursor_input, List.length_append]
  cases rest with
  | nil =>
    have h : ¬ ((0 : Int) ≤ (pre.length : Int) ∧
        (pre.length : Int) < ((pre.length + ([] : List Char).length : Nat) : Int)) := by
      simp
    rw [if_neg h]
    rfl
  | cons d t =>
    have h : ((0 : Int) ≤ (pre.length : Int) ∧
        (pre.length : Int) < ((pre.length + (d :: t).length : Nat) : Int)) := by
      simp only [List.length_cons]; push_cast; omega
    rw [if_pos h]
    have hn : ((pre.length : Int)).toNat = pre.length := by omega
    rw [hn, List.getD_eq_getElem?_getD, List.getElem?_append_right (Nat.le_refl _)]
    simp

theorem advance_consistent (s : Lexer) : Consistent (advance s) := rfl

theorem append_singleton_eq (pre : List Char) (c : Char) (r input : List Char)
    (h : pre ++ c :: r = input) : (pre ++ [c]) ++ r = input := by
  rw [← h]; simp

theorem skip_whitespace_trace_inBounds (input : List Char) (rest : List Char) :
    ∀ (pre : List Char) (l fuel : Nat), pre ++ rest = input →
      ∀ x ∈ skip_whitespace_trace fuel (cursor pre rest l), InBounds input x := by
  induction rest with
  | nil =>
    intro pre l fuel _ x hx
    cases fuel <;> simp [skip_whitespace_trace] at hx
  | cons c r ih =>
    intro pre l fuel h x hx
    cases fuel with
    | zero => simp [skip_whitespace_trace] at hx
    | succ k =>
      rw [skip_whitespace_trace] at hx
      simp only [cursor_cur_cons] at hx
      by_cases hg : c ≠ NUL ∧ isspace c = true
      · rw [if_pos hg] at hx
        have hstep : advance (if c = '\n' then
              { cursor pre (c :: r) l with line := (cursor pre (c :: r) l).line + 1 }
            else cursor pre (c :: r) l) =
            cursor (pre ++ [c]) r (l + (if c = '\n' then 1 else 0)) := by
          rw [← advance_cursor]
          by_cases hn : c = '\n'
          · simp only [hn, if_true]; rfl
          · simp only [hn, if_false]; rfl
        have hx2 : x ∈ cursor (pre ++ [c]) r (l + (if c = '\n' then 1 else 0)) ::
            skip_whitespace_trace k (cursor (pre ++ [c]) r (l + (if c = '\n' then 1 else 0))) := by
          rw [← hstep]; exact hx
        rcases List.mem_cons.mp hx2 with e | e
        · rw [e]; exact cursor_inBounds _ _ _ _ (append_singleton_eq pre c r input h)
        · exact ih _ _ _ (append_singleton_eq pre c r input h) x e
      · rw [if_neg hg] at hx
        simp at hx

theorem line_comment_trace_inBounds (input : List Char) (rest : List Char) :
    ∀ (pre : List Char) (l fuel : Nat), pre ++ rest = input →
      ∀ x ∈ line_comment_trace fuel (cursor pre rest l), InBounds input x := by
  induction rest with
  | nil =>
    intro pre l fuel _ x hx
    cases fuel <;> simp [line_comment_trace] at hx
  | cons c r ih =>
    intro pre l fuel h x hx
    cases fuel with
    | zero => simp [line_comment_trace] at hx
    | succ k =>
      rw [line_comment_trace] at hx
      simp only [cursor_cur_cons, advance_cursor] at hx
      by_cases hg : c ≠ NUL ∧ c ≠ '\n'
      · rw [if_pos hg] at hx
        rcases List.mem_cons.mp hx with e | e
        · rw [e]; exact cursor_inBounds _ _ _ _ (append_singleton_eq pre c r input h)
        · exact ih _ _ _ (append_singleton_eq pre c r input h) x e
      · rw [if_neg hg] at hx
        simp at hx

theorem number_loop_trace_inBounds (input : List Char) (rest : List Char) :
    ∀ (pre : List Char) (l fuel : Nat), pre ++ rest = input →
      ∀ x ∈ number_loop_trace fuel (cursor pre rest l), InBounds input x := by
  induction rest with
  | nil =>
    intro pre l fuel _ x hx
    cases fuel <;> simp [number_loop_trace] at hx
  | cons c r ih =>
    intro pre l fuel h x hx
    cases fuel with
    | zero => simp [number_loop_trace] at hx
    | succ k =>
      rw [number_loop_trace] at hx
      simp only [cursor_cur_cons, advance_cursor] at hx
      by_cases hg : c ≠ NUL ∧ isdigit c = true
      · rw [if_pos hg] at hx
        rcases List.mem_cons.mp hx with e | e
        · rw [e]; exact cursor_inBounds _ _ _ _ (append_singleton_eq pre c r input h)
        · exact ih _ _ _ (append_singleton_eq pre c r input h) x e
      · rw [if_neg hg] at hx
        simp at hx

theorem identifier_loop_trace_inBounds (input : List Char) (rest : List Char) :
    ∀ (pre : List Char) (l fuel : Nat), pre ++ rest = input →
      ∀ x ∈ identifier_loop_trace fuel (cursor pre rest l), InBounds input x := by
  induction rest with
  | nil =>
    intro pre l fuel _ x hx
    cases fuel <;> simp [identifier_loop_trace] at hx
  | cons c r ih =>
    intro pre l fuel h x hx
    cases fuel with
    | zero => simp [identifier_loop_trace] at hx
    | succ k =>
      rw [identifier_loop_trace] at hx
      simp only [cursor_cur_cons, advance_cursor] at hx
      by_cases hg : c ≠ NUL ∧ (c = '_' ∨ isalnum c = true)
      · rw [if_pos hg] at hx
        rcases List.mem_cons.mp hx with e | e
        · rw [e]; exact cursor_inBounds _ _ _ _ (append_singleton_eq pre c r input h)
        · exact ih _ _ _ (append_singleton_eq pre c r input h) x e
      · rw [if_neg hg] at hx
        simp at hx

theorem block_comment_trace_inBounds (input : List Char) (rest : List Char) :
    ∀ (pre : List Char) (l fuel : Nat), pre ++ rest = input →
      ∀ x ∈ block_comment_trace fuel (cursor pre rest l), InBounds input x := by
  induction rest with
  | nil =>
    intro pre l fuel _ x hx
    cases fuel <;> simp [block_comment_trace] at hx
  | cons c r ih =>
    intro pre l fuel h x hx
    have h1 := append_singleton_eq pre c r input h
    cases fuel with
    | zero => simp [block_comment_trace] at hx
    | succ k =>
      rw [block_comment_trace] at hx
      simp only [cursor_cur_cons] at hx
      by_cases h0 : c = NUL
      · rw [if_neg (fun hh => hh h0)] at hx
        simp at hx
      · rw [if_pos h0] at hx
        by_cases hs : c = '*'
        · rw [if_pos hs] at hx
          simp only [advance_cursor] at hx
          cases r with
          | nil =>
            simp only [cursor_cur_nil] at hx
            rw [if_neg (by decide)] at hx
            rcases List.mem_cons.mp hx with e | e
            · rw [e]; exact cursor_inBounds _ _ _ _ h1
            · exact ih _ _ _ h1 x e
          | cons d t =>
            simp only [cursor_cur_cons] at hx
            by_cases hd : d = '/'
            · rw [if_pos hd] at hx
              simp only [advance_cursor, List.mem_cons, List.mem_singleton,
                List.not_mem_nil, or_false] at hx
              rcases hx with e | e
              · rw [e]; exact cursor_inBounds _ _ _ _ h1
              · rw [e]
                exact cursor_inBounds _ _ _ _ (append_singleton_eq (pre ++ [c]) d t input h1)
            · rw [if_neg hd] at hx
              rcases List.mem_cons.mp hx with e | e
              · rw [e]; exact cursor_inBounds _ _ _ _ h1
              · exact ih _ _ _ h1 x e
        · rw [if_neg hs] at hx
          have hstep : advance (if c = '\n' then
                { cursor pre (c :: r) l with line := (cursor pre (c :: r) l).line + 1 }
              else cursor pre (c :: r) l) =
              cursor (pre ++ [c]) r (l + (if c = '\n' then 1 else 0)) := by
            rw [← advance_cursor]
            by_cases hn : c = '\n'
            · simp only [hn, if_true]; rfl
            · simp only [hn, if_false]; rfl
          have hx2 : x ∈ cursor (pre ++ [c]) r (l + (if c = '\n' then 1 else 0)) ::
              block_comment_trace k (cursor (pre ++ [c]) r (l + (if c = '\n' then 1 else 0))) := by
            rw [← hstep]; exact hx
          rcases List.mem_cons.mp hx2 with e | e
          · rw [e]; exact cursor_inBounds _ _ _ _ h1
          · exact ih _ _ _ h1 x e

theorem skip_comment_trace_inBounds (input pre r : List Char) (l : Nat)
    (h : pre ++ '/' :: r = input) :
    ∀ x ∈ skip_comment_trace (cursor pre ('/' :: r) l), InBounds input x := by
  have h1 := append_singleton_eq pre '/' r input h
  intro x hx
  unfold skip_comment_trace at hx
  simp only [cursor_cur_cons, if_true, advance_cursor] at hx
  rcases List.mem_cons.mp hx with e | hx2
  · rw [e]; exact cursor_inBounds _ _ _ _ h1
  · by_cases hs : (cursor (pre ++ ['/']) r l).current_char = '/'
    · rw [if_pos hs] at hx2
      rw [line_comment_loop_cursor r _ _ _ (by simp; omega)] at hx2
      rcases List.mem_append.mp hx2 with e | e
      · exact line_comment_trace_inBounds input r _ _ _ h1 x e
      · have ht := List.takeWhile_append_dropWhile lineP r
        cases hd : r.dropWhile lineP with
        | nil =>
          rw [hd] at e
          simp only [cursor_cur_nil] at e
          rw [if_neg (by decide)] at e
          simp at e
        | cons d t =>
          rw [hd] at e ht
          simp only [cursor_cur_cons] at e
          by_cases hn : d = '\n'
          · rw [if_pos hn] at e
            simp only [List.mem_singleton] at e
            have e2 : x = cursor (pre ++ ['/'] ++ r.takeWhile lineP ++ [d]) t (l + 1) :=
              e.trans (by rw [← advance_cursor]; rfl)
            rw [e2]
            apply cursor_inBounds
            have e3 : pre ++ ['/'] ++ r.takeWhile lineP ++ [d] ++ t =
                pre ++ ['/'] ++ (r.takeWhile lineP ++ d :: t) := by simp
            rw [e3, ht, h1]
          · rw [if_neg hn] at e
            simp at e
    · rw [if_neg hs] at hx2
      by_cases hb : (cursor (pre ++ ['/']) r l).current_char = '*'
      · rw [if_pos hb] at hx2
        cases r with
        | nil => exact absurd (show NUL = '*' from hb) (by decide)
        | cons d t =>
          simp only [advance_cursor] at hx2
          have h2 := append_singleton_eq (pre ++ ['/']) d t input h1
          rcases List.mem_cons.mp hx2 with e | e
          · rw [e]; exact cursor_inBounds _ _ _ _ h2
          · exact block_comment_trace_inBounds input t _ _ _ h2 x e
      · rw [if_neg hb] at hx2
        have hb1 := cursor_inBounds (pre ++ ['/']) r l input h1
        have hpos : (cursor (pre ++ ['/']) r l).pos - 1 = (pre.length : Int) := by
          simp only [cursor_pos, List.length_append, List.length_singleton]
          push_cast
          omega
        have hlen : (pre.length : Int) ≤ (input.length : Int) := by
          rw [← h]
          simp only [List.length_append, List.length_cons]
          push_cast
          omega
        simp only [List.mem_cons, List.mem_singleton, List.not_mem_nil, or_false] at hx2
        rcases hx2 with e | e
        · rw [e]
          refine ⟨hb1.1, ?_, ?_⟩
          · show 0 ≤ (cursor (pre ++ ['/']) r l).pos - 1
            rw [hpos]; omega
          · show (cursor (pre ++ ['/']) r l).pos - 1 ≤ (input.length : Int)
            rw [hpos]; exact hlen
        · rw [e]
          refine ⟨hb1.1, ?_, ?_⟩
          · show 0 ≤ (cursor (pre ++ ['/']) r l).pos - 1
            rw [hpos]; omega
          · show (cursor (pre ++ ['/']) r l).pos - 1 ≤ (input.length : Int)
            rw [hpos]; exact hlen

theorem identifier_trace_inBounds (input pre : List Char) (c : Char) (r : List Char) (l : Nat)
    (h : pre ++ c :: r = input) :
    ∀ x ∈ identifier_trace (cursor pre (c :: r) l), InBounds input x := by
  have h1 := append_singleton_eq pre c r input h
  intro x hx
  unfold identifier_trace at hx
  simp only [cursor_cur_cons, advance_cursor] at hx
  by_cases ha : c = '_' ∨ isalpha c = true
  · rw [if_pos ha] at hx
    rcases List.mem_cons.mp hx with e | e
    · rw [e]; exact cursor_inBounds _ _ _ _ h1
    · exact identifier_loop_trace_inBounds input r _ _ _ h1 x e
  · rw [if_neg ha] at hx
    exact identifier_loop_trace_inBounds input (c :: r) _ _ _ h x hx

theorem number_trace_inBounds (input pre : List Char) (c : Char) (r : List Char) (l : Nat)
    (h : pre ++ c :: r = input) :
    ∀ x ∈ number_trace (cursor pre (c :: r) l), InBounds input x := by
  intro x hx
  unfold number_trace at hx
  simp only [cursor_cur_cons] at hx
  by_cases hm : c = '-'
  · rw [if_pos hm] at hx
    simp at hx
  · rw [if_neg hm] at hx
    exact number_loop_trace_inBounds input (c :: r) _ _ _ h x hx

theorem lookahead_trace_inBounds (input pre : List Char) (c : Char) (r : List Char) (l : Nat)
    (second : Char) (hs : NUL ≠ second) (h : pre ++ c :: r = input) :
    ∀ x ∈ lookahead_trace (cursor pre (c :: r) l) second, InBounds input x := by
  have h1 := append_singleton_eq pre c r input h
  intro x hx
  unfold lookahead_trace at hx
  simp only [advance_cursor] at hx
  cases r with
  | nil =>
    simp only [cursor_cur_nil] at hx
    rw [if_neg hs] at hx
    simp only [List.mem_singleton] at hx
    rw [hx]; exact cursor_inBounds _ _ _ _ h1
  | cons d t =>
    simp only [cursor_cur_cons] at hx
    by_cases hd : d = second
    · rw [if_pos hd] at hx
      simp only [advance_cursor, List.mem_cons, List.mem_singleton, List.not_mem_nil,
        or_false] at hx
      rcases hx with e | e
      · rw [e]; exact cursor_inBounds _ _ _ _ h1
      · rw [e]; exact cursor_inBounds _ _ _ _ (append_singleton_eq (pre ++ [c]) d t input h1)
    · rw [if_neg hd] at hx
      simp only [List.mem_singleton] at hx
      rw [hx]; exact cursor_inBounds _ _ _ _ h1

theorem operator_trace_inBounds (input pre : List Char) (c : Char) (r : List Char) (l : Nat)
    (h : pre ++ c :: r = input) :
    ∀ x ∈ operator_trace (cursor pre (c :: r) l), InBounds input x := by
  intro x hx
  unfold operator_trace at hx
  simp only [cursor_cur_cons] at hx
  by_cases h1 : c = '=' ∨ c = '!' ∨ c = '<' ∨ c = '>'
  · rw [if_pos h1] at hx
    exact lookahead_trace_inBounds input pre c r l '=' (by decide) h x hx
  · rw [if_neg h1] at hx
    by_cases h2 : c = '&'
    · rw [if_pos h2] at hx
      exact lookahead_trace_inBounds input pre c r l '&' (by decide) h x hx
    · rw [if_neg h2] at hx
      by_cases h3 : c = '|'
      · rw [if_pos h3] at hx
        exact lookahead_trace_inBounds input pre c r l '|' (by decide) h x hx
      · rw [if_neg h3] at hx
        simp only [advance_cursor, List.mem_singleton] at hx
        rw [hx]
        exact cursor_inBounds _ _ _ _ (append_singleton_eq pre c r input h)

theorem scan_token_trace_inBounds (input pre : List Char) (c : Char) (r : List Char) (l : Nat)
    (h : pre ++ c :: r = input) :
    ∀ x ∈ scan_token_trace (cursor pre (c :: r) l), InBounds input x := by
  intro x hx
  unfold scan_token_trace at hx
  simp only [cursor_cur_cons] at hx
  by_cases h1 : c = '_' ∨ isalpha c = true
  · rw [if_pos h1] at hx
    exact identifier_trace_inBounds input pre c r l h x hx
  · rw [if_neg h1] at hx
    by_cases h2 : isdigit c = true
    · rw [if_pos h2] at hx
      exact number_trace_inBounds input pre c r l h x hx
    · rw [if_neg h2] at hx
      exact operator_trace_inBounds input pre c r l h x hx

theorem tokenize_body_trace_inBounds (input pre : List Char) (c : Char) (r : List Char)
    (l : Nat) (h : pre ++ c :: r = input) :
    ∀ x ∈ tokenize_body_trace (cursor pre (c :: r) l), InBounds input x := by
  intro x hx
  unfold tokenize_body_trace at hx
  simp only [cursor_cur_cons] at hx
  by_cases hw : isspace c = true
  · rw [if_pos hw] at hx
    exact skip_whitespace_trace_inBounds input (c :: r) pre l _ h x hx
  · rw [if_neg hw] at hx
    by_cases hs : c = '/'
    · subst hs
      simp only [if_true] at hx
      rcases List.mem_append.mp hx with e | e
      · exact skip_comment_trace_inBounds input pre r l h x e
      · by_cases hc : r.headD NUL = '/' ∨ r.headD NUL = '*'
        · obtain ⟨pre2, e1, -, e3⟩ := skip_comment_cursor_comment pre r l hc
          rw [e1] at e
          simp only [cursor_pos, cursor_line] at e
          have hne : ¬ ((pre2.length : Int) = (pre.length : Int) ∧ (commentL r l).2.1 = l) := by
            intro hh; have := hh.1; omega
          rw [if_neg hne] at e
          simp at e
        · rw [skip_comment_cursor_rewind pre r l hc] at e
          simp only [and_self, if_true] at e
          exact scan_token_trace_inBounds input pre '/' r l h x e
    · rw [if_neg hs] at hx
      exact scan_token_trace_inBounds input pre c r l h x hx

/-- Every state the object passes through during the main loop, started on a
reachable state, has its cursor within the buffer. -/
theorem tokenize_trace_inBounds (input : List Char) (fuel : Nat) :
    ∀ (pre rest : List Char) (l : Nat), pre ++ rest = input →
      ∀ x ∈ tokenize_trace fuel (cursor pre rest l), InBounds input x := by
  induction fuel with
  | zero =>
    intro pre rest l h x hx
    simp only [tokenize_trace, List.mem_singleton] at hx
    rw [hx]; exact cursor_inBounds _ _ _ _ h
  | succ fuel ih =>
    intro pre rest l h x hx
    rw [tokenize_trace] at hx
    rcases List.mem_cons.mp hx with e | e
    · rw [e]; exact cursor_inBounds _ _ _ _ h
    · cases rest with
      | nil => simp at e
      | cons c r =>
        simp only [cursor_cur_cons] at e
        by_cases h0 : c = NUL
        · rw [if_neg (fun hh => hh h0)] at e
          simp at e
        · rw [if_pos h0] at e
          obtain ⟨consumed, e1, -, e2⟩ := tokenize_body_step pre c r l
          rw [e2] at e
          rcases List.mem_append.mp e with e3 | e3
          · exact tokenize_body_trace_inBounds input pre c r l h x e3
          · exact ih _ _ _ (by rw [List.append_assoc, e1, h]) x e3

theorem skip_comment_consistent (pre rest : List Char) (l : Nat) :
    ∃ s1, skip_comment (cursor pre rest l) = some s1 ∧ Consistent s1 := by
  cases rest with
  | nil =>
    refine ⟨cursor pre [] l, ?_, cursor_consistent _ _ _⟩
    unfold skip_comment
    rw [if_neg (show ¬ (cursor pre [] l).current_char = '/' from (by decide : ¬ NUL = '/'))]
  | cons c r =>
    by_cases hs : c = '/'
    · subst hs
      by_cases hc : r.headD NUL = '/' ∨ r.headD NUL = '*'
      · obtain ⟨pre2, e1, -, -⟩ := skip_comment_cursor_comment pre r l hc
        exact ⟨_, e1, cursor_consistent _ _ _⟩
      · exact ⟨_, skip_comment_cursor_rewind pre r l hc, cursor_consistent _ _ _⟩
    · refine ⟨cursor pre (c :: r) l, ?_, cursor_consistent _ _ _⟩
      unfold skip_comment
      rw [if_neg (show ¬ (cursor pre (c :: r) l).current_char = '/' from hs)]

/-- Every state at a head of the main loop is among the states listed by
`tokenize_trace`, given as much fuel as iterations. -/
theorem loop_head_mem_trace (k : Nat) :
    ∀ (fuel : Nat) (s0 s : Lexer), k ≤ fuel → loop_head k s0 = some s →
      s ∈ tokenize_trace fuel s0 := by
  induction k with
  | zero =>
    intro fuel s0 s _ h
    simp only [loop_head, Option.some.injEq] at h
    subst h
    cases fuel <;> simp [tokenize_trace]
  | succ k ih =>
    intro fuel s0 s hf h
    obtain ⟨f, rfl⟩ : ∃ f, fuel = f + 1 := ⟨fuel - 1, by omega⟩
    rw [loop_head] at h
    by_cases h0 : s0.current_char ≠ NUL
    · rw [if_pos h0] at h
      cases hb : tokenize_body s0 with
      | none => rw [hb] at h; simp at h
      | some x =>
        rw [hb] at h
        simp only [Option.some_bind] at h
        rw [tokenize_trace, if_pos h0, hb]
        exact List.mem_cons_of_mem _ (List.mem_append_right _ (ih f x.1 s (by omega) h))
    · rw [if_neg h0] at h
      simp at h

/-- With `int` unbounded, cursor safety: in every state the object passes through during
`tokenize`, the rewind of `skip_comment` included, `0 ≤ pos ≤ length(input)`,
the states at the heads of the main loop being among them; at every head of
the main loop, at the return of `advance`, `skip_whitespace`, `skip_comment`,
`number` and `identifier` called there, and at the return of `tokenize`,
`current_char` is `input[pos]` when `pos < length(input)` and the sentinel
otherwise; and the rewind, taken when the slash is followed by neither a slash
nor a star, puts `pos` back on the index of that slash, which is not negative
and within the buffer. -/
theorem cursor_safety_unbounded (input : List Char) :
    (∀ x ∈ tokenize_trace (input.length + 1) (Lexer.new input),
      x.input = input ∧ 0 ≤ x.pos ∧ x.pos ≤ (input.length : Int)) ∧
    (∀ k s, loop_head k (Lexer.new input) = some s →
      s ∈ tokenize_trace (input.length + 1) (Lexer.new input)) ∧
    (∀ k s, loop_head k (Lexer.new input) = some s →
      Consistent s ∧
      (∃ s1, skip_whitespace s = some s1 ∧ Consistent s1) ∧
      (∃ s1, skip_comment s = some s1 ∧ Consistent s1) ∧
      (isdigit s.current_char = true → ∃ t s1, number s = some (t, s1) ∧ Consistent s1) ∧
      (s.current_char = '_' ∨ isalpha s.current_char = true →
        ∃ t s1, identifier s = some (t, s1) ∧ Consistent s1) ∧
      (s.current_char = '/' → (advance s).current_char ≠ '/' →
        (advance s).current_char ≠ '*' →
        0 ≤ (advance s).pos - 1 ∧ (advance s).pos - 1 < (input.length : Int) ∧
        input[((advance s).pos - 1).toNat]? = some '/' ∧
        skip_comment s =
          some { advance s with pos := (advance s).pos - 1, current_char := '/' })) ∧
    (∃ ts fin, (Lexer.new input).tokenize = some (ts, fin) ∧ Consistent fin) ∧
    (∀ s : Lexer, Consistent (advance s)) := by
  refine ⟨?_, ?_, ?_, ?_, advance_consistent⟩
  · intro x hx
    rw [new_eq_cursor] at hx
    exact tokenize_trace_inBounds input _ [] input 1 rfl x hx
  · intro k s h
    have hk : k ≤ input.length := by
      obtain ⟨pre2, rest2, l2, -, e2, e3⟩ := loop_head_cursor k [] input 1 s h
      have h4 := congrArg List.length e2
      simp only [List.length_append, List.length_nil, List.nil_append] at h4 e3
      omega
    exact loop_head_mem_trace k _ _ s (by omega) h
  · intro k s h
    rw [new_eq_cursor] at h
    obtain ⟨consumed, rest2, e1, e2⟩ := loop_head_line k [] input 1 s h
    rw [List.nil_append] at e2
    subst e2
    refine ⟨cursor_consistent _ _ _, ?_, skip_comment_consistent _ _ _, ?_, ?_, ?_⟩
    · unfold skip_whitespace
      exact ⟨_, skip_whitespace_loop_cursor rest2 _ _ _ (by simp; omega),
        cursor_consistent _ _ _⟩
    · intro hd
      cases rest2 with
      | nil => exact absurd (show isdigit NUL = true from hd) (by decide)
      | cons c r =>
        exact ⟨_, _, number_cursor consumed c r _ hd, cursor_consistent _ _ _⟩
    · intro ha
      cases rest2 with
      | nil => exact absurd (show NUL = '_' ∨ isalpha NUL = true from ha) (by decide)
      | cons c r =>
        exact ⟨_, _, identifier_cursor consumed c r _ ha, cursor_consistent _ _ _⟩
    · intro hs h1 h2
      cases rest2 with
      | nil => exact absurd (show NUL = '/' from hs) (by decide)
      | cons c r =>
        have hc : c = '/' := hs
        subst hc
        rw [advance_cursor] at h1 h2 ⊢
        have hn : ¬ (r.headD NUL = '/' ∨ r.headD NUL = '*') := by
          rintro (e | e)
          · exact h1 e
          · exact h2 e
        have hpos : (cursor (consumed ++ ['/']) r (1 + newlines consumed)).pos - 1 =
            (consumed.length : Int) := by
          simp only [cursor_pos, List.length_append, List.length_singleton]
          push_cast
          omega
        have hlen : consumed.length < input.length := by
          rw [← e1]; simp
        refine ⟨by rw [hpos]; omega, by rw [hpos]; omega, ?_, ?_⟩
        · rw [hpos, ← e1, Int.toNat_ofNat, List.getElem?_append_right (Nat.le_refl _),
            Nat.sub_self]
          exact List.getElem?_cons_zero
        · rw [skip_comment_cursor_rewind consumed r _ hn]
          simp [cursor]
  · obtain ⟨consumed, rest2, -, -, e3⟩ := tokenize_final input
    exact ⟨_, _, e3, cursor_consistent _ _ _⟩

/-! ## Agreement of the two readings of `int`

On a state that `Fits`, every function of the 32-bit program computes what the
function on unbounded integers computes. -/

theorem wrap32_eq (x : Int) (h1 : -2147483648 ≤ x) (h2 : x < 2147483648) : wrap32 x = x := by
  unfold wrap32
  omega

@[simp] theorem to32_current_char (s : Lexer) : s.to32.current_char = s.current_char := rfl

@[simp] theorem to32_input (s : Lexer) : s.to32.input = s.input := rfl

@[simp] theorem to32_pos (s : Lexer) : s.to32.pos = s.pos := rfl

@[simp] theorem to32_line (s : Lexer) : s.to32.line = (s.line : Int) := rfl

theorem new32_eq (text : List Char) : Lexer32.new text = (Lexer.new text).to32 := rfl

theorem advance32_to32 (s : Lexer) (h : 0 ≤ s.pos ∧ s.pos + 1 < 2147483648) :
    advance32 s.to32 = (advance s).to32 := by
  unfold advance32 advance Lexer.to32
  simp only
  rw [wrap32_eq _ (by omega) h.2]

theorem bump32_to32 (s : Lexer) (h : s.line + 1 < 2147483648) :
    { s.to32 with line := wrap32 (s.to32.line + 1) } = ({ s with line := s.line + 1 } : Lexer).to32 := by
  unfold Lexer.to32
  simp only
  rw [wrap32_eq _ (by omega) (by omega)]
  push_cast
  rfl

theorem Fits_cursor (pre rest : List Char) (l : Nat)
    (h1 : pre.length + rest.length + 1 < 2147483648) (h2 : l ≤ pre.length + 1) :
    Fits (cursor pre rest l) := ⟨pre, rest, l, rfl, h1, h2⟩

theorem Fits_new (input : List Char) (h : input.length + 1 < 2147483648) :
    Fits (Lexer.new input) :=
  ⟨[], input, 1, rfl, by simpa using h, by simp⟩

theorem Fits_pos (s : Lexer) (h : Fits s) : 0 ≤ s.pos ∧ s.pos + 1 < 2147483648 := by
  obtain ⟨pre, rest, l, rfl, h1, -⟩ := h
  simp only [cursor_pos]
  omega

theorem Fits_line (s : Lexer) (h : Fits s) (hc : s.current_char ≠ NUL) :
    s.line + 1 < 2147483648 := by
  obtain ⟨pre, rest, l, rfl, h1, h2⟩ := h
  cases rest with
  | nil => exact absurd rfl hc
  | cons c r =>
    simp only [cursor_line, List.length_cons] at h1 ⊢
    omega

theorem Fits_advance (s : Lexer) (h : Fits s) (hc : s.current_char ≠ NUL) : Fits (advance s) := by
  obtain ⟨pre, rest, l, rfl, h1, h2⟩ := h
  cases rest with
  | nil => exact absurd rfl hc
  | cons c r =>
    rw [advance_cursor]
    refine Fits_cursor _ _ _ ?_ ?_
    · simp only [List.length_append, List.length_cons, List.length_nil] at h1 ⊢
      omega
    · simp only [List.length_append, List.length_cons, List.length_nil]
      omega

theorem Fits_bump_advance (s : Lexer) (h : Fits s) (hc : s.current_char ≠ NUL) :
    Fits (advance { s with line := s.line + 1 }) := by
  obtain ⟨pre, rest, l, rfl, h1, h2⟩ := h
  cases rest with
  | nil => exact absurd rfl hc
  | cons c r =>
    rw [cursor_line, cursor_with_line, advance_cursor]
    refine Fits_cursor _ _ _ ?_ ?_
    · simp only [List.length_append, List.length_cons, List.length_nil] at h1 ⊢
      omega
    · simp only [List.length_append, List.length_cons, List.length_nil]
      omega

/-- One step of a loop that counts a newline before it advances. -/
theorem newline_step32 (s : Lexer) (h : Fits s) (hc : s.current_char ≠ NUL) :
    advance32 (if s.to32.current_char = '\n' then
        { s.to32 with line := wrap32 (s.to32.line + 1) } else s.to32) =
      (advance (if s.current_char = '\n' then { s with line := s.line + 1 } else s)).to32 ∧
    Fits (advance (if s.current_char = '\n' then { s with line := s.line + 1 } else s)) := by
  have hp := Fits_pos s h
  by_cases hn : s.current_char = '\n'
  · rw [to32_current_char, if_pos hn, if_pos hn, bump32_to32 s (Fits_line s h hc)]
    exact ⟨advance32_to32 _ hp, Fits_bump_advance s h hc⟩
  · rw [to32_current_char, if_neg hn, if_neg hn]
    exact ⟨advance32_to32 _ hp, Fits_advance s h hc⟩

theorem skip_whitespace_loop32_to32 (fuel : Nat) :
    ∀ s : Lexer, Fits s →
      skip_whitespace_loop32 fuel s.to32 = (skip_whitespace_loop fuel s).map Lexer.to32 ∧
      ∀ s1, skip_whitespace_loop fuel s = some s1 → Fits s1 := by
  induction fuel with
  | zero => intro s _; exact ⟨rfl, fun s1 h => by simp [skip_whitespace_loop] at h⟩
  | succ fuel ih =>
    intro s hs
    rw [skip_whitespace_loop32, skip_whitespace_loop]
    by_cases hg : s.current_char ≠ NUL ∧ isspace s.current_char = true
    · obtain ⟨e1, e2⟩ := newline_step32 s hs hg.1
      rw [if_pos (show s.to32.current_char ≠ NUL ∧ isspace s.to32.current_char = true from hg),
        if_pos hg]
      simp only
      rw [e1]
      exact ih _ e2
    · rw [if_neg (show ¬ (s.to32.current_char ≠ NUL ∧ isspace s.to32.current_char = true) from hg),
        if_neg hg]
      refine ⟨rfl, fun s1 h => ?_⟩
      simp only [Option.some.injEq] at h
      exact h ▸ hs

theorem line_comment_loop32_to32 (fuel : Nat) :
    ∀ s : Lexer, Fits s →
      line_comment_loop32 fuel s.to32 = (line_comment_loop fuel s).map Lexer.to32 ∧
      ∀ s1, line_comment_loop fuel s = some s1 → Fits s1 := by
  induction fuel with
  | zero => intro s _; exact ⟨rfl, fun s1 h => by simp [line_comment_loop] at h⟩
  | succ fuel ih =>
    intro s hs
    rw [line_comment_loop32, line_comment_loop]
    have hp := Fits_pos s hs
    by_cases hg : s.current_char ≠ NUL ∧ s.current_char ≠ '\n'
    · rw [if_pos (show s.to32.current_char ≠ NUL ∧ s.to32.current_char ≠ '\n' from hg),
        if_pos hg, advance32_to32 s hp]
      exact ih _ (Fits_advance s hs hg.1)
    · rw [if_neg (show ¬ (s.to32.current_char ≠ NUL ∧ s.to32.current_char ≠ '\n') from hg),
        if_neg hg]
      refine ⟨rfl, fun s1 h => ?_⟩
      simp only [Option.some.injEq] at h
      exact h ▸ hs

theorem block_comment_loop32_to32 (fuel : Nat) :
    ∀ s : Lexer, Fits s →
      block_comment_loop32 fuel s.to32 = (block_comment_loop fuel s).map Lexer.to32 ∧
      ∀ s1, block_comment_loop fuel s = some s1 → Fits s1 := by
  induction fuel with
  | zero => intro s _; exact ⟨rfl, fun s1 h => by simp [block_comment_loop] at h⟩
  | succ fuel ih =>
    intro s hs
    rw [block_comment_loop32, block_comment_loop]
    have hp := Fits_pos s hs
    by_cases h0 : s.current_char ≠ NUL
    · rw [if_pos (show s.to32.current_char ≠ NUL from h0), if_pos h0]
      by_cases hst : s.current_char = '*'
      · rw [if_pos (show s.to32.current_char = '*' from hst), if_pos hst]
        simp only
        rw [advance32_to32 s hp]
        have hf1 := Fits_advance s hs h0
        have hp1 := Fits_pos _ hf1
        by_cases hsl : (advance s).current_char = '/'
        · rw [if_pos (show (advance s).to32.current_char = '/' from hsl), if_pos hsl,
            advance32_to32 (advance s) hp1]
          refine ⟨rfl, fun s1 h => ?_⟩
          simp only [Option.some.injEq] at h
          exact h ▸ Fits_advance _ hf1 (by rw [hsl]; decide)
        · rw [if_neg (show ¬ (advance s).to32.current_char = '/' from hsl), if_neg hsl]
          exact ih _ hf1
      · rw [if_neg (show ¬ s.to32.current_char = '*' from hst), if_neg hst]
        obtain ⟨e1, e2⟩ := newline_step32 s hs h0
        simp only
        rw [e1]
        exact ih _ e2
    · rw [if_neg (show ¬ s.to32.current_char ≠ NUL from h0), if_neg h0]
      refine ⟨rfl, fun s1 h => ?_⟩
      simp only [Option.some.injEq] at h
      exact h ▸ hs

theorem skip_whitespace32_to32 (s : Lexer) (hs : Fits s) :
    skip_whitespace32 s.to32 = (skip_whitespace s).map Lexer.to32 ∧
    ∀ s1, skip_whitespace s = some s1 → Fits s1 :=
  skip_whitespace_loop32_to32 _ s hs

/-- The rewind of `skip_comment` puts a reachable state back where it was. -/
theorem rewind_eq (s : Lexer) (hs : Fits s) (hc : s.current_char = '/') :
    ({ advance s with pos := (advance s).pos - 1, current_char := '/' } : Lexer) = s := by
  obtain ⟨pre, rest, l, rfl, -, -⟩ := hs
  cases rest with
  | nil => exact absurd (show NUL = '/' from hc) (by decide)
  | cons c r =>
    have hc2 : c = '/' := hc
    subst hc2
    rw [advance_cursor]
    simp only [cursor, List.length_append, List.length_singleton, List.append_assoc,
      List.singleton_append, List.headD_cons]
    push_cast
    rw [Int.add_sub_cancel]

theorem skip_comment32_to32 (s : Lexer) (hs : Fits s) :
    skip_comment32 s.to32 = (skip_comment s).map Lexer.to32 ∧
    ∀ s1, skip_comment s = some s1 → Fits s1 := by
  unfold skip_comment32 skip_comment
  have hp := Fits_pos s hs
  by_cases hc : s.current_char = '/'
  · have h0 : s.current_char ≠ NUL := by rw [hc]; decide
    have hf1 := Fits_advance s hs h0
    have hp1 := Fits_pos _ hf1
    rw [if_pos (show s.to32.current_char = '/' from hc), if_pos hc]
    simp only
    rw [advance32_to32 s hp]
    by_cases h1 : (advance s).current_char = '/'
    · rw [if_pos (show (advance s).to32.current_char = '/' from h1), if_pos h1]
      obtain ⟨e1, e2⟩ := line_comment_loop32_to32 ((advance s).input.length + 1) _ hf1
      rw [to32_input, e1]
      cases hl : line_comment_loop ((advance s).input.length + 1) (advance s) with
      | none => exact ⟨rfl, fun s1 h => by simp at h⟩
      | some s2 =>
        have hf2 := e2 s2 hl
        simp only [Option.map_some']
        by_cases hn : s2.current_char = '\n'
        · have h20 : s2.current_char ≠ NUL := by rw [hn]; decide
          rw [if_pos (show s2.to32.current_char = '\n' from hn), if_pos hn,
            bump32_to32 s2 (Fits_line s2 hf2 h20), advance32_to32 { s2 with line := s2.line + 1 } (Fits_pos s2 hf2)]
          refine ⟨rfl, fun s1 h => ?_⟩
          simp only [Option.some.injEq] at h
          exact h ▸ Fits_bump_advance s2 hf2 h20
        · rw [if_neg (show ¬ s2.to32.current_char = '\n' from hn), if_neg hn]
          refine ⟨rfl, fun s1 h => ?_⟩
          simp only [Option.some.injEq] at h
          exact h ▸ hf2
    · rw [if_neg (show ¬ (advance s).to32.current_char = '/' from h1), if_neg h1]
      by_cases h2 : (advance s).current_char = '*'
      · rw [if_pos (show (advance s).to32.current_char = '*' from h2), if_pos h2,
          advance32_to32 (advance s) hp1, to32_input]
        exact block_comment_loop32_to32 _ _ (Fits_advance _ hf1 (by rw [h2]; decide))
      · rw [if_neg (show ¬ (advance s).to32.current_char = '*' from h2), if_neg h2]
        have hpos : (advance s).pos = s.pos + 1 := rfl
        refine ⟨?_, fun s1 h => ?_⟩
        · rw [to32_pos, wrap32_eq _ (by omega) (by omega)]
          rfl
        · simp only [Option.some.injEq] at h
          rw [rewind_eq s hs hc] at h
          exact h ▸ hs
  · rw [if_neg (show ¬ s.to32.current_char = '/' from hc), if_neg hc]
    refine ⟨rfl, fun s1 h => ?_⟩
    simp only [Option.some.injEq] at h
    exact h ▸ hs

theorem number_loop32_to32 (fuel : Nat) :
    ∀ (s : Lexer) (result : List Char) (has_digit : Bool), Fits s →
      number_loop32 fuel s.to32 result has_digit =
        (number_loop fuel s result has_digit).map (fun r => (r.1.to32, r.2)) ∧
      ∀ r, number_loop fuel s result has_digit = some r → Fits r.1 := by
  induction fuel with
  | zero => intro s _ _ _; exact ⟨rfl, fun r h => by simp [number_loop] at h⟩
  | succ fuel ih =>
    intro s result has_digit hs
    rw [number_loop32, number_loop]
    have hp := Fits_pos s hs
    by_cases hg : s.current_char ≠ NUL ∧ isdigit s.current_char = true
    · rw [if_pos (show s.to32.current_char ≠ NUL ∧ isdigit s.to32.current_char = true from hg),
        if_pos hg, advance32_to32 s hp]
      exact ih _ _ _ (Fits_advance s hs hg.1)
    · rw [if_neg (show ¬ (s.to32.current_char ≠ NUL ∧ isdigit s.to32.current_char = true)
        from hg), if_neg hg]
      refine ⟨rfl, fun r h => ?_⟩
      simp only [Option.some.injEq] at h
      exact h ▸ hs

theorem number32_to32 (s : Lexer) (hs : Fits s) :
    number32 s.to32 = (number s).map (fun r => (r.1.to32, r.2.to32)) ∧
    ∀ r, number s = some r → Fits r.2 := by
  unfold number32 number
  by_cases hc : s.current_char = '-'
  · rw [if_pos (show s.to32.current_char = '-' from hc), if_pos hc]
    refine ⟨rfl, fun r h => ?_⟩
    simp only [Option.some.injEq] at h
    exact h ▸ hs
  · rw [if_neg (show ¬ s.to32.current_char = '-' from hc), if_neg hc]
    obtain ⟨e1, e2⟩ := number_loop32_to32 (s.input.length + 1) s [] false hs
    rw [to32_input, e1]
    cases hl : number_loop (s.input.length + 1) s [] false with
    | none => exact ⟨rfl, fun r h => by simp at h⟩
    | some r =>
      refine ⟨rfl, fun r2 h => ?_⟩
      simp only [Option.map_some', Option.some.injEq] at h
      exact h ▸ e2 r hl

theorem identifier_loop32_to32 (fuel : Nat) :
    ∀ (s : Lexer) (result : List Char), Fits s →
      identifier_loop32 fuel s.to32 result =
        (identifier_loop fuel s result).map (fun r => (r.1.to32, r.2)) ∧
      ∀ r, identifier_loop fuel s result = some r → Fits r.1 := by
  induction fuel with
  | zero => intro s _ _; exact ⟨rfl, fun r h => by simp [identifier_loop] at h⟩
  | succ fuel ih =>
    intro s result hs
    rw [identifier_loop32, identifier_loop]
    have hp := Fits_pos s hs
    by_cases hg : s.current_char ≠ NUL ∧ (s.current_char = '_' ∨ isalnum s.current_char = true)
    · rw [if_pos (show s.to32.current_char ≠ NUL ∧
          (s.to32.current_char = '_' ∨ isalnum s.to32.current_char = true) from hg),
        if_pos hg, advance32_to32 s hp]
      exact ih _ _ (Fits_advance s hs hg.1)
    · rw [if_neg (show ¬ (s.to32.current_char ≠ NUL ∧
          (s.to32.current_char = '_' ∨ isalnum s.to32.current_char = true)) from hg),
        if_neg hg]
      refine ⟨rfl, fun r h => ?_⟩
      simp only [Option.some.injEq] at h
      exact h ▸ hs

theorem identifier32_to32 (s : Lexer) (hs : Fits s) :
    identifier32 s.to32 = (identifier s).map (fun r => (r.1.to32, r.2.to32)) ∧
    ∀ r, identifier s = some r → Fits r.2 := by
  unfold identifier32 identifier
  have hp := Fits_pos s hs
  have key : ∀ (a : Lexer) (res : List Char), Fits a →
      ((identifier_loop32 (s.input.length + 1) a.to32 res).map fun r =>
        match keywords.lookup r.2 with
        | some kw => (({ line := r.1.line, type := kw, value := r.2 } : Token32), r.1)
        | none => ({ line := r.1.line, type := TokenType.IDENT, value := r.2 }, r.1)) =
      (((identifier_loop (s.input.length + 1) a res).map fun r =>
        match keywords.lookup r.2 with
        | some kw => (({ line := r.1.line, type := kw, value := r.2 } : Token), r.1)
        | none => ({ line := r.1.line, type := TokenType.IDENT, value := r.2 }, r.1)).map
          (fun r => (r.1.to32, r.2.to32))) ∧
      ∀ r, ((identifier_loop (s.input.length + 1) a res).map fun r =>
        match keywords.lookup r.2 with
        | some kw => (({ line := r.1.line, type := kw, value := r.2 } : Token), r.1)
        | none => ({ line := r.1.line, type := TokenType.IDENT, value := r.2 }, r.1)) = some r →
        Fits r.2 := by
    intro a res ha
    obtain ⟨e1, e2⟩ := identifier_loop32_to32 (s.input.length + 1) a res ha
    rw [e1]
    cases hl : identifier_loop (s.input.length + 1) a res with
    | none => exact ⟨rfl, fun r h => by simp at h⟩
    | some r =>
      have hf := e2 r hl
      simp only [Option.map_some']
      cases hk : keywords.lookup r.2 with
      | none =>
        refine ⟨rfl, fun r2 h => ?_⟩
        simp only [Option.some.injEq] at h
        exact h ▸ hf
      | some kw =>
        refine ⟨rfl, fun r2 h => ?_⟩
        simp only [Option.some.injEq] at h
        exact h ▸ hf
  by_cases hc : s.current_char = '_' ∨ isalpha s.current_char = true
  · have h0 : s.current_char ≠ NUL := isalpha_ne_NUL _ hc
    rw [if_pos (show s.to32.current_char = '_' ∨ isalpha s.to32.current_char = true from hc),
      if_pos hc]
    simp only [to32_input]
    rw [advance32_to32 s hp]
    exact key _ _ (Fits_advance s hs h0)
  · rw [if_neg (show ¬ (s.to32.current_char = '_' ∨ isalpha s.to32.current_char = true) from hc),
      if_neg hc]
    simp only [to32_input]
    exact key _ _ hs

theorem Agree_ite (P : Prop) [Decidable P] (a32 b32 : Lexer32 × Option Token32)
    (a b : Lexer × Option Token) (ha : Agree a32 a) (hb : Agree b32 b) :
    Agree (if P then a32 else b32) (if P then a else b) := by
  by_cases h : P
  · rw [if_pos h, if_pos h]; exact ha
  · rw [if_neg h, if_neg h]; exact hb

theorem single32_agree (s : Lexer) (hs : Fits s) (h0 : s.current_char ≠ NUL) (ty : TokenType)
    (v : List Char) : Agree (single32 s.to32 ty v) (single s ty v) := by
  unfold single32 single Agree
  rw [advance32_to32 s (Fits_pos s hs)]
  exact ⟨rfl, Fits_advance s hs h0⟩

theorem lookahead32_agree (s : Lexer) (hs : Fits s) (h0 : s.current_char ≠ NUL) (second : Char)
    (hsec : second ≠ NUL) (long short : TokenType × List Char) :
    Agree (lookahead32 s.to32 second long short) (lookahead s second long short) := by
  unfold lookahead32 lookahead Agree
  simp only
  rw [advance32_to32 s (Fits_pos s hs)]
  have hf1 := Fits_advance s hs h0
  by_cases h : (advance s).current_char = second
  · rw [if_pos (show (advance s).to32.current_char = second from h), if_pos h,
      advance32_to32 (advance s) (Fits_pos _ hf1)]
    exact ⟨rfl, Fits_advance _ hf1 (by rw [h]; exact hsec)⟩
  · rw [if_neg (show ¬ (advance s).to32.current_char = second from h), if_neg h]
    exact ⟨rfl, hf1⟩

theorem operator32_agree (s : Lexer) (hs : Fits s) (h0 : s.current_char ≠ NUL) :
    Agree (operator32 s.to32) (operator s) := by
  unfold operator32 operator
  simp only [to32_current_char]
  repeat' apply Agree_ite
  all_goals first
    | exact single32_agree s hs h0 _ _
    | exact lookahead32_agree s hs h0 _ (by decide) _ _
    | exact ⟨by rw [advance32_to32 s (Fits_pos s hs)]; rfl, Fits_advance s hs h0⟩

theorem scan_token32_to32 (s : Lexer) (hs : Fits s) (h0 : s.current_char ≠ NUL) :
    scan_token32 s.to32 = (scan_token s).map (fun x => (x.1.to32, x.2.map Token.to32)) ∧
    ∀ x, scan_token s = some x → Fits x.1 := by
  unfold scan_token32 scan_token
  by_cases ha : s.current_char = '_' ∨ isalpha s.current_char = true
  · rw [if_pos (show s.to32.current_char = '_' ∨ isalpha s.to32.current_char = true from ha),
      if_pos ha]
    obtain ⟨e1, e2⟩ := identifier32_to32 s hs
    rw [e1]
    cases hi : identifier s with
    | none => exact ⟨rfl, fun x h => by simp at h⟩
    | some r =>
      refine ⟨rfl, fun x h => ?_⟩
      simp only [Option.map_some', Option.some.injEq] at h
      exact h ▸ e2 r hi
  · rw [if_neg (show ¬ (s.to32.current_char = '_' ∨ isalpha s.to32.current_char = true) from ha),
      if_neg ha]
    by_cases hd : isdigit s.current_char = true
    · rw [if_pos (show isdigit s.to32.current_char = true from hd), if_pos hd]
      obtain ⟨e1, e2⟩ := number32_to32 s hs
      rw [e1]
      cases hi : number s with
      | none => exact ⟨rfl, fun x h => by simp at h⟩
      | some r =>
        refine ⟨rfl, fun x h => ?_⟩
        simp only [Option.map_some', Option.some.injEq] at h
        exact h ▸ e2 r hi
    · rw [if_neg (show ¬ isdigit s.to32.current_char = true from hd), if_neg hd]
      obtain ⟨e1, e2⟩ := operator32_agree s hs h0
      refine ⟨by rw [e1]; rfl, fun x h => ?_⟩
      simp only [Option.some.injEq] at h
      exact h ▸ e2

/-- When `skip_comment` returns at the position it was entered at, it returns
the state it was entered in. -/
theorem skip_comment_same_pos (s s1 : Lexer) (hs : Fits s) (hc : s.current_char = '/')
    (h : skip_comment s = some s1) (hp : s1.pos = s.pos) : s1 = s := by
  obtain ⟨pre, rest, l, rfl, -, -⟩ := hs
  cases rest with
  | nil => exact absurd (show NUL = '/' from hc) (by decide)
  | cons c r =>
    have hc2 : c = '/' := hc
    subst hc2
    by_cases hcm : r.headD NUL = '/' ∨ r.headD NUL = '*'
    · obtain ⟨pre2, e1, -, e3⟩ := skip_comment_cursor_comment pre r l hcm
      rw [e1] at h
      simp only [Option.some.injEq] at h
      subst h
      simp only [cursor_pos] at hp
      omega
    · rw [skip_comment_cursor_rewind pre r l hcm] at h
      simp only [Option.some.injEq] at h
      exact h.symm

theorem tokenize_body32_to32 (s : Lexer) (hs : Fits s) (h0 : s.current_char ≠ NUL) :
    tokenize_body32 s.to32 = (tokenize_body s).map (fun x => (x.1.to32, x.2.map Token.to32)) ∧
    ∀ x, tokenize_body s = some x → Fits x.1 := by
  unfold tokenize_body32 tokenize_body
  by_cases hw : isspace s.current_char = true
  · rw [if_pos (show isspace s.to32.current_char = true from hw), if_pos hw]
    obtain ⟨e1, e2⟩ := skip_whitespace32_to32 s hs
    rw [e1]
    cases hi : skip_whitespace s with
    | none => exact ⟨rfl, fun x h => by simp at h⟩
    | some r =>
      refine ⟨rfl, fun x h => ?_⟩
      simp only [Option.map_some', Option.some.injEq] at h
      exact h ▸ e2 r hi
  · rw [if_neg (show ¬ isspace s.to32.current_char = true from hw), if_neg hw]
    by_cases hc : s.current_char = '/'
    · rw [if_pos (show s.to32.current_char = '/' from hc), if_pos hc]
      obtain ⟨e1, e2⟩ := skip_comment32_to32 s hs
      rw [e1]
      cases hi : skip_comment s with
      | none => exact ⟨rfl, fun x h => by simp at h⟩
      | some s1 =>
        have hf1 := e2 s1 hi
        simp only [Option.map_some', Option.some_bind, to32_pos, to32_line, Nat.cast_inj]
        by_cases hsame : s1.pos = s.pos ∧ s1.line = s.line
        · rw [if_pos hsame, if_pos hsame]
          have e3 := skip_comment_same_pos s s1 hs hc hi hsame.1
          subst e3
          exact scan_token32_to32 s1 hs h0
        · rw [if_neg hsame, if_neg hsame]
          refine ⟨rfl, fun x h => ?_⟩
          simp only [Option.some.injEq] at h
          exact h ▸ hf1
    · rw [if_neg (show ¬ s.to32.current_char = '/' from hc), if_neg hc]
      exact scan_token32_to32 s hs h0

theorem tokenize_loop32_to32 (fuel : Nat) :
    ∀ (s : Lexer) (acc : List Token), Fits s →
      tokenize_loop32 fuel s.to32 (acc.map Token.to32) =
        (tokenize_loop fuel s acc).map (fun r => (r.1.map Token.to32, r.2.to32)) ∧
      ∀ r, tokenize_loop fuel s acc = some r → Fits r.2 := by
  induction fuel with
  | zero => intro s acc _; exact ⟨rfl, fun r h => by simp [tokenize_loop] at h⟩
  | succ fuel ih =>
    intro s acc hs
    rw [tokenize_loop32, tokenize_loop]
    by_cases h0 : s.current_char ≠ NUL
    · rw [if_pos (show s.to32.current_char ≠ NUL from h0), if_pos h0]
      obtain ⟨e1, e2⟩ := tokenize_body32_to32 s hs h0
      rw [e1]
      cases hb : tokenize_body s with
      | none => exact ⟨rfl, fun r h => by simp at h⟩
      | some x =>
        obtain ⟨s1, t⟩ := x
        have hf1 : Fits s1 := e2 _ hb
        cases t with
        | none => exact ih s1 acc hf1
        | some t =>
          have h := ih s1 (acc ++ [t]) hf1
          rw [List.map_append] at h
          exact h
    · rw [if_neg (show ¬ s.to32.current_char ≠ NUL from h0), if_neg h0]
      refine ⟨rfl, fun r h => ?_⟩
      simp only [Option.some.injEq] at h
      exact h ▸ hs

theorem loop_head32_to32 (k : Nat) :
    ∀ s : Lexer, Fits s →
      loop_head32 k s.to32 = (loop_head k s).map Lexer.to32 ∧
      ∀ s1, loop_head k s = some s1 → Fits s1 := by
  induction k with
  | zero =>
    intro s hs
    refine ⟨rfl, fun s1 h => ?_⟩
    simp only [loop_head, Option.some.injEq] at h
    exact h ▸ hs
  | succ k ih =>
    intro s hs
    rw [loop_head32, loop_head]
    by_cases h0 : s.current_char ≠ NUL
    · rw [if_pos (show s.to32.current_char ≠ NUL from h0), if_pos h0]
      obtain ⟨e1, e2⟩ := tokenize_body32_to32 s hs h0
      rw [e1]
      cases hb : tokenize_body s with
      | none => exact ⟨rfl, fun r h => by simp at h⟩
      | some x => exact ih x.1 (e2 _ hb)
    · rw [if_neg (show ¬ s.to32.current_char ≠ NUL from h0), if_neg h0]
      exact ⟨rfl, fun r h => by simp at h⟩

theorem Lexer32_tokenize_to32 (s : Lexer) (hs : Fits s) :
    s.to32.tokenize = s.tokenize.map (fun r => (r.1.map Token.to32, r.2.to32)) :=
  (tokenize_loop32_to32 (s.input.length + 1) s [] hs).1

/-- On an input of at most `2^31 - 2` characters the 32-bit program returns the
tokens that the program on unbounded integers returns. -/
theorem tokenize32_eq_tokenize (input : List Char) (h : input.length + 1 < 2147483648) :
    tokenize32 input = (tokenize input).map (List.map Token.to32) := by
  unfold tokenize32 tokenize
  rw [new32_eq, Lexer32_tokenize_to32 _ (Fits_new input h)]
  cases (Lexer.new input).tokenize <;> rfl

/-! ### Agreement of the lists of states passed through -/

theorem skip_whitespace_trace32_to32 (fuel : Nat) :
    ∀ s : Lexer, Fits s →
      skip_whitespace_trace32 fuel s.to32 = (skip_whitespace_trace fuel s).map Lexer.to32 := by
  induction fuel with
  | zero => intro s _; rfl
  | succ fuel ih =>
    intro s hs
    rw [skip_whitespace_trace32, skip_whitespace_trace]
    by_cases hg : s.current_char ≠ NUL ∧ isspace s.current_char = true
    · obtain ⟨e1, e2⟩ := newline_step32 s hs hg.1
      rw [if_pos (show s.to32.current_char ≠ NUL ∧ isspace s.to32.current_char = true from hg),
        if_pos hg]
      simp only
      rw [e1, ih _ e2]
      rfl
    · rw [if_neg (show ¬ (s.to32.current_char ≠ NUL ∧ isspace s.to32.current_char = true) from hg),
        if_neg hg]
      rfl

theorem line_comment_trace32_to32 (fuel : Nat) :
    ∀ s : Lexer, Fits s →
      line_comment_trace32 fuel s.to32 = (line_comment_trace fuel s).map Lexer.to32 := by
  induction fuel with
  | zero => intro s _; rfl
  | succ fuel ih =>
    intro s hs
    rw [line_comment_trace32, line_comment_trace]
    by_cases hg : s.current_char ≠ NUL ∧ s.current_char ≠ '\n'
    · rw [if_pos (show s.to32.current_char ≠ NUL ∧ s.to32.current_char ≠ '\n' from hg),
        if_pos hg, advance32_to32 s (Fits_pos s hs), ih _ (Fits_advance s hs hg.1)]
      rfl
    · rw [if_neg (show ¬ (s.to32.current_char ≠ NUL ∧ s.to32.current_char ≠ '\n') from hg),
        if_neg hg]
      rfl

theorem block_comment_trace32_to32 (fuel : Nat) :
    ∀ s : Lexer, Fits s →
      block_comment_trace32 fuel s.to32 = (block_comment_trace fuel s).map Lexer.to32 := by
  induction fuel with
  | zero => intro s _; rfl
  | succ fuel ih =>
    intro s hs
    rw [block_comment_trace32, block_comment_trace]
    have hp := Fits_pos s hs
    by_cases h0 : s.current_char ≠ NUL
    · rw [if_pos (show s.to32.current_char ≠ NUL from h0), if_pos h0]
      by_cases hst : s.current_char = '*'
      · rw [if_pos (show s.to32.current_char = '*' from hst), if_pos hst]
        simp only
        rw [advance32_to32 s hp]
        have hf1 := Fits_advance s hs h0
        by_cases hsl : (advance s).current_char = '/'
        · rw [if_pos (show (advance s).to32.current_char = '/' from hsl), if_pos hsl,
            advance32_to32 (advance s) (Fits_pos _ hf1)]
          rfl
        · rw [if_neg (show ¬ (advance s).to32.current_char = '/' from hsl), if_neg hsl,
            ih _ hf1]
          rfl
      · rw [if_neg (show ¬ s.to32.current_char = '*' from hst), if_neg hst]
        obtain ⟨e1, e2⟩ := newline_step32 s hs h0
        simp only
        rw [e1, ih _ e2]
        rfl
    · rw [if_neg (show ¬ s.to32.current_char ≠ NUL from h0), if_neg h0]
      rfl

theorem skip_comment_trace32_to32 (s : Lexer) (hs : Fits s) :
    skip_comment_trace32 s.to32 = (skip_comment_trace s).map Lexer.to32 := by
  unfold skip_comment_trace32 skip_comment_trace
  have hp := Fits_pos s hs
  by_cases hc : s.current_char = '/'
  · have h0 : s.current_char ≠ NUL := by rw [hc]; decide
    have hf1 := Fits_advance s hs h0
    have hp1 := Fits_pos _ hf1
    rw [if_pos (show s.to32.current_char = '/' from hc), if_pos hc]
    simp only
    rw [advance32_to32 s hp, List.map_cons]
    congr 1
    by_cases h1 : (advance s).current_char = '/'
    · rw [if_pos (show (advance s).to32.current_char = '/' from h1), if_pos h1]
      obtain ⟨e1, e2⟩ := line_comment_loop32_to32 ((advance s).input.length + 1) _ hf1
      rw [to32_input, e1, line_comment_trace32_to32 _ _ hf1, List.map_append]
      congr 1
      cases hl : line_comment_loop ((advance s).input.length + 1) (advance s) with
      | none => rfl
      | some s2 =>
        have hf2 := e2 s2 hl
        simp only [Option.map_some']
        by_cases hn : s2.current_char = '\n'
        · have h20 : s2.current_char ≠ NUL := by rw [hn]; decide
          rw [if_pos (show s2.to32.current_char = '\n' from hn), if_pos hn,
            bump32_to32 s2 (Fits_line s2 hf2 h20),
            advance32_to32 { s2 with line := s2.line + 1 } (Fits_pos s2 hf2)]
          rfl
        · rw [if_neg (show ¬ s2.to32.current_char = '\n' from hn), if_neg hn]
          rfl
    · rw [if_neg (show ¬ (advance s).to32.current_char = '/' from h1), if_neg h1]
      by_cases h2 : (advance s).current_char = '*'
      · rw [if_pos (show (advance s).to32.current_char = '*' from h2), if_pos h2,
          advance32_to32 (advance s) hp1, to32_input,
          block_comment_trace32_to32 _ _ (Fits_advance _ hf1 (by rw [h2]; decide))]
        rfl
      · rw [if_neg (show ¬ (advance s).to32.current_char = '*' from h2), if_neg h2]
        have hpos : (advance s).pos = s.pos + 1 := rfl
        rw [to32_pos, wrap32_eq _ (by omega) (by omega)]
        rfl
  · rw [if_neg (show ¬ s.to32.current_char = '/' from hc), if_neg hc]
    rfl

theorem number_loop_trace32_to32 (fuel : Nat) :
    ∀ s : Lexer, Fits s →
      number_loop_trace32 fuel s.to32 = (number_loop_trace fuel s).map Lexer.to32 := by
  induction fuel with
  | zero => intro s _; rfl
  | succ fuel ih =>
    intro s hs
    rw [number_loop_trace32, number_loop_trace]
    by_cases hg : s.current_char ≠ NUL ∧ isdigit s.current_char = true
    · rw [if_pos (show s.to32.current_char ≠ NUL ∧ isdigit s.to32.current_char = true from hg),
        if_pos hg, advance32_to32 s (Fits_pos s hs), ih _ (Fits_advance s hs hg.1)]
      rfl
    · rw [if_neg (show ¬ (s.to32.current_char ≠ NUL ∧ isdigit s.to32.current_char = true)
        from hg), if_neg hg]
      rfl

theorem number_trace32_to32 (s : Lexer) (hs : Fits s) :
    number_trace32 s.to32 = (number_trace s).map Lexer.to32 := by
  unfold number_trace32 number_trace
  by_cases hc : s.current_char = '-'
  · rw [if_pos (show s.to32.current_char = '-' from hc), if_pos hc]
    rfl
  · rw [if_neg (show ¬ s.to32.current_char = '-' from hc), if_neg hc, to32_input]
    exact number_loop_trace32_to32 _ s hs

theorem identifier_loop_trace32_to32 (fuel : Nat) :
    ∀ s : Lexer, Fits s →
      identifier_loop_trace32 fuel s.to32 = (identifier_loop_trace fuel s).map Lexer.to32 := by
  induction fuel with
  | zero => intro s _; rfl
  | succ fuel ih =>
    intro s hs
    rw [identifier_loop_trace32, identifier_loop_trace]
    by_cases hg : s.current_char ≠ NUL ∧ (s.current_char = '_' ∨ isalnum s.current_char = true)
    · rw [if_pos (show s.to32.current_char ≠ NUL ∧
          (s.to32.current_char = '_' ∨ isalnum s.to32.current_char = true) from hg),
        if_pos hg, advance32_to32 s (Fits_pos s hs), ih _ (Fits_advance s hs hg.1)]
      rfl
    · rw [if_neg (show ¬ (s.to32.current_char ≠ NUL ∧
          (s.to32.current_char = '_' ∨ isalnum s.to32.current_char = true)) from hg),
        if_neg hg]
      rfl

theorem identifier_trace32_to32 (s : Lexer) (hs : Fits s) :
    identifier_trace32 s.to32 = (identifier_trace s).map Lexer.to32 := by
  unfold identifier_trace32 identifier_trace
  by_cases hc : s.current_char = '_' ∨ isalpha s.current_char = true
  · have h0 : s.current_char ≠ NUL := isalpha_ne_NUL _ hc
    rw [if_pos (show s.to32.current_char = '_' ∨ isalpha s.to32.current_char = true from hc),
      if_pos hc, advance32_to32 s (Fits_pos s hs), to32_input,
      identifier_loop_trace32_to32 _ _ (Fits_advance s hs h0)]
    rfl
  · rw [if_neg (show ¬ (s.to32.current_char = '_' ∨ isalpha s.to32.current_char = true) from hc),
      if_neg hc, to32_input]
    exact identifier_loop_trace32_to32 _ s hs

theorem lookahead_trace32_to32 (s : Lexer) (hs : Fits s) (h0 : s.current_char ≠ NUL)
    (second : Char) :
    lookahead_trace32 s.to32 second = (lookahead_trace s second).map Lexer.to32 := by
  unfold lookahead_trace32 lookahead_trace
  simp only
  rw [advance32_to32 s (Fits_pos s hs)]
  have hf1 := Fits_advance s hs h0
  by_cases h : (advance s).current_char = second
  · rw [if_pos (show (advance s).to32.current_char = second from h), if_pos h,
      advance32_to32 (advance s) (Fits_pos _ hf1)]
    rfl
  · rw [if_neg (show ¬ (advance s).to32.current_char = second from h), if_neg h]
    rfl

theorem operator_trace32_to32 (s : Lexer) (hs : Fits s) (h0 : s.current_char ≠ NUL) :
    operator_trace32 s.to32 = (operator_trace s).map Lexer.to32 := by
  unfold operator_trace32 operator_trace
  simp only [to32_current_char]
  by_cases h1 : s.current_char = '=' ∨ s.current_char = '!' ∨ s.current_char = '<' ∨
      s.current_char = '>'
  · rw [if_pos h1, if_pos h1]
    exact lookahead_trace32_to32 s hs h0 _
  · rw [if_neg h1, if_neg h1]
    by_cases h2 : s.current_char = '&'
    · rw [if_pos h2, if_pos h2]
      exact lookahead_trace32_to32 s hs h0 _
    · rw [if_neg h2, if_neg h2]
      by_cases h3 : s.current_char = '|'
      · rw [if_pos h3, if_pos h3]
        exact lookahead_trace32_to32 s hs h0 _
      · rw [if_neg h3, if_neg h3, advance32_to32 s (Fits_pos s hs)]
        rfl

theorem scan_token_trace32_to32 (s : Lexer) (hs : Fits s) (h0 : s.current_char ≠ NUL) :
    scan_token_trace32 s.to32 = (scan_token_trace s).map Lexer.to32 := by
  unfold scan_token_trace32 scan_token_trace
  simp only [to32_current_char]
  by_cases ha : s.current_char = '_' ∨ isalpha s.current_char = true
  · rw [if_pos ha, if_pos ha]
    exact identifier_trace32_to32 s hs
  · rw [if_neg ha, if_neg ha]
    by_cases hd : isdigit s.current_char = true
    · rw [if_pos hd, if_pos hd]
      exact number_trace32_to32 s hs
    · rw [if_neg hd, if_neg hd]
      exact operator_trace32_to32 s hs h0

theorem tokenize_body_trace32_to32 (s : Lexer) (hs : Fits s) (h0 : s.current_char ≠ NUL) :
    tokenize_body_trace32 s.to32 = (tokenize_body_trace s).map Lexer.to32 := by
  unfold tokenize_body_trace32 tokenize_body_trace
  by_cases hw : isspace s.current_char = true
  · rw [if_pos (show isspace s.to32.current_char = true from hw), if_pos hw, to32_input]
    exact skip_whitespace_trace32_to32 _ s hs
  · rw [if_neg (show ¬ isspace s.to32.current_char = true from hw), if_neg hw]
    by_cases hc : s.current_char = '/'
    · rw [if_pos (show s.to32.current_char = '/' from hc), if_pos hc,
        skip_comment_trace32_to32 s hs, List.map_append]
      congr 1
      obtain ⟨e1, e2⟩ := skip_comment32_to32 s hs
      rw [e1]
      cases hi : skip_comment s with
      | none => rfl
      | some s1 =>
        simp only [Option.map_some', to32_pos, to32_line, Nat.cast_inj]
        by_cases hsame : s1.pos = s.pos ∧ s1.line = s.line
        · rw [if_pos hsame, if_pos hsame]
          have e3 := skip_comment_same_pos s s1 hs hc hi hsame.1
          subst e3
          exact scan_token_trace32_to32 s1 hs h0
        · rw [if_neg hsame, if_neg hsame]
          rfl
    · rw [if_neg (show ¬ s.to32.current_char = '/' from hc), if_neg hc]
      exact scan_token_trace32_to32 s hs h0

theorem tokenize_trace32_to32 (fuel : Nat) :
    ∀ s : Lexer, Fits s →
      tokenize_trace32 fuel s.to32 = (tokenize_trace fuel s).map Lexer.to32 := by
  induction fuel with
  | zero => intro s _; rfl
  | succ fuel ih =>
    intro s hs
    rw [tokenize_trace32, tokenize_trace, List.map_cons]
    congr 1
    by_cases h0 : s.current_char ≠ NUL
    · rw [if_pos (show s.to32.current_char ≠ NUL from h0), if_pos h0,
        tokenize_body_trace32_to32 s hs h0, List.map_append]
      congr 1
      obtain ⟨e1, e2⟩ := tokenize_body32_to32 s hs h0
      rw [e1]
      cases hb : tokenize_body s with
      | none => rfl
      | some x => exact ih x.1 (e2 _ hb)
    · rw [if_neg (show ¬ s.to32.current_char ≠ NUL from h0), if_neg h0]
      rfl

/-! ## Inputs of `2^31` characters and more: the overflow of `pos++`

A run of blanks that reaches index `2^31 - 1` makes `pos++` wrap around to
`-2^31`; `advance` then stores the sentinel, and both `skip_whitespace` and the
main loop stop with the rest of the buffer unread. -/

theorem skip_whitespace_loop32_step (k : Nat) (pre : List Char) (c : Char) (r : List Char)
    (l : Nat) (hc : c ≠ NUL ∧ isspace c = true) (hp : pre.length + 1 < 2147483648)
    (hl : l + 1 < 2147483648) :
    skip_whitespace_loop32 (k + 1) (cursor pre (c :: r) l).to32 =
      skip_whitespace_loop32 k
        (cursor (pre ++ [c]) r (l + (if c = '\n' then 1 else 0))).to32 := by
  have hpos : 0 ≤ (cursor pre (c :: r) l).pos ∧ (cursor pre (c :: r) l).pos + 1 < 2147483648 := by
    simp only [cursor_pos]
    omega
  rw [skip_whitespace_loop32,
    if_pos (show (cursor pre (c :: r) l).to32.current_char ≠ NUL ∧
      isspace (cursor pre (c :: r) l).to32.current_char = true from hc)]
  simp only
  by_cases hn : c = '\n'
  · rw [if_pos (show (cursor pre (c :: r) l).to32.current_char = '\n' from hn), if_pos hn,
      bump32_to32 (cursor pre (c :: r) l) hl,
      advance32_to32 { cursor pre (c :: r) l with line := (cursor pre (c :: r) l).line + 1 } hpos,
      cursor_line, cursor_with_line, advance_cursor]
  · rw [if_neg (show ¬ (cursor pre (c :: r) l).to32.current_char = '\n' from hn), if_neg hn,
      advance32_to32 _ hpos, advance_cursor]
    rfl

theorem skip_whitespace_loop32_blanks (m : Nat) :
    ∀ (fuel : Nat) (pre rest : List Char) (l : Nat), pre.length + m < 2147483648 →
      l + 1 < 2147483648 →
      skip_whitespace_loop32 (fuel + m) (cursor pre (List.replicate m ' ' ++ rest) l).to32 =
        skip_whitespace_loop32 fuel (cursor (pre ++ List.replicate m ' ') rest l).to32 := by
  induction m with
  | zero => intro fuel pre rest l _ _; simp
  | succ m ih =>
    intro fuel pre rest l hp hl
    rw [List.replicate_succ, List.cons_append, ← Nat.add_assoc,
      skip_whitespace_loop32_step _ pre ' ' _ l (by decide) (by omega) hl,
      if_neg (by decide), Nat.add_zero,
      ih fuel (pre ++ [' ']) rest l (by simp only [List.length_append, List.length_singleton]; omega)
        hl,
      List.append_assoc, List.singleton_append]

theorem advance32_overflow (pre : List Char) (c : Char) (rest : List Char) (l : Nat)
    (h : pre.length + 1 = 2147483648) :
    advance32 (cursor pre (c :: rest) l).to32 =
      { input := pre ++ c :: rest, pos := -2147483648, line := (l : Int),
        current_char := NUL } := by
  have hw : wrap32 ((pre.length : Int) + 1) = -2147483648 := by
    unfold wrap32
    omega
  unfold advance32
  simp only [to32_pos, cursor_pos, to32_input, cursor_input, to32_line, cursor_line]
  rw [hw, if_neg (by omega)]

/-- A run of blanks that ends at index `2^31 - 1`: `skip_whitespace` returns with
`pos = -2^31` and the sentinel as current character. -/
theorem skip_whitespace_loop32_overflow (m fuel : Nat) (pre rest : List Char) (l : Nat)
    (h : pre.length + m + 1 = 2147483648) (hl : l + 1 < 2147483648) :
    skip_whitespace_loop32 (fuel + 2 + m)
        (cursor pre (List.replicate m ' ' ++ ' ' :: rest) l).to32 =
      some { input := pre ++ (List.replicate m ' ' ++ ' ' :: rest), pos := -2147483648,
             line := (l : Int), current_char := NUL } := by
  rw [skip_whitespace_loop32_blanks m (fuel + 2) pre _ l (by omega) hl, skip_whitespace_loop32]
  simp only [to32_current_char, cursor_cur_cons]
  rw [if_pos (by decide), if_neg (by decide),
    advance32_overflow _ ' ' rest l
      (by simp only [List.length_append, List.length_replicate]; omega),
    skip_whitespace_loop32, if_neg (by simp), List.append_assoc]

theorem replicate_blanks_succ (m : Nat) (rest : List Char) :
    List.replicate (m + 1) ' ' ++ rest = List.replicate m ' ' ++ ' ' :: rest := by
  rw [List.replicate_succ', List.append_assoc, List.singleton_append]

/-- The call of `skip_whitespace` on `2^31` blanks followed by `rest`. -/
theorem skip_whitespace32_overflow (m : Nat) (rest : List Char) (h : m + 1 = 2147483648) :
    skip_whitespace32 (Lexer32.new (List.replicate (m + 1) ' ' ++ rest)) =
      some { input := List.replicate (m + 1) ' ' ++ rest, pos := -2147483648, line := 1,
             current_char := NUL } := by
  rw [replicate_blanks_succ]
  unfold skip_whitespace32
  have hlen : (Lexer32.new (List.replicate m ' ' ++ ' ' :: rest)).input.length + 1 =
      rest.length + 2 + m := by
    simp only [Lexer32.new, List.length_append, List.length_replicate, List.length_cons]
    omega
  rw [hlen, new32_eq, new_eq_cursor,
    skip_whitespace_loop32_overflow m rest.length [] rest 1 (by simpa using h) (by decide)]
  rfl

/-- The first iteration of the main loop on `2^31` blanks followed by `rest`. -/
theorem tokenize_body32_overflow (m : Nat) (rest : List Char) (h : m + 1 = 2147483648) :
    tokenize_body32 (Lexer32.new (List.replicate (m + 1) ' ' ++ rest)) =
      some ({ input := List.replicate (m + 1) ' ' ++ rest, pos := -2147483648, line := 1,
              current_char := NUL }, none) := by
  have hcur : (Lexer32.new (List.replicate (m + 1) ' ' ++ rest)).current_char = ' ' := rfl
  unfold tokenize_body32
  rw [hcur, if_pos (by decide), skip_whitespace32_overflow m rest h]
  rfl

/-- The call of `tokenize` on `2^31` blanks followed by `rest` returns no token,
with `pos = -2^31`. -/
theorem tokenize32_overflow (m : Nat) (rest : List Char) (h : m + 1 = 2147483648) :
    (Lexer32.new (List.replicate (m + 1) ' ' ++ rest)).tokenize =
      some ([], { input := List.replicate (m + 1) ' ' ++ rest, pos := -2147483648, line := 1,
                  current_char := NUL }) := by
  have hcur : (Lexer32.new (List.replicate (m + 1) ' ' ++ rest)).current_char = ' ' := rfl
  have hlen : (Lexer32.new (List.replicate (m + 1) ' ' ++ rest)).input.length + 1 =
      (m + rest.length) + 1 + 1 := by
    simp only [Lexer32.new, List.length_append, List.length_replicate]
    omega
  unfold Lexer32.tokenize
  rw [hlen, tokenize_loop32, hcur, if_pos (by decide), tokenize_body32_overflow m rest h]
  simp only
  rw [tokenize_loop32, if_neg (by simp)]

/-- The call of `tokenize` on a newline and `2^31` blanks returns on line 2 with
`pos = -2^31`. -/
theorem tokenize32_newline_overflow (m : Nat) (h : m + 2 = 2147483648) :
    (Lexer32.new ('\n' :: List.replicate (m + 2) ' ')).tokenize =
      some ([], { input := '\n' :: List.replicate (m + 2) ' ', pos := -2147483648, line := 2,
                  current_char := NUL }) := by
  have hrep : List.replicate (m + 2) ' ' = List.replicate m ' ' ++ ' ' :: [' '] := by
    rw [List.replicate_succ', List.replicate_succ', List.append_assoc]
    rfl
  have hcur : (Lexer32.new ('\n' :: List.replicate (m + 2) ' ')).current_char = '\n' := rfl
  have hbody : tokenize_body32 (Lexer32.new ('\n' :: List.replicate (m + 2) ' ')) =
      some ({ input := '\n' :: List.replicate (m + 2) ' ', pos := -2147483648, line := 2,
              current_char := NUL }, none) := by
    unfold tokenize_body32
    rw [hcur, if_pos (by decide)]
    unfold skip_whitespace32
    have hlen : (Lexer32.new ('\n' :: List.replicate (m + 2) ' ')).input.length + 1 =
        (1 + 2 + m) + 1 := by
      simp only [Lexer32.new, List.length_cons, List.length_replicate]
      omega
    rw [hlen, new32_eq, new_eq_cursor,
      skip_whitespace_loop32_step _ [] '\n' _ 1 (by decide) (by decide) (by decide),
      if_pos rfl, hrep,
      skip_whitespace_loop32_overflow m 1 ([] ++ ['\n']) [' '] (1 + 1)
        (by simp only [List.nil_append, List.length_singleton]; omega) (by decide)]
    rfl
  have hlen : (Lexer32.new ('\n' :: List.replicate (m + 2) ' ')).input.length + 1 =
      (m + 1) + 1 + 1 + 1 := by
    simp only [Lexer32.new, List.length_cons, List.length_replicate]
  unfold Lexer32.tokenize
  rw [hlen, tokenize_loop32, hcur, if_pos (by decide), hbody]
  simp only
  rw [tokenize_loop32, if_neg (by simp)]

/-! ## The properties that depend on the range of `int`

Termination with its bounds, the lexeme texts, the line-counter invariant, the
end of the scan and cursor safety are stated for the 32-bit program, on inputs
of at most `2^31 - 2` characters, where `pos ≤ length(input)` and
`line ≤ length(input) + 1` stay within the range of `int`.  Each of them is
refuted by an input of `2^31 + 1` characters. -/

theorem loop_head32_new (input : List Char) (hlen : input.length + 1 < 2147483648) (k : Nat)
    (s : Lexer32) (h : loop_head32 k (Lexer32.new input) = some s) :
    ∃ s0, loop_head k (Lexer.new input) = some s0 ∧ s = s0.to32 ∧ Fits s0 := by
  obtain ⟨e1, e2⟩ := loop_head32_to32 k (Lexer.new input) (Fits_new input hlen)
  rw [new32_eq, e1] at h
  cases hl : loop_head k (Lexer.new input) with
  | none => rw [hl] at h; simp at h
  | some s0 =>
    rw [hl] at h
    simp only [Option.map_some', Option.some.injEq] at h
    exact ⟨s0, rfl, h.symm, e2 s0 hl⟩

theorem tokenize32_new (input : List Char) (hlen : input.length + 1 < 2147483648) :
    (Lexer32.new input).tokenize =
      (Lexer.new input).tokenize.map (fun r => (r.1.map Token.to32, r.2.to32)) := by
  rw [new32_eq]
  exact Lexer32_tokenize_to32 _ (Fits_new input hlen)

theorem consistent32_to32 (s : Lexer) (h : Consistent s) : Consistent32 s.to32 := h

theorem map_value_to32 (ts : List Token) :
    (ts.map Token.to32).map Token32.value = ts.map Token.value := by
  rw [List.map_map]
  rfl

/-- C1, amended. On every input of at most `2^31 - 2` characters
`Lexer::tokenize` returns: the main loop leaves through its exit condition
within `length(input) + 1` evaluations of that condition, the token list has
at most `length(input)` elements, the loop completes at most `length(input)`
iterations, and every iteration entered from a state reachable from the
constructor returns with a strictly larger cursor position that is still
within the buffer. -/
theorem C1_tokenize_terminates (input : List Char) (hlen : input.length + 1 < 2147483648) :
    (∃ ts fin, tokenize_loop32 (input.length + 1) (Lexer32.new input) [] = some (ts, fin) ∧
      tokenize32 input = some ts ∧ ts.length ≤ input.length) ∧
    (∀ k s, loop_head32 k (Lexer32.new input) = some s → k ≤ input.length) ∧
    (∀ k s, loop_head32 k (Lexer32.new input) = some s → s.current_char ≠ NUL →
      ∃ x, tokenize_body32 s = some x ∧ s.pos < x.1.pos ∧ x.1.pos ≤ (input.length : Int)) := by
  obtain ⟨⟨ts, fin, h1, h2, h3⟩, h4, h5⟩ := tokenize_terminates_unbounded input
  refine ⟨⟨ts.map Token.to32, fin.to32, ?_, ?_, by rw [List.length_map]; exact h3⟩, ?_, ?_⟩
  · have e := (tokenize_loop32_to32 (input.length + 1) (Lexer.new input) []
      (Fits_new input hlen)).1
    rw [h1] at e
    exact e
  · rw [tokenize32_eq_tokenize input hlen, h2]
    rfl
  · intro k s h
    obtain ⟨s0, e1, -, -⟩ := loop_head32_new input hlen k s h
    exact h4 k s0 e1
  · intro k s h hc
    obtain ⟨s0, e1, e2, e3⟩ := loop_head32_new input hlen k s h
    subst e2
    obtain ⟨x, hx, hp1, hp2⟩ := h5 k s0 e1 hc
    refine ⟨(x.1.to32, x.2.map Token.to32), ?_, hp1, hp2⟩
    rw [(tokenize_body32_to32 s0 e3 hc).1, hx]
    rfl

/-- C1, amended, on the input `/*x`, an unterminated block comment: the call
returns no token, and the single iteration moves the cursor from 0 to 3. -/
theorem C1_tokenize_terminates_witness :
    ("/*x".toList).length + 1 < 2147483648 ∧
    tokenize32 "/*x".toList = some [] ∧
    ∃ x, tokenize_body32 (Lexer32.new "/*x".toList) = some x ∧
      (Lexer32.new "/*x".toList).pos < x.1.pos ∧ x.1.pos ≤ (("/*x".toList).length : Int) :=
  ⟨by decide, by decide,
    (C1_tokenize_terminates "/*x".toList (by decide)).2.2 0 (Lexer32.new "/*x".toList) rfl
      (by decide)⟩

/-- C1 as stated fails on the input of `2^31` blanks followed by `b`: the first
iteration of the main loop is entered at position 0 on a blank and ends at
position `-2^31`, so it has not increased the cursor position. -/
theorem C1_counterexample :
    loop_head32 0 (Lexer32.new (List.replicate 2147483648 ' ' ++ ['b'])) =
      some (Lexer32.new (List.replicate 2147483648 ' ' ++ ['b'])) ∧
    (Lexer32.new (List.replicate 2147483648 ' ' ++ ['b'])).current_char = ' ' ∧
    (Lexer32.new (List.replicate 2147483648 ' ' ++ ['b'])).pos = 0 ∧
    tokenize_body32 (Lexer32.new (List.replicate 2147483648 ' ' ++ ['b'])) =
      some ({ input := List.replicate 2147483648 ' ' ++ ['b'], pos := -2147483648, line := 1,
              current_char := NUL }, none) ∧
    ¬ ((0 : Int) < -2147483648) :=
  ⟨rfl, (rfl : (Lexer32.new (List.replicate (2147483647 + 1) ' ' ++ ['b'])).current_char = ' '),
    rfl, tokenize_body32_overflow 2147483647 ['b'] rfl, by decide⟩

/-- C11, amended. Token texts are the exact lexemes in source order: on an
input of at most `2^31 - 2` characters with no sentinel character and no `//`
or `/*`, the texts of the tokens returned, concatenated in order, are the
input with every character removed that is not a letter, digit, underscore or
operator or punctuation character; and no token text is empty. -/
theorem C11_texts_are_lexemes (input : List Char) (hlen : input.length + 1 < 2147483648)
    (h0 : ∀ c ∈ input, c ≠ NUL) (h1 : ¬ List.IsInfix ['/', '/'] input)
    (h2 : ¬ List.IsInfix ['/', '*'] input) :
    ∃ ts, tokenize32 input = some ts ∧
      (ts.map Token32.value).flatten = input.filter lexemeChar ∧
      ∀ t ∈ ts, t.value ≠ [] := by
  obtain ⟨ts, e1, e2, e3⟩ := texts_are_lexemes_unbounded input h0 h1 h2
  refine ⟨ts.map Token.to32, ?_, ?_, ?_⟩
  · rw [tokenize32_eq_tokenize input hlen, e1]
    rfl
  · rw [map_value_to32]
    exact e2
  · intro t ht
    obtain ⟨t0, ht0, rfl⟩ := List.mem_map.1 ht
    exact e3 t0 ht0

/-- C11, amended, on the input `int main(){return 0;}`: nine tokens whose texts
concatenate to `intmain(){return0;}`. -/
theorem C11_texts_are_lexemes_witness :
    (("int main()\x7breturn 0;\x7d".toList).length + 1 < 2147483648 ∧
      (∀ c ∈ "int main()\x7breturn 0;\x7d".toList, c ≠ NUL) ∧
      ¬ List.IsInfix ['/', '/'] "int main()\x7breturn 0;\x7d".toList ∧
      ¬ List.IsInfix ['/', '*'] "int main()\x7breturn 0;\x7d".toList) ∧
    tokenize32 "int main()\x7breturn 0;\x7d".toList =
      some [{ line := 1, type := TokenType.INT, value := "int".toList },
            { line := 1, type := TokenType.IDENT, value := "main".toList },
            { line := 1, type := TokenType.LPAREN, value := "(".toList },
            { line := 1, type := TokenType.RPAREN, value := ")".toList },
            { line := 1, type := TokenType.LBRACE, value := ['\x7b'] },
            { line := 1, type := TokenType.RETURN, value := "return".toList },
            { line := 1, type := TokenType.INTCONST, value := "0".toList },
            { line := 1, type := TokenType.SEMICOLON, value := ";".toList },
            { line := 1, type := TokenType.RBRACE, value := ['\x7d'] }] ∧
    ∃ ts, tokenize32 "int main()\x7breturn 0;\x7d".toList = some ts ∧
      (ts.map Token32.value).flatten = "intmain()\x7breturn0;\x7d".toList := by
  refine ⟨⟨by decide, by decide, by decide, by decide⟩, by decide, ?_⟩
  obtain ⟨ts, h1, h2, -⟩ :=
    C11_texts_are_lexemes "int main()\x7breturn 0;\x7d".toList (by decide) (by decide)
      (by decide) (by decide)
  exact ⟨ts, h1, by rw [h2]; decide⟩

theorem blanks_mem (m : Nat) (rest : List Char) (c : Char)
    (h : c ∈ List.replicate m ' ' ++ rest) : c = ' ' ∨ c ∈ rest := by
  rcases List.mem_append.1 h with h1 | h1
  · exact Or.inl (List.eq_of_mem_replicate h1)
  · exact Or.inr h1

theorem blanks_filter (m : Nat) (rest : List Char) :
    (List.replicate m ' ' ++ rest).filter lexemeChar = rest.filter lexemeChar := by
  induction m with
  | zero => rfl
  | succ m ih =>
    rw [List.replicate_succ, List.cons_append,
      List.filter_cons_of_neg (show ¬ lexemeChar ' ' = true by decide)]
    exact ih

/-- C11 as stated fails on the input of `2^31` blanks followed by `b`, which has
no sentinel character and no slash: the call returns no token, while the input
with the blanks removed is `b`. -/
theorem C11_counterexample :
    ((∀ c ∈ List.replicate 2147483648 ' ' ++ ['b'], c ≠ NUL) ∧
      ¬ List.IsInfix ['/', '/'] (List.replicate 2147483648 ' ' ++ ['b']) ∧
      ¬ List.IsInfix ['/', '*'] (List.replicate 2147483648 ' ' ++ ['b'])) ∧
    tokenize32 (List.replicate 2147483648 ' ' ++ ['b']) = some [] ∧
    (List.replicate 2147483648 ' ' ++ ['b']).filter lexemeChar = ['b'] ∧
    ¬ ((([] : List Token32).map Token32.value).flatten = ['b']) := by
  have hmem : ∀ c ∈ List.replicate 2147483648 ' ' ++ ['b'], c = ' ' ∨ c = 'b' := by
    intro c hc
    rcases blanks_mem _ _ c hc with h | h
    · exact Or.inl h
    · exact Or.inr (List.mem_singleton.1 h)
  have hslash : ¬ '/' ∈ List.replicate 2147483648 ' ' ++ ['b'] := by
    intro h
    rcases hmem _ h with e | e
    · exact absurd e (by decide)
    · exact absurd e (by decide)
  refine ⟨⟨?_, ?_, ?_⟩, ?_, ?_, by decide⟩
  · intro c hc
    rcases hmem c hc with e | e
    · rw [e]; decide
    · rw [e]; decide
  · intro h
    exact hslash (h.subset (List.mem_cons_self _ _))
  · intro h
    exact hslash (h.subset (List.mem_cons_self _ _))
  · unfold tokenize32
    rw [tokenize32_overflow 2147483647 ['b'] rfl]
    rfl
  · rw [blanks_filter]
    rfl

theorem tokenize_body_NUL (s : Lexer) (h : s.current_char = NUL) :
    tokenize_body s = some (advance s, none) := by
  unfold tokenize_body scan_token operator
  simp only [h]
  rfl

/-- C15, amended. Line-counter invariant on an input of at most `2^31 - 2`
characters: at the head of every iteration of the main loop and when
`tokenize` returns, the line counter is one plus the number of newlines among
the characters before the cursor; and every token returned was pushed by an
iteration entered with the cursor on the first character of the token text, so
its line is one plus the number of newlines before that character. -/
theorem C15_line_counter_invariant (input : List Char)
    (hlen : input.length + 1 < 2147483648) :
    (∀ k s, loop_head32 k (Lexer32.new input) = some s →
      s.line = 1 + (((input.take s.pos.toNat).count '\n' : Nat) : Int)) ∧
    (∃ ts fin, (Lexer32.new input).tokenize = some (ts, fin) ∧
      fin.line = 1 + (((input.take fin.pos.toNat).count '\n' : Nat) : Int) ∧
      ∀ t ∈ ts, ∃ k s s2, loop_head32 k (Lexer32.new input) = some s ∧
        tokenize_body32 s = some (s2, some t) ∧
        List.IsPrefix t.value (input.drop s.pos.toNat) ∧ t.value ≠ [] ∧
        t.line = 1 + (((input.take s.pos.toNat).count '\n' : Nat) : Int)) := by
  obtain ⟨h1, ts, fin, h2, h3, h4⟩ := line_counter_invariant_unbounded input
  refine ⟨?_, ts.map Token.to32, fin.to32, ?_, ?_, ?_⟩
  · intro k s h
    obtain ⟨s0, e1, e2, -⟩ := loop_head32_new input hlen k s h
    subst e2
    rw [to32_line, to32_pos, h1 k s0 e1]
    push_cast
    rfl
  · rw [tokenize32_new input hlen, h2]
    rfl
  · rw [to32_line, to32_pos, h3]
    push_cast
    rfl
  · intro t ht
    obtain ⟨t0, ht0, rfl⟩ := List.mem_map.1 ht
    obtain ⟨k, s, s2, e1, e2, e3, e4, e5⟩ := h4 t0 ht0
    have hf : Fits s := (loop_head32_to32 k (Lexer.new input) (Fits_new input hlen)).2 s e1
    have hc : s.current_char ≠ NUL := by
      intro hn
      rw [tokenize_body_NUL s hn] at e2
      simp at e2
    refine ⟨k, s.to32, s2.to32, ?_, ?_, e3, e4, ?_⟩
    · rw [new32_eq, (loop_head32_to32 k (Lexer.new input) (Fits_new input hlen)).1, e1]
      rfl
    · rw [(tokenize_body32_to32 s hf hc).1, e2]
      rfl
    · show ((t0.line : Nat) : Int) = _
      rw [to32_pos, e5]
      push_cast
      rfl

/-- C15, amended, on the input `a`, newline, `b`: after two iterations the
cursor is on `b` at position 2 and the line counter is 2. -/
theorem C15_line_counter_invariant_witness :
    ("a\nb".toList).length + 1 < 2147483648 ∧
    loop_head32 2 (Lexer32.new "a\nb".toList) =
      some { input := "a\nb".toList, pos := 2, line := 2, current_char := 'b' } ∧
    (2 : Int) = 1 + (((("a\nb".toList).take (2 : Int).toNat).count '\n' : Nat) : Int) :=
  ⟨by decide, by decide,
   (C15_line_counter_invariant "a\nb".toList (by decide)).1 2
     { input := "a\nb".toList, pos := 2, line := 2, current_char := 'b' } (by decide)⟩

/-- C15 as stated fails on the input of a newline followed by `2^31` blanks:
`tokenize` returns with the line counter at 2 and `pos = -2^31`, and no
character of the input lies before that position. -/
theorem C15_counterexample :
    (Lexer32.new ('\n' :: List.replicate 2147483648 ' ')).tokenize =
      some ([], { input := '\n' :: List.replicate 2147483648 ' ', pos := -2147483648,
                  line := 2, current_char := NUL }) ∧
    ¬ ((2 : Int) = 1 + (((('\n' :: List.replicate 2147483648 ' ').take
        (-2147483648 : Int).toNat).count '\n' : Nat) : Int)) := by
  have h : ∀ xs : List Char,
      ¬ ((2 : Int) = 1 + (((xs.take (-2147483648 : Int).toNat).count '\n' : Nat) : Int)) := by
    intro xs
    rw [show (-2147483648 : Int).toNat = 0 from rfl, List.take_zero]
    decide
  exact ⟨tokenize32_newline_overflow 2147483646 rfl, h _⟩

/-- C16, amended. On an input of at most `2^31 - 2` characters that contains no
sentinel character the main loop stops only at the end of the input:
`tokenize` returns with the cursor position equal to the length of the input. -/
theorem C16_stops_at_end (input : List Char) (hlen : input.length + 1 < 2147483648)
    (h : ∀ c ∈ input, c ≠ NUL) :
    ∃ ts fin, (Lexer32.new input).tokenize = some (ts, fin) ∧
      fin.pos = (input.length : Int) ∧ fin.current_char = NUL := by
  obtain ⟨ts, fin, e1, e2, e3⟩ := stops_at_end_unbounded input h
  refine ⟨ts.map Token.to32, fin.to32, ?_, e2, e3⟩
  rw [tokenize32_new input hlen, e1]
  rfl

/-- C16, amended, on the input `a#b`: the call returns at position 3. -/
theorem C16_stops_at_end_witness :
    (("a#b".toList).length + 1 < 2147483648 ∧ ∀ c ∈ "a#b".toList, c ≠ NUL) ∧
    ∃ ts fin, (Lexer32.new "a#b".toList).tokenize = some (ts, fin) ∧
      fin.pos = (("a#b".toList).length : Int) ∧ fin.current_char = NUL :=
  ⟨⟨by decide, by decide⟩, C16_stops_at_end "a#b".toList (by decide) (by decide)⟩

/-- C16 as stated fails on the input `a`, sentinel, `b`: the main loop stops on
the sentinel character at position 1, while the input has length 3.  It also
fails on the input of `2^31` blanks followed by `b`, which has no sentinel
character: the call returns with `pos = -2^31`. -/
theorem C16_counterexample :
    ((Lexer32.new ['a', NUL, 'b']).tokenize =
        some ([{ line := 1, type := TokenType.IDENT, value := ['a'] }],
          { input := ['a', NUL, 'b'], pos := 1, line := 1, current_char := NUL }) ∧
      ¬ ((1 : Int) = ((['a', NUL, 'b'] : List Char).length : Int))) ∧
    ((∀ c ∈ List.replicate 2147483648 ' ' ++ ['b'], c ≠ NUL) ∧
      (Lexer32.new (List.replicate 2147483648 ' ' ++ ['b'])).tokenize =
        some ([], { input := List.replicate 2147483648 ' ' ++ ['b'], pos := -2147483648,
                    line := 1, current_char := NUL }) ∧
      ¬ ((-2147483648 : Int) = ((List.replicate 2147483648 ' ' ++ ['b']).length : Int))) := by
  refine ⟨⟨by decide, by decide⟩, ?_, tokenize32_overflow 2147483647 ['b'] rfl, ?_⟩
  · intro c hc
    rcases blanks_mem _ _ c hc with e | e
    · rw [e]; decide
    · rw [List.mem_singleton.1 e]; decide
  · rw [List.length_append, List.length_replicate]
    decide

/-- C20, amended. Cursor safety on an input of at most `2^31 - 2` characters:
in every state the object passes through during `tokenize`, the rewind of
`skip_comment` included, `0 ≤ pos ≤ length(input)`, the states at the heads of
the main loop being among them; at every head of the main loop, at the return
of `advance`, `skip_whitespace`, `skip_comment`, `number` and `identifier`
called there, and at the return of `tokenize`, `current_char` is `input[pos]`
when `pos < length(input)` and the sentinel otherwise; and the rewind, taken
when the slash is followed by neither a slash nor a star, puts `pos` back on
the index of that slash, which is not negative and within the buffer. -/
theorem C20_cursor_safety (input : List Char) (hlen : input.length + 1 < 2147483648) :
    (∀ x ∈ tokenize_trace32 (input.length + 1) (Lexer32.new input),
      x.input = input ∧ 0 ≤ x.pos ∧ x.pos ≤ (input.length : Int)) ∧
    (∀ k s, loop_head32 k (Lexer32.new input) = some s →
      s ∈ tokenize_trace32 (input.length + 1) (Lexer32.new input)) ∧
    (∀ k s, loop_head32 k (Lexer32.new input) = some s →
      Consistent32 s ∧
      (∃ s1, skip_whitespace32 s = some s1 ∧ Consistent32 s1) ∧
      (∃ s1, skip_comment32 s = some s1 ∧ Consistent32 s1) ∧
      (isdigit s.current_char = true → ∃ t s1, number32 s = some (t, s1) ∧ Consistent32 s1) ∧
      (s.current_char = '_' ∨ isalpha s.current_char = true →
        ∃ t s1, identifier32 s = some (t, s1) ∧ Consistent32 s1) ∧
      (s.current_char = '/' → (advance32 s).current_char ≠ '/' →
        (advance32 s).current_char ≠ '*' →
        0 ≤ wrap32 ((advance32 s).pos - 1) ∧
        wrap32 ((advance32 s).pos - 1) < (input.length : Int) ∧
        input[(wrap32 ((advance32 s).pos - 1)).toNat]? = some '/' ∧
        skip_comment32 s =
          some { advance32 s with
                 pos := wrap32 ((advance32 s).pos - 1), current_char := '/' })) ∧
    (∃ ts fin, (Lexer32.new input).tokenize = some (ts, fin) ∧ Consistent32 fin) ∧
    (∀ s : Lexer32, Consistent32 (advance32 s)) := by
  obtain ⟨h1, h2, h3, ⟨ts, fin, h4, h5⟩, -⟩ := cursor_safety_unbounded input
  have htr : tokenize_trace32 (input.length + 1) (Lexer32.new input) =
      (tokenize_trace (input.length + 1) (Lexer.new input)).map Lexer.to32 := by
    rw [new32_eq]
    exact tokenize_trace32_to32 _ _ (Fits_new input hlen)
  refine ⟨?_, ?_, ?_, ⟨ts.map Token.to32, fin.to32, ?_, consistent32_to32 fin h5⟩,
    fun s => rfl⟩
  · intro x hx
    rw [htr] at hx
    obtain ⟨x0, hx0, rfl⟩ := List.mem_map.1 hx
    exact h1 x0 hx0
  · intro k s h
    obtain ⟨s0, e1, e2, -⟩ := loop_head32_new input hlen k s h
    rw [htr, e2]
    exact List.mem_map_of_mem _ (h2 k s0 e1)
  · intro k s h
    obtain ⟨s0, e1, e2, hf⟩ := loop_head32_new input hlen k s h
    subst e2
    obtain ⟨c1, ⟨a1, b1, b2⟩, ⟨a2, b3, b4⟩, c4, c5, c6⟩ := h3 k s0 e1
    refine ⟨consistent32_to32 s0 c1, ⟨a1.to32, ?_, consistent32_to32 a1 b2⟩,
      ⟨a2.to32, ?_, consistent32_to32 a2 b4⟩, ?_, ?_, ?_⟩
    · rw [(skip_whitespace32_to32 s0 hf).1, b1]
      rfl
    · rw [(skip_comment32_to32 s0 hf).1, b3]
      rfl
    · intro hd
      obtain ⟨t, a3, b5, b6⟩ := c4 hd
      refine ⟨t.to32, a3.to32, ?_, consistent32_to32 a3 b6⟩
      rw [(number32_to32 s0 hf).1, b5]
      rfl
    · intro ha
      obtain ⟨t, a3, b5, b6⟩ := c5 ha
      refine ⟨t.to32, a3.to32, ?_, consistent32_to32 a3 b6⟩
      rw [(identifier32_to32 s0 hf).1, b5]
      rfl
    · intro hs hn1 hn2
      rw [advance32_to32 s0 (Fits_pos s0 hf)] at hn1 hn2 ⊢
      obtain ⟨d1, d2, d3, d4⟩ := c6 hs hn1 hn2
      rw [to32_pos, wrap32_eq _ (by omega) (by omega)]
      refine ⟨d1, d2, d3, ?_⟩
      rw [(skip_comment32_to32 s0 hf).1, d4]
      rfl
  · rw [tokenize32_new input hlen, h4]
    rfl

/-- C20, amended, on the input `a/b`: the loop head on the slash at position 1,
where the rewind of `skip_comment` puts `pos` back on index 1, which holds the
slash. -/
theorem C20_cursor_safety_witness :
    ("a/b".toList).length + 1 < 2147483648 ∧
    loop_head32 1 (Lexer32.new "a/b".toList) =
      some { input := "a/b".toList, pos := 1, line := 1, current_char := '/' } ∧
    ((0 : Int) ≤ wrap32 (2 - 1) ∧ wrap32 (2 - 1) < 3 ∧
      "a/b".toList[(wrap32 (2 - 1)).toNat]? = some '/') ∧
    skip_comment32 { input := "a/b".toList, pos := 1, line := 1, current_char := '/' } =
      some { input := "a/b".toList, pos := 1, line := 1, current_char := '/' } := by
  have h := ((C20_cursor_safety "a/b".toList (by decide)).2.2.1 1
    { input := "a/b".toList, pos := 1, line := 1, current_char := '/' } (by decide)).2.2.2.2.2
    (by decide) (by decide) (by decide)
  exact ⟨by decide, by decide, ⟨h.1, h.2.1, h.2.2.1⟩, h.2.2.2⟩

/-- C20 as stated fails on the input of `2^31` blanks followed by `b`: the state
in which `skip_whitespace`, the first iteration of the main loop and
`tokenize` return has `pos = -2^31`, which is negative. -/
theorem C20_counterexample :
    skip_whitespace32 (Lexer32.new (List.replicate 2147483648 ' ' ++ ['b'])) =
      some { input := List.replicate 2147483648 ' ' ++ ['b'], pos := -2147483648, line := 1,
             current_char := NUL } ∧
    (Lexer32.new (List.replicate 2147483648 ' ' ++ ['b'])).tokenize =
      some ([], { input := List.replicate 2147483648 ' ' ++ ['b'], pos := -2147483648,
                  line := 1, current_char := NUL }) ∧
    ¬ ((0 : Int) ≤ -2147483648) :=
  ⟨skip_whitespace32_overflow 2147483647 ['b'] rfl, tokenize32_overflow 2147483647 ['b'] rfl,
    by decide⟩

end ToyC
